import Mathlib

/-!
# Arithmetic-expression orchestrator (`server/internal/application.go`)

A shallow embedding of the coordinator of the distributed calculator:

* the expression compiler (`infixToRPN`, `buildTasksFromRPN`),
* expression submission (`addExpression`),
* the worker-facing endpoint (`giveTaskHandler`, GET = dispatch, POST = result).

Modelling conventions.

* Go strings are Lean `String`s; the scanning functions work on their character lists.
* `strconv.ParseFloat(s, 64)` is a library function; `isNumeric` needs only whether it
  returns an error, which is modelled by `parseFloatOk` (syntax of package `strconv`,
  followed by the range check of a correctly rounded conversion).
* A `float64` that went through JSON is finite; `Float64` is sign, mantissa and binary
  exponent, and `formatFloat` is `fmt.Sprintf("%f", x)`.
* `*models.Task` pointers are addresses into `Application.heap`: the task chain of an
  expression, the task registry and the task queue all hold addresses, so that a rewrite
  of an operand through one of them is seen through the others, as in the source.
* `uuid.New().String()` is an input: the identifier of the expression and the function
  giving the identifier of the k-th task created.
* The order of `Application.expressions` stands for the order in which `range` visits the
  map in the call at hand.
-/

set_option linter.dupNamespace false

namespace Calc

deriving instance DecidableEq for Except

/-! ## Strings -/

/-- Go `unicode.IsSpace`: the white-space code points. -/
def isSpace (c : Char) : Bool :=
  let n := c.toNat
  (9 ≤ n && n ≤ 13) || n == 32 || n == 0x85 || n == 0xA0 || n == 0x1680 ||
  (0x2000 ≤ n && n ≤ 0x200A) || n == 0x2028 || n == 0x2029 || n == 0x202F ||
  n == 0x205F || n == 0x3000

/-- Loop of `strings.Fields`: `cur` is the current field, last character first. -/
def fieldsAux : List Char → List Char → List String
  | cur, [] => if cur.isEmpty then [] else [String.mk cur.reverse]
  | cur, c :: cs =>
    if isSpace c then
      if cur.isEmpty then fieldsAux [] cs else String.mk cur.reverse :: fieldsAux [] cs
    else fieldsAux (c :: cur) cs

/-- Go `strings.Fields`: the maximal runs of non-space characters. -/
def fields (s : String) : List String := fieldsAux [] s.data

/-! ## `strconv.ParseFloat` -/

/-- A decimal digit `'0'..'9'`. -/
def isDigit (c : Char) : Bool := 48 ≤ c.toNat && c.toNat ≤ 57

/-- Package strconv `lower(c)`, that is `c | ('x' - 'X')`. -/
def lower (c : Char) : Nat := c.toNat ||| 0x20

/-- A hexadecimal letter: `'a' <= lower(c) && lower(c) <= 'f'`. -/
def isHexLetter (c : Char) : Bool := 97 ≤ lower c && lower c ≤ 102

/-- Lower-casing of `commonPrefixLenIgnoreCase`: only `'A'..'Z'` change. -/
def asciiLower (c : Char) : Char :=
  if 65 ≤ c.toNat ∧ c.toNat ≤ 90 then Char.ofNat (c.toNat + 32) else c

/-- Package strconv `special`, together with the demand that it consumes the whole string:
an optionally signed `inf` or `infinity`, or an unsigned `nan`, in any case. -/
def special (s : List Char) : Bool :=
  match s with
  | [] => false
  | c :: r =>
    if c = '+' ∨ c = '-' then
      r.map asciiLower = "inf".data || r.map asciiLower = "infinity".data
    else if c = 'i' ∨ c = 'I' then
      s.map asciiLower = "inf".data || s.map asciiLower = "infinity".data
    else if c = 'n' ∨ c = 'N' then
      s.map asciiLower = "nan".data
    else false

/-- The variables of the mantissa loop of `readFloat`. `mant` holds every significant
digit (the source keeps the first 19 and a `trunc` flag, the slow path reads the rest). -/
structure MantState where
  sawdot : Bool
  sawdigits : Bool
  nd : Nat
  dp : Int
  mant : Nat
  underscores : Bool
  deriving DecidableEq, Repr

/-- The mantissa loop of `readFloat`; returns the state and the unread characters. -/
def readMant (hex : Bool) : MantState → List Char → MantState × List Char
  | st, [] => (st, [])
  | st, c :: cs =>
    if c = '_' then readMant hex { st with underscores := true } cs
    else if c = '.' then
      if st.sawdot then (st, c :: cs)
      else readMant hex { st with sawdot := true, dp := st.nd } cs
    else if isDigit c then
      if c = '0' ∧ st.nd = 0 then
        readMant hex { st with sawdigits := true, dp := st.dp - 1 } cs
      else
        readMant hex { st with sawdigits := true, nd := st.nd + 1,
                               mant := st.mant * (if hex then 16 else 10) + (c.toNat - 48) } cs
    else if hex && isHexLetter c then
      readMant hex { st with sawdigits := true, nd := st.nd + 1,
                             mant := st.mant * 16 + (lower c - 97 + 10) } cs
    else (st, c :: cs)

/-- The exponent-digit loop of `readFloat` (the exponent saturates once it reaches 10000). -/
def readExpDigits : Nat → Bool → List Char → Nat × Bool × List Char
  | e, us, [] => (e, us, [])
  | e, us, c :: cs =>
    if c = '_' then readExpDigits e true cs
    else if isDigit c then
      readExpDigits (if e < 10000 then e * 10 + (c.toNat - 48) else e) us cs
    else (e, us, c :: cs)

/-- The scan of `underscoreOK`; `saw` is the class of the last character. -/
def underscoreOKLoop (hex : Bool) : Char → List Char → Bool
  | saw, [] => saw != '_'
  | saw, c :: cs =>
    if isDigit c || (hex && isHexLetter c) then underscoreOKLoop hex '0' cs
    else if c = '_' then
      if saw != '0' then false else underscoreOKLoop hex '_' cs
    else if saw = '_' then false
    else underscoreOKLoop hex '!' cs

/-- Package strconv `underscoreOK`. -/
def underscoreOK (s : List Char) : Bool :=
  let s1 := match s with
    | c :: r => if c = '-' ∨ c = '+' then r else s
    | [] => s
  match s1 with
  | c0 :: c1 :: r =>
    if c0 = '0' ∧ (lower c1 = 98 ∨ lower c1 = 111 ∨ lower c1 = 120) then
      underscoreOKLoop (lower c1 = 120) '0' r
    else underscoreOKLoop false '^' s1
  | _ => underscoreOKLoop false '^' s1

/-- The least magnitude that rounds to infinity: `2^1024 - 2^970`, half an ulp above the
largest `float64`, written out in decimal. -/
def overflowThreshold : Nat :=
  179769313486231580793728971405303415079934132710037826936173778980444968292764750946649017977587207096330286416692887910946555547851940402630657488671505820681908902000708383676273854845817711531764475730270069855571366959622842914819860834936475292719074168444365510704342711559699508093042880177904174497792

/-- Whether `mant * base ^ e` rounds to infinity (`ErrRange`). -/
def overflows (hex : Bool) (mant : Nat) (e : Int) : Bool :=
  let b : Nat := if hex then 2 else 10
  if 0 ≤ e then decide (overflowThreshold ≤ mant * b ^ e.toNat)
  else decide (overflowThreshold * b ^ (-e).toNat ≤ mant)

/-- What `readFloat` hands back when it succeeds: the sign, the base, every significant
digit as one number, and the exponent of the base. -/
structure FloatLit where
  neg : Bool
  hex : Bool
  mant : Nat
  exp : Int
  deriving DecidableEq, Repr

/-- The end of `readFloat`, together with the demand of `ParseFloat` that the whole string
was read: nothing is left and the underscores are well placed. -/
def parseFinish (s : List Char) (neg hex : Bool) (st : MantState) (dp : Int) (us : Bool)
    (rest : List Char) : Option FloatLit :=
  if rest.isEmpty && (!us || underscoreOK s) then
    some { neg := neg, hex := hex, mant := st.mant,
           exp := dp - (if hex then 4 * (st.nd : Int) else st.nd) }
  else none

/-- The part of `readFloat` that follows the mantissa loop. -/
def parseExponent (s : List Char) (neg hex : Bool) (st : MantState) (rest : List Char) :
    Option FloatLit :=
  if !st.sawdigits then none
  else
    let dp0 : Int := if st.sawdot then st.dp else st.nd
    let dp1 : Int := if hex then dp0 * 4 else dp0
    let expChar : Nat := if hex then 112 else 101
    match rest with
    | c :: r =>
      if lower c = expChar then
        match r with
        | [] => none
        | d :: r1 =>
          let esign : Int := if d = '-' then -1 else 1
          let r2 := if d = '+' ∨ d = '-' then r1 else d :: r1
          match r2 with
          | [] => none
          | d2 :: _ =>
            if isDigit d2 then
              let res := readExpDigits 0 st.underscores r2
              parseFinish s neg hex st (dp1 + (res.1 : Int) * esign) res.2.1 res.2.2
            else none
      else if hex then none
      else parseFinish s neg hex st dp1 st.underscores rest
    | [] => if hex then none else parseFinish s neg hex st dp1 st.underscores rest

/-- The state in which the mantissa loop starts. -/
def MantState.init : MantState :=
  { sawdot := false, sawdigits := false, nd := 0, dp := 0, mant := 0, underscores := false }

/-- Package strconv `readFloat` on a whole string: sign, base prefix, mantissa, exponent. -/
def readFloat (s : List Char) : Option FloatLit :=
  match s with
  | [] => none
  | c :: r =>
    let neg : Bool := c = '-'
    let r1 := if c = '+' ∨ c = '-' then r else s
    match r1 with
    | c0 :: c1 :: c2 :: r2 =>
      if c0 = '0' ∧ lower c1 = 120 then
        parseExponent s neg true (readMant true MantState.init (c2 :: r2)).1
          (readMant true MantState.init (c2 :: r2)).2
      else
        parseExponent s neg false (readMant false MantState.init r1).1
          (readMant false MantState.init r1).2
    | _ =>
      parseExponent s neg false (readMant false MantState.init r1).1
        (readMant false MantState.init r1).2

/-- Whether the literal rounds to infinity. -/
def FloatLit.outOfRange (f : FloatLit) : Bool := overflows f.hex f.mant f.exp

/-- The exact value of the literal. -/
def FloatLit.value (f : FloatLit) : ℚ :=
  (if f.neg then -1 else 1) * (f.mant : ℚ) * (if f.hex then 2 else 10 : ℚ) ^ f.exp

/-- Whether `strconv.ParseFloat(s, 64)` returns no error. -/
def parseFloatOk (s : List Char) : Bool :=
  special s ||
  match readFloat s with
  | some f => !f.outOfRange
  | none => false

/-- The exact value of a numeric string that denotes a number (not an infinity or NaN). -/
def numValue (s : String) : Option ℚ :=
  match readFloat s.data with
  | some f => if f.outOfRange then none else some f.value
  | none => none

/-- Source `isNumeric`: `strconv.ParseFloat(s, 64)` succeeds. -/
def isNumeric (s : String) : Bool := parseFloatOk s.data

/-! ## `float64` results and `%f` -/

/-- A finite `float64`: `(-1)^neg * mant * 2^exp`. -/
structure Float64 where
  neg : Bool
  mant : Nat
  exp : Int
  deriving DecidableEq, Repr

/-- The float of a natural number. -/
def Float64.ofNat (n : Nat) : Float64 := { neg := false, mant := n, exp := 0 }

/-- The exact value of a float. -/
def Float64.toRat (x : Float64) : ℚ :=
  (if x.neg then -1 else 1) * (x.mant : ℚ) * (2 : ℚ) ^ x.exp

/-- The magnitude of `x` times `10^6`, rounded to the nearest integer, ties to even. -/
def Float64.scaled (x : Float64) : Nat :=
  if 0 ≤ x.exp then x.mant * 2 ^ x.exp.toNat * 10 ^ 6
  else
    let d := 2 ^ (-x.exp).toNat
    let q := x.mant * 10 ^ 6 / d
    let r := x.mant * 10 ^ 6 % d
    if d < 2 * r then q + 1
    else if 2 * r = d then (if q % 2 = 0 then q else q + 1)
    else q

/-- The decimal digits of `n`, padded on the left with zeros to at least `width`. -/
def padDigits (width n : Nat) : List Char :=
  let ds := Nat.toDigits 10 n
  List.replicate (width - ds.length) '0' ++ ds

/-- Go `fmt.Sprintf("%f", x)`: fixed-point rendering with six fractional digits. -/
def formatFloat (x : Float64) : String :=
  let n := x.scaled
  String.mk ((if x.neg then ['-'] else []) ++ Nat.toDigits 10 (n / 10 ^ 6) ++ ['.'] ++
    padDigits 6 (n % 10 ^ 6))

/-- Go `fmt.Sprintf("T%d", k)` for an index `k`. -/
def placeholder (k : Nat) : String := String.mk ('T' :: Nat.toDigits 10 k)

/-! ## Data model -/

/-- Source `models.Operation`. -/
inductive Operation where
  | OperationAddition
  | OperationSubtraction
  | OperationMultiplication
  | OperationDivision
  deriving DecidableEq, Repr

/-- Source `models.Task`. -/
structure Task where
  ID : String
  Arg1 : String
  Arg2 : String
  Operation : Operation
  OperationTime : Int
  deriving DecidableEq, Repr

instance : Inhabited Task :=
  ⟨{ ID := "", Arg1 := "", Arg2 := "", Operation := .OperationAddition, OperationTime := 0 }⟩

/-- Source `Config`. -/
structure Config where
  Addr : String
  TimeAdditionMS : Int
  TimeSubtractionMS : Int
  TimeMultiplicationsMS : Int
  TimeDivisionsMS : Int
  deriving DecidableEq, Repr

/-- Source `ExpressionStatus`. -/
inductive ExpressionStatus where
  | StatusPending
  | StatusProcessing
  | StatusCompleted
  | StatusFailed
  deriving DecidableEq, Repr

/-- Source `Expression`; `Tasks` holds the addresses of the tasks of the chain. -/
structure Expression where
  ID : String
  Expression : String
  Status : ExpressionStatus
  Result : Option Float64
  Tasks : List Nat
  CurrentTaskIndex : Int
  deriving DecidableEq, Repr

/-- Source `Application` (without the mutex), with the task objects in `heap`. -/
structure Application where
  config : Config
  heap : List Task
  expressions : List (String × Expression)
  tasks : List (String × Nat)
  taskQueue : List Nat
  deriving DecidableEq, Repr

/-- State of `New()` for a given configuration: empty maps and an empty queue. -/
def New (config : Config) : Application :=
  { config := config, heap := [], expressions := [], tasks := [], taskQueue := [] }

/-- The task at address `p`. -/
def deref (heap : List Task) (p : Nat) : Task := heap.getD p default

/-- Map assignment `m[k] = v`: the entry of an existing key is overwritten. -/
def mapSet {β : Type} : List (String × β) → String → β → List (String × β)
  | [], k, v => [(k, v)]
  | (k1, v1) :: m, k, v => if k1 = k then (k, v) :: m else (k1, v1) :: mapSet m k v

/-- Map membership `_, ok := m[k]`. -/
def mapHas {β : Type} (m : List (String × β)) (k : String) : Bool :=
  m.any (fun kv => kv.1 == k)

/-! ## The compiler -/

/-- The errors of `infixToRPN` and `buildTasksFromRPN`. -/
inductive CompileError where
  | mismatchedParentheses
  | unknownToken (token : String)
  | invalidExpression
  | unknownTokenInRPN (token : String)
  | remainingStack (stack : List String)
  deriving DecidableEq, Repr

/-- One of the four operator tokens. -/
def isOperator (token : String) : Bool :=
  token == "+" || token == "-" || token == "*" || token == "/"

/-- The map `precedence` of `infixToRPN`; a key that is absent reads as 0. -/
def precedence (token : String) : Int :=
  if token = "+" ∨ token = "-" then 1
  else if token = "*" ∨ token = "/" then 2
  else 0

/-- The loop run at `")"`: operators move to the output until `"("` is on top.
The operator stack has its top first. -/
def popToParen : List String → List String → List String × List String
  | output, [] => (output, [])
  | output, top :: opStack =>
    if top = "(" then (output, top :: opStack)
    else popToParen (output ++ [top]) opStack

/-- The loop run at an operator: operators of at least its precedence move to the output. -/
def popOperators (token : String) : List String → List String → List String × List String
  | output, [] => (output, [])
  | output, top :: opStack =>
    if top = "(" then (output, top :: opStack)
    else if precedence top ≥ precedence token then popOperators token (output ++ [top]) opStack
    else (output, top :: opStack)

/-- The final loop of `infixToRPN`: the operator stack is emptied into the output. -/
def drainStack : List String → List String → Except CompileError (List String)
  | output, [] => .ok output
  | output, top :: opStack =>
    if top = "(" ∨ top = ")" then .error .mismatchedParentheses
    else drainStack (output ++ [top]) opStack

/-- The token loop of `infixToRPN`. -/
def infixLoop : List String → List String → List String → Except CompileError (List String)
  | [], output, opStack => drainStack output opStack
  | token :: tokens, output, opStack =>
    if isNumeric token then infixLoop tokens (output ++ [token]) opStack
    else if token = "(" then infixLoop tokens output (token :: opStack)
    else if token = ")" then
      match popToParen output opStack with
      | (_, []) => .error .mismatchedParentheses
      | (output1, _ :: opStack1) => infixLoop tokens output1 opStack1
    else if isOperator token then
      infixLoop tokens (popOperators token output opStack).1
        (token :: (popOperators token output opStack).2)
    else .error (.unknownToken token)

/-- Source `infixToRPN`. -/
def infixToRPN (expr : String) : Except CompileError (List String) :=
  infixLoop (fields expr) [] []

/-- The `switch token` of `buildTasksFromRPN`: operation and configured duration. -/
def operationOf (config : Config) (token : String) : Operation × Int :=
  if token = "+" then (.OperationAddition, config.TimeAdditionMS)
  else if token = "-" then (.OperationSubtraction, config.TimeSubtractionMS)
  else if token = "*" then (.OperationMultiplication, config.TimeMultiplicationsMS)
  else (.OperationDivision, config.TimeDivisionsMS)

/-- The token loop of `buildTasksFromRPN`. The working stack has its top first;
`mint k` is the identifier drawn for the task created when `taskCounter = k`. -/
def buildLoop (config : Config) (mint : Nat → String) :
    List String → List Task → List String → Nat → Except CompileError (List Task)
  | [], tasks, stack, _ =>
    if stack.length ≠ 1 then .error (.remainingStack stack.reverse) else .ok tasks
  | token :: tokens, tasks, stack, taskCounter =>
    if isNumeric token then buildLoop config mint tokens tasks (token :: stack) taskCounter
    else if isOperator token then
      match stack with
      | op2 :: op1 :: stack1 =>
        let task : Task :=
          { ID := mint taskCounter, Arg1 := op1, Arg2 := op2,
            Operation := (operationOf config token).1,
            OperationTime := (operationOf config token).2 }
        buildLoop config mint tokens (tasks ++ [task])
          (placeholder taskCounter :: stack1) (taskCounter + 1)
      | _ => .error .invalidExpression
    else .error (.unknownTokenInRPN token)

/-- Source `buildTasksFromRPN`. -/
def buildTasksFromRPN (tokens : List String) (config : Config) (mint : Nat → String) :
    Except CompileError (List Task) :=
  buildLoop config mint tokens [] [] 0

/-! ## Submission -/

/-- The loop `for _, t := range tasks { a.tasks[t.ID] = t }`; `p` is the address of the
first task of the list. -/
def registerTasks : List (String × Nat) → List Task → Nat → List (String × Nat)
  | registry, [], _ => registry
  | registry, t :: ts, p => registerTasks (mapSet registry t.ID p) ts (p + 1)

/-- The test `len(tasks) > 0 && isNumeric(tasks[0].Arg1) && isNumeric(tasks[0].Arg2)`. -/
def firstTaskReady : List Task → Bool
  | [] => false
  | t :: _ => isNumeric t.Arg1 && isNumeric t.Arg2

/-- Source `addExpression`: the returned identifier or error, and the state afterwards.
The new tasks are allocated at the end of the heap. -/
def addExpression (a : Application) (exprID : String) (mint : Nat → String)
    (exprStr : String) : Except CompileError String × Application :=
  match infixToRPN exprStr with
  | .error err => (.error err, a)
  | .ok tokens =>
    match buildTasksFromRPN tokens a.config mint with
    | .error err => (.error err, a)
    | .ok tasks =>
      let expr : Expression :=
        { ID := exprID, Expression := exprStr,
          Status := if firstTaskReady tasks then .StatusProcessing else .StatusPending,
          Result := none,
          Tasks := List.range' a.heap.length tasks.length,
          CurrentTaskIndex := 0 }
      (.ok exprID,
        { a with
          heap := a.heap ++ tasks
          expressions := mapSet a.expressions exprID expr
          tasks := registerTasks a.tasks tasks a.heap.length
          taskQueue :=
            if firstTaskReady tasks then a.taskQueue ++ [a.heap.length] else a.taskQueue })

/-! ## The worker endpoint -/

/-- Source `models.TaskResultRequest`: the decoded body of a result submission. -/
structure TaskResultRequest where
  ID : String
  Result : Float64
  deriving DecidableEq, Repr

/-- A request to `/internal/task`: a GET, a POST with its body (`none` when the body does
not decode), or another method. -/
inductive Request where
  | get
  | post (body : Option TaskResultRequest)
  | other
  deriving DecidableEq, Repr

/-- The answers of `giveTaskHandler`. `task` carries the fields of `outTask`. -/
inductive Response where
  | noTaskAvailable
  | task (ID Arg1 Arg2 : String) (Operation : Operation) (OperationTime : Int)
  | invalidRequestBody
  | taskNotFound
  | expressionNotFound
  | taskNotCurrent
  | ok
  | methodNotAllowed
  deriving DecidableEq, Repr

/-- The HTTP status code of an answer. -/
def Response.statusCode : Response → Nat
  | .noTaskAvailable => 404
  | .task _ _ _ _ _ => 200
  | .invalidRequestBody => 422
  | .taskNotFound => 404
  | .expressionNotFound => 404
  | .taskNotCurrent => 400
  | .ok => 200
  | .methodNotAllowed => 405

/-- The loop `for i, t := range expr.Tasks { if t.ID == req.ID ... }`: the first position
of the chain whose task has the identifier (`none` stands for -1). -/
def taskIndex (heap : List Task) (id : String) : List Nat → Option Nat
  | [] => none
  | p :: ps =>
    if (deref heap p).ID = id then some 0
    else (taskIndex heap id ps).map (· + 1)

/-- The scan over `a.expressions`: the position of the first visited expression whose
chain has a task with the identifier. -/
def findExpression (heap : List Task) (id : String) : List (String × Expression) → Option Nat
  | [] => none
  | (_, e) :: es =>
    if (taskIndex heap id e.Tasks).isSome then some 0
    else (findExpression heap id es).map (· + 1)

/-- The rewrite of the operands of the next task: an operand equal to the placeholder of
the completed task becomes the rendering of the result. -/
def substitute (nextTask : Task) (completedIndex : Nat) (result : Float64) : Task :=
  let t1 : Task :=
    if nextTask.Arg1 = placeholder completedIndex then
      { nextTask with Arg1 := formatFloat result }
    else nextTask
  if t1.Arg2 = placeholder completedIndex then { t1 with Arg2 := formatFloat result } else t1

/-- The POST branch of `giveTaskHandler` after the body was decoded. -/
def submitResult (a : Application) (req : TaskResultRequest) : Response × Application :=
  if !mapHas a.tasks req.ID then (.taskNotFound, a)
  else
    match findExpression a.heap req.ID a.expressions with
    | none => (.expressionNotFound, a)
    | some k =>
      match a.expressions[k]? with
      | none => (.expressionNotFound, a)
      | some (key, expr) =>
        match taskIndex a.heap req.ID expr.Tasks with
        | none => (.taskNotCurrent, a)
        | some completedIndex =>
          if (completedIndex : Int) ≠ expr.CurrentTaskIndex then (.taskNotCurrent, a)
          else
            match expr.Tasks[completedIndex + 1]? with
            | some p =>
              let nextTask := substitute (deref a.heap p) completedIndex req.Result
              (.ok,
                { a with
                  heap := a.heap.set p nextTask
                  expressions :=
                    a.expressions.set k
                      (key, { expr with CurrentTaskIndex := expr.CurrentTaskIndex + 1 })
                  taskQueue :=
                    if isNumeric nextTask.Arg1 && isNumeric nextTask.Arg2 then
                      a.taskQueue ++ [p]
                    else a.taskQueue })
            | none =>
              (.ok,
                { a with
                  expressions :=
                    a.expressions.set k
                      (key, { expr with
                              CurrentTaskIndex := expr.CurrentTaskIndex + 1
                              Status := .StatusCompleted
                              Result := some req.Result }) })

/-- The GET branch of `giveTaskHandler`: the head of the queue is popped. -/
def dispatch (a : Application) : Response × Application :=
  match a.taskQueue with
  | [] => (.noTaskAvailable, a)
  | p :: queue =>
    let task := deref a.heap p
    (.task task.ID task.Arg1 task.Arg2 task.Operation task.OperationTime,
      { a with taskQueue := queue })

/-- Source `giveTaskHandler`: the answer and the state afterwards. -/
def giveTaskHandler (a : Application) (r : Request) : Response × Application :=
  match r with
  | .get => dispatch a
  | .post none => (.invalidRequestBody, a)
  | .post (some req) => submitResult a req
  | .other => (.methodNotAllowed, a)

/-! ## Executions -/

/-- An operation on the coordinator. `visit` models the unspecified iteration order of the
expression map: it puts the entries in another order. -/
inductive Op where
  | submit (exprID : String) (mint : Nat → String) (exprStr : String)
  | dispatch
  | result (req : TaskResultRequest)
  | visit (order : List (String × Expression))

/-- What an execution shows from outside: the identifiers returned by dispatch and the
addresses of the tasks appended to the queue, both in order of occurrence. -/
structure Trace where
  dispatched : List String
  enqueued : List Nat
  deriving DecidableEq, Repr

/-- The identifier carried by an answer of dispatch. -/
def Response.dispatchedID : Response → List String
  | .task id _ _ _ _ => [id]
  | _ => []

/-- One operation: the state afterwards and the growth of the trace. Both `addExpression`
and a result submission only ever append to the queue, so what they appended is what
lies beyond the old length. -/
def step (a : Application) (tr : Trace) : Op → Application × Trace
  | .submit exprID mint exprStr =>
    let a1 := (addExpression a exprID mint exprStr).2
    (a1, { tr with enqueued := tr.enqueued ++ a1.taskQueue.drop a.taskQueue.length })
  | .dispatch =>
    let r := giveTaskHandler a .get
    (r.2, { tr with dispatched := tr.dispatched ++ r.1.dispatchedID })
  | .result req =>
    let a1 := (giveTaskHandler a (.post (some req))).2
    (a1, { tr with enqueued := tr.enqueued ++ a1.taskQueue.drop a.taskQueue.length })
  | .visit order =>
    if order.Perm a.expressions then ({ a with expressions := order }, tr) else (a, tr)

/-- An execution: the operations are applied from left to right. -/
def run : Application → Trace → List Op → Application × Trace
  | a, tr, [] => (a, tr)
  | a, tr, op :: ops => run (step a tr op).1 (step a tr op).2 ops

/-- The identifiers of the tasks at the given addresses. -/
def idsOf (heap : List Task) (ps : List Nat) : List String :=
  ps.map (fun p => (deref heap p).ID)

/-! ## Sample data -/

/-- The configuration of `ConfigFromEnv` with an empty environment. -/
def defaultConfig : Config :=
  { Addr := "8080", TimeAdditionMS := 1000, TimeSubtractionMS := 1000,
    TimeMultiplicationsMS := 2000, TimeDivisionsMS := 2000 }

/-- A supply of distinct task identifiers. -/
def sampleMint (k : Nat) : String := String.mk ('t' :: Nat.toDigits 10 k)

/-- The state after `"( 1 + 2 ) * 3"` was submitted to the empty coordinator: tasks `t0`
(1 + 2) and `t1` (T0 * 3), the first one queued. -/
def sampleState : Application :=
  (addExpression (New defaultConfig) "e" sampleMint "( 1 + 2 ) * 3").2

/-- The state `sampleState` after `t0` was dispatched. -/
def sampleDispatched : Application := (giveTaskHandler sampleState .get).2

/-- The state `sampleDispatched` after the result 3 was submitted for `t0`, and `t1` was
dispatched in turn. -/
def sampleSecond : Application :=
  (giveTaskHandler
    (giveTaskHandler sampleDispatched (.post (some { ID := "t0", Result := .ofNat 3 }))).2
    .get).2

/-! ## Validation -/

/-- Source `isValidChar`. -/
def isValidChar (char : Char) : Bool :=
  (48 ≤ char.toNat && char.toNat ≤ 57) ||
    char == '+' || char == '-' ||
    char == '*' || char == '/' ||
    char == '(' || char == ')' ||
    char == '.' || char == ' '

/-- Source `isValidExpression`. -/
def isValidExpression (expression : String) : Bool := expression.data.all isValidChar

/-! ## Parentheses -/

/-- A character that `strconv.ParseFloat` reads nowhere in a literal. -/
def foreignChar (c : Char) : Prop :=
  isDigit c = false ∧ isHexLetter c = false ∧ c ≠ '_' ∧ c ≠ '.' ∧ c ≠ '+' ∧ c ≠ '-' ∧
    lower c ≠ 101 ∧ lower c ≠ 112 ∧ lower c ≠ 120 ∧
    asciiLower c ∉ ['i', 'n', 'f', 't', 'y', 'a']

/-- The nesting depth after a run of characters, starting at depth `d`; `none` when a
closing parenthesis comes at depth 0. -/
def depthScan : Nat → List Char → Option Nat
  | d, [] => some d
  | d, c :: cs =>
    if c = '(' then depthScan (d + 1) cs
    else if c = ')' then (if d = 0 then none else depthScan (d - 1) cs)
    else depthScan d cs

/-- The characters of a list of tokens, one token after the other. -/
def tokenChars (tokens : List String) : List Char :=
  match tokens with
  | [] => []
  | t :: ts => t.data ++ tokenChars ts

/-- Map lookup `m[k]`. -/
def mapGet {β : Type} : List (String × β) → String → Option β
  | [], _ => none
  | (k1, v1) :: m, k => if k1 = k then some v1 else mapGet m k

/-! ## The invariant of executions -/

/-- The addresses of the tasks that lie after the current one in the chains of the table. -/
def pendingPtrs : List (String × Expression) → List Nat
  | [] => []
  | kv :: es => kv.2.Tasks.drop (kv.2.CurrentTaskIndex.toNat + 1) ++ pendingPtrs es

/-- The invariant of executions; `done` lists the addresses of the tasks dispatched so
far. A task is, at most once, either dispatched, or in the queue, or still ahead of the
current index of its chain. -/
structure RunInv (a : Application) (tr : Trace) (done : List Nat) : Prop where
  bound : ∀ p ∈ done ++ a.taskQueue ++ pendingPtrs a.expressions, p < a.heap.length
  nodup : (done ++ a.taskQueue ++ pendingPtrs a.expressions).Nodup
  dispatched_eq : tr.dispatched = idsOf a.heap done
  enqueued_eq : tr.enqueued = done ++ a.taskQueue

/-- A complete execution for `"( 1 + 2 ) * 3"`: submission, then two rounds of dispatch and
result, with the expression map visited in between and a last dispatch on the empty queue. -/
def sampleOps : List Op :=
  [.submit "e" sampleMint "( 1 + 2 ) * 3", .dispatch,
   .result { ID := "t0", Result := .ofNat 3 }, .visit sampleState.expressions, .dispatch,
   .result { ID := "t1", Result := .ofNat 9 }, .dispatch]

/-! ## Decimal digits -/

/-- The number read from decimal digit characters, continuing from `acc`. -/
def digitsFold (acc : Nat) (ds : List Char) : Nat :=
  ds.foldl (fun n c => n * 10 + (c.toNat - 48)) acc

/-- The largest `float64`. -/
def maxFloat64 : ℚ := 2 ^ 1024 - 2 ^ 971

/-- The float has at most six fractional decimal digits, so that `%f` renders it exactly. -/
def Float64.sixDigits (x : Float64) : Prop := ∃ m : ℤ, x.toRat * 10 ^ 6 = m

/-- The magnitude of the float is at most that of the largest `float64`. -/
def Float64.inRange (x : Float64) : Prop := |x.toRat| ≤ maxFloat64

/-! ## Well-formed expressions -/

/-- The token of an operation. -/
def Operation.token : Operation → String
  | .OperationAddition => "+"
  | .OperationSubtraction => "-"
  | .OperationMultiplication => "*"
  | .OperationDivision => "/"

/-- The configured duration of an operation. -/
def Config.timeOf (config : Config) : Operation → Int
  | .OperationAddition => config.TimeAdditionMS
  | .OperationSubtraction => config.TimeSubtractionMS
  | .OperationMultiplication => config.TimeMultiplicationsMS
  | .OperationDivision => config.TimeDivisionsMS

/-- The tree of an arithmetic expression. -/
inductive Ast where
  | lit (token : String)
  | bin (op : Operation) (left right : Ast)
  deriving DecidableEq, Repr

/-- The phrases of the usual grammar of arithmetic expressions, by level: sums (level 0,
`E ::= E + T | E - T | T`), products (level 1, `T ::= T * F | T / F | F`) and atoms
(level 2, `F ::= number | ( E )`). The grammar makes `*` and `/` bind tighter than `+` and
`-`, and operators of one level associate to the left. -/
inductive Phrase : Nat → Type where
  | num (token : String) : Phrase 2
  | paren (e : Phrase 0) : Phrase 2
  | atom (f : Phrase 2) : Phrase 1
  | mul (t : Phrase 1) (f : Phrase 2) : Phrase 1
  | div (t : Phrase 1) (f : Phrase 2) : Phrase 1
  | term (t : Phrase 1) : Phrase 0
  | add (e : Phrase 0) (t : Phrase 1) : Phrase 0
  | sub (e : Phrase 0) (t : Phrase 1) : Phrase 0

/-- The tokens of a phrase, in writing order. -/
def Phrase.tokens : {n : Nat} → Phrase n → List String
  | _, .num token => [token]
  | _, .paren e => "(" :: e.tokens ++ [")"]
  | _, .atom f => f.tokens
  | _, .mul t f => t.tokens ++ "*" :: f.tokens
  | _, .div t f => t.tokens ++ "/" :: f.tokens
  | _, .term t => t.tokens
  | _, .add e t => e.tokens ++ "+" :: t.tokens
  | _, .sub e t => e.tokens ++ "-" :: t.tokens

/-- The tree of a phrase. -/
def Phrase.ast : {n : Nat} → Phrase n → Ast
  | _, .num token => .lit token
  | _, .paren e => e.ast
  | _, .atom f => f.ast
  | _, .mul t f => .bin .OperationMultiplication t.ast f.ast
  | _, .div t f => .bin .OperationDivision t.ast f.ast
  | _, .term t => t.ast
  | _, .add e t => .bin .OperationAddition e.ast t.ast
  | _, .sub e t => .bin .OperationSubtraction e.ast t.ast

/-- The literals of a tree, from left to right. -/
def Ast.literals : Ast → List String
  | .lit token => [token]
  | .bin _ l r => l.literals ++ r.literals

/-- The number of operators of a tree. -/
def Ast.operators : Ast → Nat
  | .lit _ => 0
  | .bin _ l r => l.operators + r.operators + 1

/-- The postfix form of a tree. -/
def Ast.rpn : Ast → List String
  | .lit token => [token]
  | .bin op l r => l.rpn ++ r.rpn ++ [op.token]

/-- Exact arithmetic; a division by zero has no value. -/
def applyOperation (op : Operation) (x y : ℚ) : Option ℚ :=
  match op with
  | .OperationAddition => some (x + y)
  | .OperationSubtraction => some (x - y)
  | .OperationMultiplication => some (x * y)
  | .OperationDivision => if y = 0 then none else some (x / y)

/-- The value of a tree under exact arithmetic. -/
def Ast.eval : Ast → Option ℚ
  | .lit token => numValue token
  | .bin op l r => l.eval.bind fun x => r.eval.bind fun y => applyOperation op x y

/-- The operator stack lets a phrase of level `n` through: its top, if any, is an open
parenthesis or an operator that binds less than the operators of the phrase. -/
def Barrier (n : Nat) (opStack : List String) : Prop :=
  ∀ top rest, opStack = top :: rest → top = "(" ∨ precedence top < (n : Int) + 1

/-! ## The chain of a tree -/

/-- The entry that `buildTasksFromRPN` leaves on its working stack for a tree when the task
counter was `n` before: the literal itself, or the placeholder of the last task created. -/
def Ast.operand : Ast → Nat → String
  | .lit token, _ => token
  | .bin _ l r, n => placeholder (n + l.operators + r.operators)

/-- The tasks that `buildTasksFromRPN` creates for a tree when the task counter was `n`
before: those of the left operand, those of the right operand, then the task of the root. -/
def Ast.chain (config : Config) (mint : Nat → String) : Ast → Nat → List Task
  | .lit _, _ => []
  | .bin op l r, n =>
    l.chain config mint n ++ r.chain config mint (n + l.operators) ++
      [{ ID := mint (n + l.operators + r.operators), Arg1 := l.operand n,
         Arg2 := r.operand (n + l.operators), Operation := op,
         OperationTime := config.timeOf op }]

/-- Whether the tree is a literal. -/
def Ast.isLit : Ast → Bool
  | .lit _ => true
  | .bin _ _ _ => false

/-- Every operator of the tree has a literal as one of its operands, so that each task of
the chain depends on the task just before it at most. -/
def Ast.spine : Ast → Prop
  | .lit _ => True
  | .bin _ l r => (l.isLit = true ∧ r.spine) ∨ (r.isLit = true ∧ l.spine)

/-- The value of an operand of the task at position `k`: the placeholder of the task just
before stands for the value `prev` of that task, any other operand for its own value. -/
def argValue (k : Nat) (prev : Option ℚ) (arg : String) : Option ℚ :=
  if 0 < k ∧ arg = placeholder (k - 1) then prev else numValue arg

/-- The value of the task at position `k`, as `Arg1 op Arg2`. -/
def taskValue (k : Nat) (prev : Option ℚ) (t : Task) : Option ℚ :=
  (argValue k prev t.Arg1).bind fun x =>
    (argValue k prev t.Arg2).bind fun y => applyOperation t.Operation x y

/-- The value of the last task of a chain evaluated in index order from position `k`,
`prev` being the value of the task before. -/
def chainEval : Nat → Option ℚ → List Task → Option ℚ
  | _, prev, [] => prev
  | k, prev, t :: ts => chainEval (k + 1) (taskValue k prev t) ts

/-- An operand of the task at position `j` that the coordinator can resolve: a numeric
literal, or the placeholder of the task just before. -/
def ArgOK (j : Nat) (arg : String) : Prop :=
  isNumeric arg = true ∨ (0 < j ∧ arg = placeholder (j - 1))

/-- A chain that the coordinator can resolve in index order: the task at position `j` has
the `j`-th identifier and operands that are literals or the placeholder of task `j - 1`. -/
def ChainOK (mint : Nat → String) (tasks : List Task) : Prop :=
  ∀ j t, tasks[j]? = some t → t.ID = mint j ∧ ArgOK j t.Arg1 ∧ ArgOK j t.Arg2

/-! ## Sequential resolution -/

/-- The float `r` is the exact arithmetic result of a task with the given operation and
operand strings: both operands denote numbers and `r` is exactly `arg1 op arg2`. -/
def exactResult (op : Operation) (arg1 arg2 : String) (r : Float64) : Prop :=
  ((numValue arg1).bind fun x => (numValue arg2).bind fun y => applyOperation op x y) =
    some r.toRat

/-- Sequential resolution through the coordinator: in each round the head of the queue is
dispatched and the exact arithmetic result of the dispatched task is submitted for it.
`Resolves a rs b`: the rounds with the results `rs` lead from state `a` to state `b`. -/
inductive Resolves : Application → List Float64 → Application → Prop where
  | done (a : Application) : Resolves a [] a
  | round {a a1 b : Application} {id arg1 arg2 : String} {op : Operation} {time : Int}
      {r : Float64} {rs : List Float64}
      (hget : giveTaskHandler a .get = (.task id arg1 arg2 op time, a1))
      (hexact : exactResult op arg1 arg2 r)
      (hrest : Resolves (giveTaskHandler a1 (.post (some { ID := id, Result := r }))).2 rs b) :
      Resolves a (r :: rs) b

/-- The state of the coordinator when the task at position `k` of the only chain is the
one in the queue: the tasks after it are as compiled, its own operands are numeric and
denote the values that the chain gives them. -/
structure Stage (mint : Nat → String) (exprID s : String) (tasks : List Task) (k : Nat)
    (a : Application) : Prop where
  lt : k < tasks.length
  heap_len : a.heap.length = tasks.length
  ids : ∀ j, j < tasks.length → (deref a.heap j).ID = mint j
  ahead : ∀ j, k < j → deref a.heap j = deref tasks j
  operation : (deref a.heap k).Operation = (deref tasks k).Operation
  numeric1 : isNumeric (deref a.heap k).Arg1 = true
  numeric2 : isNumeric (deref a.heap k).Arg2 = true
  value1 : numValue (deref a.heap k).Arg1 =
    argValue k (chainEval 0 none (tasks.take k)) (deref tasks k).Arg1
  value2 : numValue (deref a.heap k).Arg2 =
    argValue k (chainEval 0 none (tasks.take k)) (deref tasks k).Arg2
  exprs : a.expressions =
    [(exprID, { ID := exprID, Expression := s, Status := .StatusProcessing, Result := none,
                Tasks := List.range' 0 tasks.length, CurrentTaskIndex := k })]
  registry : ∀ j, j < tasks.length → mapHas a.tasks (mint j) = true
  queue : a.taskQueue = [k]

/-! ## Sample expressions -/

/-- The phrase `2 + 3 * 4`. -/
def samplePhrase : Phrase 0 :=
  .add (.term (.atom (.num "2"))) (.mul (.atom (.num "3")) (.num "4"))

/-- The state after `"2 + 3 * 4"` was submitted to the empty coordinator. -/
def sampleSum : Application :=
  (addExpression (New defaultConfig) "e" sampleMint "2 + 3 * 4").2

/-- The state `sampleSum` after the first task (3 * 4) was dispatched and the result 12
was submitted for it. -/
def sampleSumSecond : Application :=
  (giveTaskHandler (giveTaskHandler sampleSum .get).2
    (.post (some { ID := "t0", Result := .ofNat 12 }))).2

/-- The state `sampleSumSecond` after the second task (2 + 12) was dispatched and the
result 14 was submitted for it. -/
def sampleSumFinal : Application :=
  (giveTaskHandler (giveTaskHandler sampleSumSecond .get).2
    (.post (some { ID := "t1", Result := .ofNat 14 }))).2

/-- An execution for `"1 * 2 + 3 * 4"`: the two products are dispatched and resolved with
their exact results, 2 and 12. -/
def stuckOps : List Op :=
  [.submit "e" sampleMint "1 * 2 + 3 * 4", .dispatch,
   .result { ID := "t0", Result := .ofNat 2 }, .dispatch,
   .result { ID := "t1", Result := .ofNat 12 }]

/-- The state at the end of `stuckOps`. -/
def stuckState : Application :=
  (run (New defaultConfig) { dispatched := [], enqueued := [] } stuckOps).1

/-- The state after `"1 / 1024 * 1024"` was submitted, the division dispatched and its
exact result, `2^-10`, submitted. -/
def roundedState : Application :=
  (run (New defaultConfig) { dispatched := [], enqueued := [] }
    [.submit "e" sampleMint "1 / 1024 * 1024", .dispatch,
     .result { ID := "t0", Result := { neg := false, mant := 1, exp := -10 } }]).1


/-! ## The calculate endpoint -/

/-- The HTTP method of a request. -/
inductive Method where
  | get
  | post
  | other
  deriving DecidableEq, Repr

/-- The answers of `CalcHandler`: the status code together with what the body carries, the
`Error` text or the `ID` field of `models.Response` (the type is declared outside the
files at hand; the handler fills these two fields only). -/
inductive CalcAnswer where
  | methodNotAllowed
  | invalidRequestBody
  | notValid
  | processingError
  | created (ID : String)
  deriving DecidableEq, Repr

/-- The HTTP status code written by `CalcHandler`. -/
def CalcAnswer.statusCode : CalcAnswer → Nat
  | .methodNotAllowed => 405
  | .invalidRequestBody => 400
  | .notValid => 422
  | .processingError => 500
  | .created _ => 201

/-- The JSON body of an answer: the fields of `models.Response` that the handler and its
test name. A field that a struct literal leaves out has the zero value, the empty string. -/
structure ResponseBody where
  ID : String
  Result : String
  Error : String
  deriving DecidableEq, Repr

/-- The JSON body written by `CalcHandler`: `models.Response{Error: ...}` for an invalid
expression, `models.Response{ID: exprID}` on success; the other answers are plain text
written by `http.Error`. -/
def CalcAnswer.body : CalcAnswer → Option ResponseBody
  | .notValid => some { ID := "", Result := "", Error := "Expression is not valid" }
  | .created id => some { ID := id, Result := "", Error := "" }
  | _ => none

/-- Source `CalcHandler`. `body` is the `Expression` field of the decoded request (`none`
when the body does not decode); `exprID` and `mint` are the identifiers that
`addExpression` draws. -/
def CalcHandler (a : Application) (method : Method) (body : Option String)
    (exprID : String) (mint : Nat → String) : CalcAnswer × Application :=
  match method with
  | .post =>
    match body with
    | none => (.invalidRequestBody, a)
    | some expression =>
      if !isValidExpression expression then (.notValid, a)
      else
        match addExpression a exprID mint expression with
        | (.error _, a1) => (.processingError, a1)
        | (.ok id, a1) => (.created id, a1)
  | _ => (.methodNotAllowed, a)

/-- The expression `2 + 2` written with tabs in place of the spaces. -/
def tabbedSum : String := String.mk ['2', Char.ofNat 9, '+', Char.ofNat 9, '2']

/-! ## Postfix token lists -/

/-- The height of the working stack after a walk over a postfix token list, as the
specification describes it: a number is pushed, an operator takes two entries and leaves
one; `none` when an operator finds fewer than two entries. -/
def stackWalk : List String → Nat → Option Nat
  | [], d => some d
  | token :: tokens, d =>
    if isNumeric token then stackWalk tokens (d + 1)
    else if d < 2 then none
    else stackWalk tokens (d - 1)

/-- The operation that an operator token stands for. -/
def Operation.ofToken (token : String) : Operation :=
  if token = "+" then .OperationAddition
  else if token = "-" then .OperationSubtraction
  else if token = "*" then .OperationMultiplication
  else .OperationDivision

/-- The loop of a standard postfix evaluator over exact rationals; the stack has its top
first, the deeper of the two entries taken by an operator is its left operand. -/
def rpnLoop : List String → List ℚ → Option (List ℚ)
  | [], stack => some stack
  | token :: tokens, stack =>
    if isNumeric token then
      (numValue token).bind fun v => rpnLoop tokens (v :: stack)
    else if isOperator token then
      match stack with
      | y :: x :: stack1 =>
        (applyOperation (Operation.ofToken token) x y).bind fun v =>
          rpnLoop tokens (v :: stack1)
      | _ => none
    else none

/-- The value of a postfix token list: the only entry left on the stack. -/
def evalRPN (tokens : List String) : Option ℚ :=
  match rpnLoop tokens [] with
  | some [v] => some v
  | _ => none

/-- The value of an operand, given the values of the tasks before: the placeholder of an
earlier task stands for the value of that task, any other operand for its own value. -/
def envValue (vals : List (Option ℚ)) (arg : String) : Option ℚ :=
  match (List.range vals.length).find? (fun j => decide (arg = placeholder j)) with
  | some j => (vals.getD j none)
  | none => numValue arg

/-- The values of the tasks of a chain evaluated in index order as `Arg1 op Arg2`; `vals`
holds the values of the tasks already evaluated. -/
def chainValues : List Task → List (Option ℚ) → List (Option ℚ)
  | [], vals => vals
  | t :: ts, vals =>
    chainValues ts
      (vals ++ [(envValue vals t.Arg1).bind fun x =>
        (envValue vals t.Arg2).bind fun y => applyOperation t.Operation x y])

/-- An operand that the task at position `k` may have: a numeric token, or the placeholder
of an earlier task. -/
def OperandOK (k : Nat) (arg : String) : Prop :=
  isNumeric arg = true ∨ ∃ j, j < k ∧ arg = placeholder j

/-- A decimal number of 310 digits: a one followed by 309 zeros. -/
def hugeLiteral : String := String.mk ('1' :: List.replicate 309 '0')

/-- The tokens that a stack of trees stands for, the deepest tree first; the stack has its
top first. -/
def rpnOfStack : List Ast → List String
  | [] => []
  | a :: stack => rpnOfStack stack ++ a.rpn

/-- The sum of `hugeLiteral` and 1, written with spaces. -/
def hugeSum : String := String.mk (hugeLiteral.data ++ " + 1".data)

/-- The phrase of `hugeSum`. -/
def hugePhrase : Phrase 0 :=
  .add (.term (.atom (.num hugeLiteral))) (.atom (.num "1"))

/-! ## The queries -/

/-- What a query shows of an expression: the fields of `OutExpression`. -/
structure OutExpression where
  ID : String
  Status : ExpressionStatus
  Result : Option Float64
  deriving DecidableEq, Repr

/-- Source `ExpressionsHandler` on a GET: the list of the stored expressions in the order
of the visit, and the state afterwards. -/
def ExpressionsHandler (a : Application) : List OutExpression × Application :=
  (a.expressions.map fun kv =>
    { ID := kv.2.ID, Status := kv.2.Status, Result := kv.2.Result }, a)

/-- Source `ExpressionHandler` on a GET with an identifier: the stored expression (`none`
stands for "Expression not found"), and the state afterwards. -/
def ExpressionHandler (a : Application) (id : String) : Option OutExpression × Application :=
  ((mapGet a.expressions id).map fun e =>
    { ID := e.ID, Status := e.Status, Result := e.Result }, a)

/-! ## The invariants of the tables -/

/-- The addresses of all the tasks of the chains of the table. -/
def allPtrs : List (String × Expression) → List Nat
  | [] => []
  | kv :: es => kv.2.Tasks ++ allPtrs es

/-- The keys of the expression table, in the order of the visit. -/
def keysOf (es : List (String × Expression)) : List String := es.map fun kv => kv.1

/-- The expression identifiers drawn by the submissions of an execution. -/
def submittedIDs : List Op → List String
  | [] => []
  | .submit exprID _ _ :: ops => exprID :: submittedIDs ops
  | _ :: ops => submittedIDs ops

/-- The expression identifiers drawn in the operations are new: pairwise distinct, and
distinct from the keys of the table. -/
def Fresh (a : Application) (ops : List Op) : Prop :=
  (keysOf a.expressions ++ submittedIDs ops).Nodup

/-- What holds of the tables in every state that the coordinator reaches: the chains and
the queue hold addresses of allocated tasks, no task is in two chains or twice in one, the
keys of the table are distinct, no expression is `Failed`, a `Completed` expression has its
index past the end of its chain, and the queued tasks have numeric operands. -/
structure Sound (a : Application) : Prop where
  chain_bound : ∀ p ∈ allPtrs a.expressions, p < a.heap.length
  queue_bound : ∀ p ∈ a.taskQueue, p < a.heap.length
  chains_nodup : (allPtrs a.expressions).Nodup
  keys_nodup : (keysOf a.expressions).Nodup
  status : ∀ kv ∈ a.expressions, kv.2.Status ≠ .StatusFailed ∧
    (kv.2.Status = .StatusCompleted → (kv.2.Tasks.length : Int) ≤ kv.2.CurrentTaskIndex)
  queue_numeric : ∀ p ∈ a.taskQueue,
    isNumeric (deref a.heap p).Arg1 = true ∧ isNumeric (deref a.heap p).Arg2 = true

/-- The registry and the chains hold the same task identifiers. -/
structure Registered (a : Application) : Prop where
  owned : ∀ id, mapHas a.tasks id = true →
    ∃ p ∈ allPtrs a.expressions, (deref a.heap p).ID = id
  registered : ∀ p ∈ allPtrs a.expressions, mapHas a.tasks (deref a.heap p).ID = true

/-- The empty trace. -/
def noTrace : Trace := { dispatched := [], enqueued := [] }
/-! ## Result ingestion: the gates -/

/-- The scan for the owner stops at an entry of the table whose chain has the identifier. -/
theorem findExpression_spec {heap : List Task} {id : String} :
    ∀ {es : List (String × Expression)} {k : Nat}, findExpression heap id es = some k →
      ∃ key expr, es[k]? = some (key, expr) ∧ (taskIndex heap id expr.Tasks).isSome
  | [], k, h => by simp [findExpression] at h
  | (key, e) :: es, k, h => by
    unfold findExpression at h
    by_cases ht : (taskIndex heap id e.Tasks).isSome
    · simp only [ht, if_true, Option.some.injEq] at h
      subst h
      exact ⟨key, e, by simp, ht⟩
    · simp only [ht, Bool.false_eq_true, if_false, Option.map_eq_some'] at h
      obtain ⟨k1, hk1, rfl⟩ := h
      obtain ⟨key1, e1, h1, h2⟩ := findExpression_spec hk1
      exact ⟨key1, e1, by simpa using h1, h2⟩

/-- The position found in a chain is a position of the chain. -/
theorem taskIndex_lt {heap : List Task} {id : String} :
    ∀ {ps : List Nat} {i : Nat}, taskIndex heap id ps = some i → i < ps.length
  | [], i, h => by simp [taskIndex] at h
  | p :: ps, i, h => by
    unfold taskIndex at h
    by_cases hp : (deref heap p).ID = id
    · simp only [hp, if_true, Option.some.injEq] at h
      subst h
      simp
    · simp only [hp, if_false, Option.map_eq_some'] at h
      obtain ⟨j, hj, rfl⟩ := h
      have := taskIndex_lt hj
      simp only [List.length_cons]
      omega

/-- The task at the position found in a chain has the identifier. -/
theorem taskIndex_id {heap : List Task} {id : String} :
    ∀ {ps : List Nat} {i : Nat}, taskIndex heap id ps = some i →
      ∃ p, ps[i]? = some p ∧ (deref heap p).ID = id
  | [], i, h => by simp [taskIndex] at h
  | p :: ps, i, h => by
    unfold taskIndex at h
    by_cases hp : (deref heap p).ID = id
    · simp only [hp, if_true, Option.some.injEq] at h
      subst h
      exact ⟨p, by simp, hp⟩
    · simp only [hp, if_false, Option.map_eq_some'] at h
      obtain ⟨j, hj, rfl⟩ := h
      obtain ⟨q, hq, hid⟩ := taskIndex_id hj
      exact ⟨q, by simpa using hq, hid⟩

/-- The result-ingestion branch once the registry, the owner and the position are known. -/
theorem submitResult_eq (a : Application) (req : TaskResultRequest) (k : Nat) (key : String)
    (expr : Expression) (i : Nat)
    (hreg : mapHas a.tasks req.ID = true)
    (howner : findExpression a.heap req.ID a.expressions = some k)
    (hexpr : a.expressions[k]? = some (key, expr))
    (hpos : taskIndex a.heap req.ID expr.Tasks = some i) :
    submitResult a req =
      if (i : Int) ≠ expr.CurrentTaskIndex then (.taskNotCurrent, a)
      else
        match expr.Tasks[i + 1]? with
        | some p =>
          (.ok,
            { a with
              heap := a.heap.set p (substitute (deref a.heap p) i req.Result)
              expressions :=
                a.expressions.set k
                  (key, { expr with CurrentTaskIndex := expr.CurrentTaskIndex + 1 })
              taskQueue :=
                if isNumeric (substitute (deref a.heap p) i req.Result).Arg1 &&
                    isNumeric (substitute (deref a.heap p) i req.Result).Arg2 then
                  a.taskQueue ++ [p]
                else a.taskQueue })
        | none =>
          (.ok,
            { a with
              expressions :=
                a.expressions.set k
                  (key, { expr with
                          CurrentTaskIndex := expr.CurrentTaskIndex + 1
                          Status := .StatusCompleted
                          Result := some req.Result }) }) := by
  unfold submitResult
  simp only [hreg, howner, hexpr, hpos, Bool.not_true, Bool.false_eq_true, if_false]

/-- A submission is answered `ok` only when the gate of the current index was passed. -/
theorem submitResult_ok_current (a : Application) (req : TaskResultRequest) (k : Nat)
    (key : String) (expr : Expression) (i : Nat)
    (hacc : (submitResult a req).1 = .ok)
    (howner : findExpression a.heap req.ID a.expressions = some k)
    (hexpr : a.expressions[k]? = some (key, expr))
    (hpos : taskIndex a.heap req.ID expr.Tasks = some i) :
    mapHas a.tasks req.ID = true ∧ (i : Int) = expr.CurrentTaskIndex := by
  have hreg : mapHas a.tasks req.ID = true := by
    by_contra hc
    have hf : mapHas a.tasks req.ID = false := by simpa using hc
    unfold submitResult at hacc
    simp [hf] at hacc
  refine ⟨hreg, ?_⟩
  by_contra hc
  rw [submitResult_eq a req k key expr i hreg howner hexpr hpos] at hacc
  simp [hc] at hacc

/-! ## Result ingestion and dispatch: the claims -/


/-- The rewrite of the operands changes nothing but the operands. -/
theorem substitute_fields (t : Task) (i : Nat) (r : Float64) :
    (substitute t i r).ID = t.ID ∧ (substitute t i r).Operation = t.Operation ∧
      (substitute t i r).OperationTime = t.OperationTime ∧
      (substitute t i r).Arg1 = (if t.Arg1 = placeholder i then formatFloat r else t.Arg1) ∧
      (substitute t i r).Arg2 = (if t.Arg2 = placeholder i then formatFloat r else t.Arg2) := by
  unfold substitute
  by_cases h1 : t.Arg1 = placeholder i <;> by_cases h2 : t.Arg2 = placeholder i <;>
    simp [h1, h2]

/-- The state after an accepted submission for a task that has a successor. -/
theorem submitResult_next (a : Application) (req : TaskResultRequest) (k : Nat) (key : String)
    (expr : Expression) (i p : Nat)
    (hreg : mapHas a.tasks req.ID = true)
    (howner : findExpression a.heap req.ID a.expressions = some k)
    (hexpr : a.expressions[k]? = some (key, expr))
    (hpos : taskIndex a.heap req.ID expr.Tasks = some i)
    (hcur : (i : Int) = expr.CurrentTaskIndex)
    (hnext : expr.Tasks[i + 1]? = some p) :
    submitResult a req =
      (.ok,
        { a with
          heap := a.heap.set p (substitute (deref a.heap p) i req.Result)
          expressions :=
            a.expressions.set k (key, { expr with CurrentTaskIndex := (i : Int) + 1 })
          taskQueue :=
            if isNumeric (substitute (deref a.heap p) i req.Result).Arg1 &&
                isNumeric (substitute (deref a.heap p) i req.Result).Arg2 then
              a.taskQueue ++ [p]
            else a.taskQueue }) := by
  rw [submitResult_eq a req k key expr i hreg howner hexpr hpos]
  simp only [hcur, ne_eq, not_true_eq_false, if_false, hnext]

/-- The state after an accepted submission for the last task of a chain. -/
theorem submitResult_last (a : Application) (req : TaskResultRequest) (k : Nat) (key : String)
    (expr : Expression) (i : Nat)
    (hreg : mapHas a.tasks req.ID = true)
    (howner : findExpression a.heap req.ID a.expressions = some k)
    (hexpr : a.expressions[k]? = some (key, expr))
    (hpos : taskIndex a.heap req.ID expr.Tasks = some i)
    (hcur : (i : Int) = expr.CurrentTaskIndex)
    (hnext : expr.Tasks[i + 1]? = none) :
    submitResult a req =
      (.ok,
        { a with
          expressions :=
            a.expressions.set k
              (key, { expr with
                      CurrentTaskIndex := (i : Int) + 1
                      Status := .StatusCompleted
                      Result := some req.Result }) }) := by
  rw [submitResult_eq a req k key expr i hreg howner hexpr hpos]
  simp only [hcur, ne_eq, not_true_eq_false, if_false, hnext]

/-- Reading the heap after one task object was rewritten. -/
theorem deref_set (heap : List Task) (p q : Nat) (t : Task) (hp : p < heap.length) :
    deref (heap.set p t) q = if q = p then t else deref heap q := by
  unfold deref
  by_cases h : q = p
  · subst h; simp [List.getD, List.getElem?_set, hp]
  · simp [List.getD, List.getElem?_set, h, Ne.symm h]

/-- C5: a result submission whose task identifier is registered, but whose position in the
chain of the owning expression is not the expression's `CurrentTaskIndex`, is answered
`Task is not the current one` (status 400) and leaves the whole state as it was. -/
theorem C5_not_current_rejected (a : Application) (req : TaskResultRequest) (k : Nat)
    (key : String) (expr : Expression) (i : Nat)
    (hreg : mapHas a.tasks req.ID = true)
    (howner : findExpression a.heap req.ID a.expressions = some k)
    (hexpr : a.expressions[k]? = some (key, expr))
    (hpos : taskIndex a.heap req.ID expr.Tasks = some i)
    (hne : (i : Int) ≠ expr.CurrentTaskIndex) :
    giveTaskHandler a (.post (some req)) = (.taskNotCurrent, a) ∧
      Response.statusCode .taskNotCurrent = 400 := by
  refine ⟨?_, rfl⟩
  show submitResult a req = _
  rw [submitResult_eq a req k key expr i hreg howner hexpr hpos]
  simp [hne]

theorem C5_not_current_rejected_witness :
    giveTaskHandler sampleState (.post (some { ID := "t1", Result := .ofNat 9 })) =
        (.taskNotCurrent, sampleState) ∧
      Response.statusCode .taskNotCurrent = 400 :=
  C5_not_current_rejected sampleState { ID := "t1", Result := .ofNat 9 } 0 "e"
    { ID := "e", Expression := "( 1 + 2 ) * 3", Status := .StatusProcessing, Result := none,
      Tasks := [0, 1], CurrentTaskIndex := 0 } 1
    (by decide) (by decide) (by decide) (by decide) (by decide)

/-- C6: when a result submission for the task at position `i` of a chain is accepted and
the chain has a task at position `i + 1`, the index becomes `i + 1` while status, result
and chain of the expression (and every other entry of the table) stay; each operand of
the next task equal to the placeholder `T<i>` becomes the `%f` rendering of the result and
any other operand stays; the next task is appended to the queue exactly when both operands
are numeric after that; the result 3 is rendered `3.000000`. -/
theorem C6_accepted_with_next (a : Application) (req : TaskResultRequest) (k : Nat)
    (key : String) (expr : Expression) (i p : Nat)
    (hacc : (giveTaskHandler a (.post (some req))).1 = .ok)
    (howner : findExpression a.heap req.ID a.expressions = some k)
    (hexpr : a.expressions[k]? = some (key, expr))
    (hpos : taskIndex a.heap req.ID expr.Tasks = some i)
    (hnext : expr.Tasks[i + 1]? = some p)
    (hp : p < a.heap.length) :
    (giveTaskHandler a (.post (some req))).2.expressions =
        a.expressions.set k (key, { expr with CurrentTaskIndex := (i : Int) + 1 }) ∧
      (deref (giveTaskHandler a (.post (some req))).2.heap p).Arg1 =
        (if (deref a.heap p).Arg1 = placeholder i then formatFloat req.Result
          else (deref a.heap p).Arg1) ∧
      (deref (giveTaskHandler a (.post (some req))).2.heap p).Arg2 =
        (if (deref a.heap p).Arg2 = placeholder i then formatFloat req.Result
          else (deref a.heap p).Arg2) ∧
      (deref (giveTaskHandler a (.post (some req))).2.heap p).ID = (deref a.heap p).ID ∧
      (deref (giveTaskHandler a (.post (some req))).2.heap p).Operation =
        (deref a.heap p).Operation ∧
      (deref (giveTaskHandler a (.post (some req))).2.heap p).OperationTime =
        (deref a.heap p).OperationTime ∧
      (∀ q, q ≠ p → deref (giveTaskHandler a (.post (some req))).2.heap q = deref a.heap q) ∧
      (giveTaskHandler a (.post (some req))).2.taskQueue =
        (if isNumeric (deref (giveTaskHandler a (.post (some req))).2.heap p).Arg1 = true ∧
            isNumeric (deref (giveTaskHandler a (.post (some req))).2.heap p).Arg2 = true then
          a.taskQueue ++ [p]
        else a.taskQueue) ∧
      (giveTaskHandler a (.post (some req))).2.tasks = a.tasks ∧
      formatFloat (.ofNat 3) = "3.000000" := by
  have hacc1 : (submitResult a req).1 = .ok := hacc
  obtain ⟨hreg, hcur⟩ := submitResult_ok_current a req k key expr i hacc1 howner hexpr hpos
  have heq : giveTaskHandler a (.post (some req)) = submitResult a req := rfl
  rw [heq, submitResult_next a req k key expr i p hreg howner hexpr hpos hcur hnext]
  obtain ⟨f1, f2, f3, f4, f5⟩ := substitute_fields (deref a.heap p) i req.Result
  have hd : deref (a.heap.set p (substitute (deref a.heap p) i req.Result)) p =
      substitute (deref a.heap p) i req.Result := by
    rw [deref_set _ _ _ _ hp]; simp
  refine ⟨rfl, ?_, ?_, ?_, ?_, ?_, ?_, ?_, rfl, by decide⟩
  · show (deref (a.heap.set p _) p).Arg1 = _
    rw [hd, f4]
  · show (deref (a.heap.set p _) p).Arg2 = _
    rw [hd, f5]
  · show (deref (a.heap.set p _) p).ID = _
    rw [hd, f1]
  · show (deref (a.heap.set p _) p).Operation = _
    rw [hd, f2]
  · show (deref (a.heap.set p _) p).OperationTime = _
    rw [hd, f3]
  · intro q hq
    show deref (a.heap.set p _) q = _
    rw [deref_set _ _ _ _ hp]; simp [hq]
  · show (if _ then _ else _) = if isNumeric (deref (a.heap.set p _) p).Arg1 = true ∧
        isNumeric (deref (a.heap.set p _) p).Arg2 = true then _ else _
    rw [hd]
    simp only [Bool.and_eq_true]

theorem C6_accepted_with_next_witness :
    (deref (giveTaskHandler sampleDispatched
        (.post (some { ID := "t0", Result := .ofNat 3 }))).2.heap 1).Arg1 = "3.000000" ∧
      (giveTaskHandler sampleDispatched
        (.post (some { ID := "t0", Result := .ofNat 3 }))).2.taskQueue = [1] := by
  have h := C6_accepted_with_next sampleDispatched { ID := "t0", Result := .ofNat 3 } 0 "e"
    { ID := "e", Expression := "( 1 + 2 ) * 3", Status := .StatusProcessing, Result := none,
      Tasks := [0, 1], CurrentTaskIndex := 0 } 0 1
    (by decide) (by decide) (by decide) (by decide) (by decide) (by decide)
  refine ⟨?_, ?_⟩
  · rw [h.2.1]; decide
  · rw [h.2.2.2.2.2.2.2.1]; decide

/-- C7: when a result submission for the last task of a chain is accepted, the expression
becomes `Completed` with the submitted result as its `Result`; the task queue, the task
objects, the registry and every other expression stay as they were. -/
theorem C7_accepted_last (a : Application) (req : TaskResultRequest) (k : Nat)
    (key : String) (expr : Expression) (i : Nat)
    (hacc : (giveTaskHandler a (.post (some req))).1 = .ok)
    (howner : findExpression a.heap req.ID a.expressions = some k)
    (hexpr : a.expressions[k]? = some (key, expr))
    (hpos : taskIndex a.heap req.ID expr.Tasks = some i)
    (hlast : i + 1 = expr.Tasks.length) :
    (i : Int) = expr.CurrentTaskIndex ∧
      (giveTaskHandler a (.post (some req))).2.expressions[k]? =
        some (key, { expr with
                      CurrentTaskIndex := (i : Int) + 1
                      Status := .StatusCompleted
                      Result := some req.Result }) ∧
      (∀ j, j ≠ k →
        (giveTaskHandler a (.post (some req))).2.expressions[j]? = a.expressions[j]?) ∧
      (giveTaskHandler a (.post (some req))).2.taskQueue = a.taskQueue ∧
      (giveTaskHandler a (.post (some req))).2.heap = a.heap ∧
      (giveTaskHandler a (.post (some req))).2.tasks = a.tasks := by
  have hacc1 : (submitResult a req).1 = .ok := hacc
  obtain ⟨hreg, hcur⟩ := submitResult_ok_current a req k key expr i hacc1 howner hexpr hpos
  have heq : giveTaskHandler a (.post (some req)) = submitResult a req := rfl
  have hnone : expr.Tasks[i + 1]? = none := by
    rw [List.getElem?_eq_none_iff]; omega
  have hk : k < a.expressions.length := by
    by_contra hc
    rw [List.getElem?_eq_none_iff.2 (by omega)] at hexpr
    cases hexpr
  rw [heq, submitResult_last a req k key expr i hreg howner hexpr hpos hcur hnone]
  refine ⟨hcur, ?_, ?_, rfl, rfl, rfl⟩
  · show (a.expressions.set k _)[k]? = _
    simp [List.getElem?_set, hk]
  · intro j hj
    show (a.expressions.set k _)[j]? = _
    simp [List.getElem?_set, Ne.symm hj]

theorem C7_accepted_last_witness :
    ((giveTaskHandler sampleSecond
        (.post (some { ID := "t1", Result := .ofNat 9 }))).2.expressions[0]?).map
        (fun kv => (kv.2.Status, kv.2.Result)) =
      some (.StatusCompleted, some (.ofNat 9)) := by
  have h := C7_accepted_last sampleSecond { ID := "t1", Result := .ofNat 9 } 0 "e"
    { ID := "e", Expression := "( 1 + 2 ) * 3", Status := .StatusProcessing, Result := none,
      Tasks := [0, 1], CurrentTaskIndex := 1 } 1
    (by decide) (by decide) (by decide) (by decide) (by decide)
  rw [h.2.1]
  rfl

/-- C8: a result submission is answered `Task not found` (status 404) exactly when its
identifier is not a key of the task registry, and then the expression table, the registry,
the task objects and the queue are as they were. -/
theorem C8_task_not_found (a : Application) (req : TaskResultRequest) :
    ((giveTaskHandler a (.post (some req))).1 = .taskNotFound ↔
        mapHas a.tasks req.ID = false) ∧
      ((giveTaskHandler a (.post (some req))).1 = .taskNotFound ↔
        giveTaskHandler a (.post (some req)) = (.taskNotFound, a)) ∧
      Response.statusCode .taskNotFound = 404 := by
  have heq : giveTaskHandler a (.post (some req)) = submitResult a req := rfl
  have h1 : (submitResult a req).1 = .taskNotFound ↔ mapHas a.tasks req.ID = false := by
    unfold submitResult
    cases hm : mapHas a.tasks req.ID
    · simp
    · simp only [Bool.not_true, Bool.false_eq_true, if_false]
      split
      · simp
      · split
        · simp
        · split
          · simp
          · split
            · simp
            · split <;> simp
  rw [heq]
  refine ⟨h1, ⟨fun h => ?_, fun h => by rw [h]⟩, rfl⟩
  have hf := h1.1 h
  unfold submitResult
  simp [hf]

/-- C9: dispatch is a total function of the state (it never waits) and pops the queue in
FIFO order: on an empty queue it answers `No task available` and the state stays; otherwise
it answers with the identifier, operands, operation and operation time of the task at the
head, and the new queue is the old one without its head, the expression table, the
registry and the task objects being untouched. -/
theorem C9_dispatch_fifo (a : Application) :
    (a.taskQueue = [] ∧ giveTaskHandler a .get = (.noTaskAvailable, a)) ∨
    (∃ p queue, a.taskQueue = p :: queue ∧
      (giveTaskHandler a .get).1 =
        .task (deref a.heap p).ID (deref a.heap p).Arg1 (deref a.heap p).Arg2
          (deref a.heap p).Operation (deref a.heap p).OperationTime ∧
      (giveTaskHandler a .get).2.taskQueue = queue ∧
      (giveTaskHandler a .get).2.expressions = a.expressions ∧
      (giveTaskHandler a .get).2.tasks = a.tasks ∧
      (giveTaskHandler a .get).2.heap = a.heap ∧
      (giveTaskHandler a .get).2.config = a.config) := by
  cases h : a.taskQueue with
  | nil => left; simp [giveTaskHandler, dispatch, h]
  | cons p queue => right; exact ⟨p, queue, rfl, by simp [giveTaskHandler, dispatch, h]⟩

/-! ## Parentheses: what `ParseFloat` never reads -/

theorem readMant_foreign (hex : Bool) :
    ∀ (cs : List Char) (st : MantState), (∃ c ∈ cs, foreignChar c) →
      ∃ c ∈ (readMant hex st cs).2, foreignChar c
  | [], _, h => by simp at h
  | c :: cs, st, h => by
    obtain ⟨b, hb, hbad⟩ := h
    unfold readMant
    by_cases hc : foreignChar c
    · have h1 := hc.1
      have h2 := hc.2.1
      have h3 := hc.2.2.1
      have h4 := hc.2.2.2.1
      simp only [h3, h4, h1, h2, if_false, Bool.false_eq_true, Bool.and_false]
      exact ⟨c, by simp, hc⟩
    · have hbcs : b ∈ cs := by
        rcases List.mem_cons.1 hb with rfl | h
        · exact absurd hbad hc
        · exact h
      have ih := fun st => readMant_foreign hex cs st ⟨b, hbcs, hbad⟩
      split
      · exact ih _
      · split
        · split
          · exact ⟨b, List.mem_cons_of_mem _ hbcs, hbad⟩
          · exact ih _
        · split
          · split
            · exact ih _
            · exact ih _
          · split
            · exact ih _
            · exact ⟨b, List.mem_cons_of_mem _ hbcs, hbad⟩

theorem readExpDigits_foreign :
    ∀ (cs : List Char) (e : Nat) (us : Bool), (∃ c ∈ cs, foreignChar c) →
      ∃ c ∈ (readExpDigits e us cs).2.2, foreignChar c
  | [], _, _, h => by simp at h
  | c :: cs, e, us, h => by
    obtain ⟨b, hb, hbad⟩ := h
    unfold readExpDigits
    by_cases hc : foreignChar c
    · obtain ⟨h1, h2, h3, h4, -⟩ := hc
      simp only [h3, h1, if_false, Bool.false_eq_true]
      exact ⟨b, hb, hbad⟩
    · have hbcs : b ∈ cs := by
        rcases List.mem_cons.1 hb with rfl | h
        · exact absurd hbad hc
        · exact h
      have ih := fun e us => readExpDigits_foreign cs e us ⟨b, hbcs, hbad⟩
      split
      · exact ih _ _
      · split
        · exact ih _ _
        · exact ⟨b, List.mem_cons_of_mem _ hbcs, hbad⟩

theorem parseFinish_nonempty (s : List Char) (neg hex : Bool) (st : MantState) (dp : Int)
    (us : Bool) (rest : List Char) (h : rest ≠ []) :
    parseFinish s neg hex st dp us rest = none := by
  cases rest with
  | nil => exact absurd rfl h
  | cons c cs => simp [parseFinish]

theorem parseExponent_foreign (s : List Char) (neg hex : Bool) (st : MantState)
    (rest : List Char) (h : ∃ c ∈ rest, foreignChar c) :
    parseExponent s neg hex st rest = none := by
  obtain ⟨b, hb, hbad⟩ := h
  cases hsd : st.sawdigits with
  | false => simp [parseExponent, hsd]
  | true =>
    cases rest with
    | nil => simp at hb
    | cons c r =>
      by_cases hexp : lower c = if hex then 112 else 101
      · have hcb : b ∈ r := by
          rcases List.mem_cons.1 hb with rfl | h
          · exfalso
            have h7 := hbad.2.2.2.2.2.2.1
            have h8 := hbad.2.2.2.2.2.2.2.1
            cases hex <;> simp at hexp <;> omega
          · exact h
        cases r with
        | nil => simp at hcb
        | cons d r1 =>
          have hr2 : b ∈ (if d = '+' ∨ d = '-' then r1 else d :: r1) := by
            split
            · rename_i hd
              rcases List.mem_cons.1 hcb with rfl | h
              · exfalso
                rcases hd with hd | hd
                · exact hbad.2.2.2.2.1 hd
                · exact hbad.2.2.2.2.2.1 hd
              · exact h
            · exact hcb
          unfold parseExponent
          simp only [hsd, hexp, if_true, Bool.not_true, Bool.false_eq_true, if_false]
          generalize (if d = '+' ∨ d = '-' then r1 else d :: r1) = r2 at hr2 ⊢
          cases r2 with
          | nil => simp at hr2
          | cons d2 r3 =>
            simp only
            split
            · obtain ⟨c', hc', -⟩ :=
                readExpDigits_foreign (d2 :: r3) 0 st.underscores ⟨b, hr2, hbad⟩
              exact parseFinish_nonempty _ _ _ _ _ _ _ (List.ne_nil_of_mem hc')
            · rfl
      · unfold parseExponent
        simp only [hsd, hexp, if_true, Bool.not_true, Bool.false_eq_true, if_false]
        split
        · rfl
        · exact parseFinish_nonempty _ _ _ _ _ _ _ (by simp)

theorem special_foreign (s : List Char) (h : ∃ c ∈ s, foreignChar c) : special s = false := by
  obtain ⟨b, hb, hbad⟩ := h
  have key : ∀ l : List Char, b ∈ l →
      l.map asciiLower ≠ "inf".data ∧ l.map asciiLower ≠ "infinity".data ∧
        l.map asciiLower ≠ "nan".data := by
    intro l hl
    have hm : asciiLower b ∈ l.map asciiLower := List.mem_map_of_mem _ hl
    have h10 := hbad.2.2.2.2.2.2.2.2.2
    refine ⟨fun he => ?_, fun he => ?_, fun he => ?_⟩ <;>
    · rw [he] at hm
      apply h10
      revert hm
      generalize asciiLower b = x
      intro hm
      simp only [List.mem_cons, List.mem_singleton] at hm ⊢
      simp only [List.not_mem_nil, or_false] at hm ⊢
      tauto
  cases s with
  | nil => rfl
  | cons c r =>
    obtain ⟨k1, k2, k3⟩ := key (c :: r) hb
    by_cases hc : c = '+' ∨ c = '-'
    · have hbr : b ∈ r := by
        rcases List.mem_cons.1 hb with rfl | h
        · exfalso
          rcases hc with hc | hc
          · exact hbad.2.2.2.2.1 hc
          · exact hbad.2.2.2.2.2.1 hc
        · exact h
      obtain ⟨j1, j2, -⟩ := key r hbr
      unfold special
      simp only [hc, if_true, decide_eq_false j1, decide_eq_false j2, Bool.or_self]
    · unfold special
      simp only [hc, if_false, decide_eq_false k1, decide_eq_false k2, decide_eq_false k3,
        Bool.or_self, ite_self]

/-- A string with a character foreign to float literals is not read by `readFloat`. -/
theorem readFloat_foreign (s : List Char) (h : ∃ c ∈ s, foreignChar c) :
    readFloat s = none := by
  obtain ⟨b, hb, hbad⟩ := h
  cases s with
  | nil => rfl
  | cons c r =>
    unfold readFloat
    simp only
    have hr1 : b ∈ (if c = '+' ∨ c = '-' then r else c :: r) := by
      split
      · rename_i hc
        rcases List.mem_cons.1 hb with rfl | h
        · exfalso
          rcases hc with hc | hc
          · exact hbad.2.2.2.2.1 hc
          · exact hbad.2.2.2.2.2.1 hc
        · exact h
      · exact hb
    generalize (if c = '+' ∨ c = '-' then r else c :: r) = r1 at hr1
    have hplain : ∀ st, parseExponent (c :: r) (decide (c = '-')) false (readMant false st r1).1
        (readMant false st r1).2 = none := fun st =>
      parseExponent_foreign _ _ _ _ _ (readMant_foreign false r1 st ⟨b, hr1, hbad⟩)
    split
    · rename_i c0 c1 c2 r2
      split
      · rename_i hx
        have hb2 : b ∈ c2 :: r2 := by
          rcases List.mem_cons.1 hr1 with rfl | h
          · exfalso
            have h1 := hbad.1
            rw [hx.1] at h1
            revert h1; decide
          · rcases List.mem_cons.1 h with rfl | h'
            · exact absurd hx.2 hbad.2.2.2.2.2.2.2.2.1
            · exact h'
        exact parseExponent_foreign _ _ _ _ _ (readMant_foreign true _ _ ⟨b, hb2, hbad⟩)
      · exact hplain _
    · exact hplain _

/-- A string with a character foreign to float literals is not numeric. -/
theorem parseFloatOk_foreign (s : List Char) (h : ∃ c ∈ s, foreignChar c) :
    parseFloatOk s = false := by
  unfold parseFloatOk
  rw [special_foreign s h, readFloat_foreign s h]
  rfl

theorem foreignChar_open : foreignChar '(' := by
  unfold foreignChar; decide

theorem foreignChar_close : foreignChar ')' := by
  unfold foreignChar; decide

/-- A numeric token contains no parenthesis. -/
theorem isNumeric_no_paren (t : String) (h : isNumeric t = true) :
    '(' ∉ t.data ∧ ')' ∉ t.data := by
  constructor
  · intro hm
    have := parseFloatOk_foreign t.data ⟨_, hm, foreignChar_open⟩
    unfold isNumeric at h
    rw [this] at h
    cases h
  · intro hm
    have := parseFloatOk_foreign t.data ⟨_, hm, foreignChar_close⟩
    unfold isNumeric at h
    rw [this] at h
    cases h

/-! ## Parentheses: the operator stack counts the nesting depth -/

theorem depthScan_append (x y : List Char) :
    ∀ d, depthScan d (x ++ y) = (depthScan d x).bind (fun d1 => depthScan d1 y) := by
  induction x with
  | nil => intro d; simp [depthScan]
  | cons c cs ih =>
    intro d
    simp only [List.cons_append, depthScan]
    split
    · exact ih _
    · split
      · split
        · rfl
        · exact ih _
      · exact ih _

theorem depthScan_no_paren (x : List Char) (h1 : '(' ∉ x) (h2 : ')' ∉ x) :
    ∀ d, depthScan d x = some d := by
  induction x with
  | nil => intro d; rfl
  | cons c cs ih =>
    intro d
    have hc1 : c ≠ '(' := fun h => h1 (by simp [h])
    have hc2 : c ≠ ')' := fun h => h2 (by simp [h])
    simp only [depthScan, hc1, hc2, if_false]
    exact ih (fun h => h1 (List.mem_cons_of_mem _ h)) (fun h => h2 (List.mem_cons_of_mem _ h)) d

theorem isSpace_not_paren (c : Char) (h : isSpace c = true) : c ≠ '(' ∧ c ≠ ')' := by
  constructor <;> (intro hc; subst hc; revert h; decide)

theorem depthScan_skip (c : Char) (cs : List Char) (h1 : c ≠ '(') (h2 : c ≠ ')') (d : Nat) :
    depthScan d (c :: cs) = depthScan d cs := by
  simp [depthScan, h1, h2]

theorem depthScan_fieldsAux :
    ∀ (cs cur : List Char) (d : Nat),
      depthScan d (tokenChars (fieldsAux cur cs)) = depthScan d (cur.reverse ++ cs)
  | [], cur, d => by
    unfold fieldsAux
    cases cur with
    | nil => simp [tokenChars]
    | cons c cur => simp [tokenChars]
  | c :: cs, cur, d => by
    unfold fieldsAux
    by_cases hsp : isSpace c = true
    · obtain ⟨h1, h2⟩ := isSpace_not_paren c hsp
      simp only [hsp, if_true]
      cases cur with
      | nil =>
        simp only [List.isEmpty_nil, if_true, List.reverse_nil, List.nil_append]
        rw [depthScan_fieldsAux cs [] d, depthScan_skip c cs h1 h2]
        simp
      | cons c1 cur =>
        simp only [List.isEmpty_cons, Bool.false_eq_true, if_false, tokenChars]
        rw [depthScan_append, depthScan_append]
        congr 1
        funext d1
        rw [depthScan_fieldsAux cs [] d1, depthScan_skip c cs h1 h2]
        simp
    · simp only [hsp, Bool.false_eq_true, if_false]
      rw [depthScan_fieldsAux cs (c :: cur) d]
      simp

theorem depthScan_fields (s : String) (d : Nat) :
    depthScan d (tokenChars (fields s)) = depthScan d s.data := by
  unfold fields
  rw [depthScan_fieldsAux]
  simp

theorem popToParen_stack :
    ∀ (opStack output : List String),
      (popToParen output opStack).2.count "(" = opStack.count "(" ∧
        ((popToParen output opStack).2 = [] ∨
          ∃ rest, (popToParen output opStack).2 = "(" :: rest)
  | [], output => by simp [popToParen]
  | top :: opStack, output => by
    unfold popToParen
    by_cases h : top = "("
    · subst h
      simp
    · simp only [h, if_false]
      obtain ⟨h1, h2⟩ := popToParen_stack opStack (output ++ [top])
      refine ⟨?_, h2⟩
      rw [h1, List.count_cons_of_ne (Ne.symm h)]

theorem popOperators_stack (token : String) :
    ∀ (opStack output : List String),
      (popOperators token output opStack).2.count "(" = opStack.count "("
  | [], output => by simp [popOperators]
  | top :: opStack, output => by
    unfold popOperators
    by_cases h : top = "("
    · subst h
      simp
    · simp only [h, if_false]
      split
      · rw [popOperators_stack token opStack, List.count_cons_of_ne (Ne.symm h)]
      · rfl

theorem drainStack_ok :
    ∀ (opStack output r : List String), drainStack output opStack = .ok r →
      opStack.count "(" = 0
  | [], _, _, _ => by simp
  | top :: opStack, output, r, h => by
    unfold drainStack at h
    by_cases ht : top = "(" ∨ top = ")"
    · simp [ht] at h
    · simp only [ht, if_false] at h
      have := drainStack_ok opStack _ r h
      rw [List.count_cons_of_ne (fun hc => ht (Or.inl hc.symm)), this]

theorem isOperator_cases (token : String) (h : isOperator token = true) :
    token = "+" ∨ token = "-" ∨ token = "*" ∨ token = "/" := by
  unfold isOperator at h
  simp only [Bool.or_eq_true, beq_iff_eq] at h
  tauto

/-- When `infixLoop` succeeds, the parentheses of the tokens still to be read close the
ones that wait on the operator stack, and nothing else. -/
theorem infixLoop_depth :
    ∀ (tokens output opStack r : List String), infixLoop tokens output opStack = .ok r →
      depthScan (opStack.count "(") (tokenChars tokens) = some 0
  | [], output, opStack, r, h => by
    unfold infixLoop at h
    rw [drainStack_ok opStack output r h]
    rfl
  | token :: tokens, output, opStack, r, h => by
    unfold infixLoop at h
    simp only [tokenChars]
    rw [depthScan_append]
    by_cases hn : isNumeric token = true
    · simp only [hn, if_true] at h
      obtain ⟨h1, h2⟩ := isNumeric_no_paren token hn
      rw [depthScan_no_paren _ h1 h2]
      exact infixLoop_depth tokens _ _ r h
    · simp only [hn, Bool.false_eq_true, if_false] at h
      by_cases ho : token = "("
      · subst ho
        simp only [if_true] at h
        have := infixLoop_depth tokens _ _ r h
        rw [List.count_cons_self] at this
        simpa [depthScan] using this
      · simp only [ho, if_false] at h
        by_cases hc : token = ")"
        · subst hc
          simp only [if_true] at h
          obtain ⟨hcount, hshape⟩ := popToParen_stack opStack output
          rcases hshape with hnil | ⟨rest, hrest⟩
          · have hpair : popToParen output opStack = ((popToParen output opStack).1, []) := by
              rw [← hnil]
            rw [hpair] at h
            cases h
          · have hpair : popToParen output opStack =
                ((popToParen output opStack).1, "(" :: rest) := by
              rw [← hrest]
            rw [hpair] at h
            simp only at h
            have := infixLoop_depth tokens _ _ r h
            rw [hrest, List.count_cons_self] at hcount
            rw [← hcount]
            simpa [depthScan] using this
        · simp only [hc, if_false] at h
          by_cases hop : isOperator token = true
          · simp only [hop, if_true] at h
            have := infixLoop_depth tokens _ _ r h
            have hne : token ≠ "(" := ho
            rw [List.count_cons_of_ne (Ne.symm hne), popOperators_stack] at this
            have hnp : '(' ∉ token.data ∧ ')' ∉ token.data := by
              rcases isOperator_cases token hop with rfl | rfl | rfl | rfl <;> decide
            rw [depthScan_no_paren _ hnp.1 hnp.2]
            exact this
          · simp [hop] at h

/-- A scan that ends at depth `d1` saw no prefix with more closing than opening
parentheses (beyond the starting depth), and the counts differ by the depths. -/
theorem depthScan_counts :
    ∀ (l : List Char) (d d1 : Nat), depthScan d l = some d1 →
      (∀ pre, pre <+: l → pre.count ')' ≤ d + pre.count '(') ∧
        d1 + l.count ')' = d + l.count '('
  | [], d, d1, h => by
    simp only [depthScan, Option.some.injEq] at h
    subst h
    refine ⟨fun pre hpre => ?_, by simp⟩
    rw [List.prefix_nil.1 hpre]
    simp
  | c :: cs, d, d1, h => by
    unfold depthScan at h
    have hpre : ∀ (d2 : Nat), (∀ pre, pre <+: cs → pre.count ')' ≤ d2 + pre.count '(') →
        ∀ (k1 k2 : Nat), (∀ pre : List Char, (c :: pre).count ')' = pre.count ')' + k1) →
          (∀ pre : List Char, (c :: pre).count '(' = pre.count '(' + k2) → d2 + k1 ≤ d + k2 →
          ∀ pre, pre <+: c :: cs → pre.count ')' ≤ d + pre.count '(' := by
      intro d2 ih k1 k2 hk1 hk2 hd pre hp
      cases pre with
      | nil => simp
      | cons x xs =>
        obtain ⟨rfl, hxs⟩ := List.cons_prefix_cons.1 hp
        have := ih xs hxs
        rw [hk1, hk2]
        omega
    by_cases ho : c = '('
    · subst ho
      simp only [if_true] at h
      obtain ⟨ih1, ih2⟩ := depthScan_counts cs _ d1 h
      refine ⟨hpre (d + 1) ih1 0 1 (fun pre => by simp) (fun pre => by simp) (by omega), ?_⟩
      simp only [List.count_cons_self]
      rw [List.count_cons_of_ne (by decide)]
      omega
    · simp only [ho, if_false] at h
      by_cases hc : c = ')'
      · subst hc
        simp only [if_true] at h
        by_cases hd : d = 0
        · simp [hd] at h
        · simp only [hd, if_false] at h
          obtain ⟨ih1, ih2⟩ := depthScan_counts cs _ d1 h
          refine ⟨hpre (d - 1) ih1 1 0 (fun pre => by simp) (fun pre => by simp) (by omega), ?_⟩
          simp only [List.count_cons_self]
          rw [List.count_cons_of_ne (by decide)]
          omega
      · simp only [hc, if_false] at h
        obtain ⟨ih1, ih2⟩ := depthScan_counts cs _ d1 h
        refine ⟨hpre d ih1 0 0
          (fun pre => by rw [List.count_cons_of_ne (Ne.symm hc)]; rfl)
          (fun pre => by rw [List.count_cons_of_ne (Ne.symm ho)]; rfl) (by omega), ?_⟩
        rw [List.count_cons_of_ne (Ne.symm hc), List.count_cons_of_ne (Ne.symm ho)]
        exact ih2

/-- When `infixToRPN` succeeds, the parentheses of the string are balanced. -/
theorem infixToRPN_balanced (s : String) (r : List String) (h : infixToRPN s = .ok r) :
    (∀ pre, pre <+: s.data → pre.count ')' ≤ pre.count '(') ∧
      s.data.count ')' = s.data.count '(' := by
  have h1 := infixLoop_depth (fields s) [] [] r h
  rw [List.count_nil, depthScan_fields] at h1
  obtain ⟨h2, h3⟩ := depthScan_counts s.data 0 0 h1
  exact ⟨fun pre hp => by simpa using h2 pre hp, by simpa using h3⟩

/-- C4: if an expression string has unbalanced parentheses (some prefix of it has more
closing than opening parentheses, or the whole string has more opening than closing ones),
then `addExpression` returns an error and the state is the one before the call: nothing
was added to the expression table, the registry, the task objects or the queue. -/
theorem C4_unbalanced_rejected (a : Application) (exprID : String) (mint : Nat → String)
    (s : String)
    (h : (∃ pre, pre <+: s.data ∧ pre.count '(' < pre.count ')') ∨
      s.data.count ')' < s.data.count '(') :
    ∃ err, addExpression a exprID mint s = (.error err, a) := by
  cases hr : infixToRPN s with
  | error err => exact ⟨err, by simp [addExpression, hr]⟩
  | ok r =>
    exfalso
    obtain ⟨h1, h2⟩ := infixToRPN_balanced s r hr
    rcases h with ⟨pre, hp, hlt⟩ | hlt
    · have := h1 pre hp
      omega
    · omega

theorem C4_unbalanced_rejected_witness :
    ∃ err, addExpression sampleState "e2" sampleMint "( 1 + 2 ) ) * ( 3" =
      (.error err, sampleState) :=
  C4_unbalanced_rejected sampleState "e2" sampleMint "( 1 + 2 ) ) * ( 3"
    (Or.inl ⟨"( 1 + 2 ) )".data, by decide, by decide⟩)

/-! ## Submission: the concrete scenarios -/

theorem mapGet_mapSet {β : Type} (k : String) (v : β) :
    ∀ m : List (String × β), mapGet (mapSet m k v) k = some v
  | [] => by simp [mapSet, mapGet]
  | (k1, v1) :: m => by
    unfold mapSet
    by_cases h : k1 = k
    · simp [h, mapGet]
    · simp [h, mapGet, mapGet_mapSet k v m]

/-- C2 fails as stated: `"(1 + 2) * 3"` passes `isValidExpression`, but `strings.Fields`
yields the token `(1`, which is neither a number nor a parenthesis, and `addExpression`
returns the unknown-token error without storing anything. -/
theorem C2_counterexample :
    isValidExpression "(1 + 2) * 3" = true ∧
      addExpression (New defaultConfig) "e" sampleMint "(1 + 2) * 3" =
        (.error (.unknownToken "(1"), New defaultConfig) := by
  decide

/-- C2 amended: with every parenthesis set off by spaces, `"( 1 + 2 ) * 3"` is accepted and
compiles to exactly two tasks, allocated in order: task 0 is the addition of `1` and `2`,
task 1 the multiplication of the placeholder `T0` and `3`, each with the configured
duration; the record owns these two tasks. The string `"(1 + 2) * 3"` itself passes
`isValidExpression` and is rejected by `addExpression` (unknown token `(1`) with the state
unchanged. -/
theorem C2_spaced_scenario (a : Application) (exprID : String) (mint : Nat → String) :
    (addExpression a exprID mint "( 1 + 2 ) * 3").1 = .ok exprID ∧
      (addExpression a exprID mint "( 1 + 2 ) * 3").2.heap =
        a.heap ++
          [{ ID := mint 0, Arg1 := "1", Arg2 := "2", Operation := .OperationAddition,
             OperationTime := a.config.TimeAdditionMS },
           { ID := mint 1, Arg1 := placeholder 0, Arg2 := "3",
             Operation := .OperationMultiplication,
             OperationTime := a.config.TimeMultiplicationsMS }] ∧
      placeholder 0 = "T0" ∧
      ((mapGet (addExpression a exprID mint "( 1 + 2 ) * 3").2.expressions exprID).map
          (fun e => e.Tasks)) = some [a.heap.length, a.heap.length + 1] ∧
      isValidExpression "(1 + 2) * 3" = true ∧
      addExpression a exprID mint "(1 + 2) * 3" = (.error (.unknownToken "(1"), a) := by
  have h1 : infixToRPN "( 1 + 2 ) * 3" = .ok ["1", "2", "+", "3", "*"] := by decide
  have h2 : infixToRPN "(1 + 2) * 3" = .error (.unknownToken "(1") := by decide
  have n1 : isNumeric "1" = true := by decide
  have n2 : isNumeric "2" = true := by decide
  have n3 : isNumeric "3" = true := by decide
  have np : isNumeric "+" = false := by decide
  have nm : isNumeric "*" = false := by decide
  have op : isOperator "+" = true := by decide
  have om : isOperator "*" = true := by decide
  have h3 : buildTasksFromRPN ["1", "2", "+", "3", "*"] a.config mint =
      .ok [{ ID := mint 0, Arg1 := "1", Arg2 := "2", Operation := .OperationAddition,
             OperationTime := a.config.TimeAdditionMS },
           { ID := mint 1, Arg1 := placeholder 0, Arg2 := "3",
             Operation := .OperationMultiplication,
             OperationTime := a.config.TimeMultiplicationsMS }] := by
    simp [buildTasksFromRPN, buildLoop, n1, n2, n3, np, nm, op, om, operationOf]
  refine ⟨?_, ?_, by decide, ?_, by decide, ?_⟩
  · simp [addExpression, h1, h3]
  · simp [addExpression, h1, h3]
  · simp [addExpression, h1, h3, mapGet_mapSet, List.range']
  · simp [addExpression, h2]

/-- C3, what the code does: for an expression made of one numeric literal, `addExpression`
succeeds with an empty chain and stores a record that is `Pending` and has no `Result`;
nothing is queued or registered, so no later dispatch or result submission can reach the
record and it is never `Completed`. -/
theorem C3_literal_left_pending (a : Application) (exprID : String) (mint : Nat → String)
    (s tok : String) (hs : fields s = [tok]) (hn : isNumeric tok = true) :
    addExpression a exprID mint s =
      (.ok exprID,
        { a with
          expressions :=
            mapSet a.expressions exprID
              { ID := exprID, Expression := s, Status := .StatusPending, Result := none,
                Tasks := [], CurrentTaskIndex := 0 } }) := by
  have h1 : infixToRPN s = .ok [tok] := by
    simp [infixToRPN, hs, infixLoop, hn, drainStack]
  have h2 : buildTasksFromRPN [tok] a.config mint = .ok [] := by
    simp [buildTasksFromRPN, buildLoop, hn]
  simp [addExpression, h1, h2, firstTaskReady, registerTasks, List.range']

theorem C3_literal_left_pending_witness :
    addExpression (New defaultConfig) "e" sampleMint "5" =
      (.ok "e",
        { New defaultConfig with
          expressions :=
            mapSet (New defaultConfig).expressions "e"
              { ID := "e", Expression := "5", Status := .StatusPending, Result := none,
                Tasks := [], CurrentTaskIndex := 0 } }) :=
  C3_literal_left_pending (New defaultConfig) "e" sampleMint "5" "5" (by decide) (by decide)

/-! ## Executions: every task is queued and dispatched at most once -/

theorem firstTaskReady_pos (tasks : List Task) (h : firstTaskReady tasks = true) :
    0 < tasks.length := by
  cases tasks with
  | nil => simp [firstTaskReady] at h
  | cons t ts => simp

/-- The two outcomes of `addExpression`: an error with the state untouched, or a new chain
allocated at the end of the heap. -/
theorem addExpression_cases (a : Application) (exprID : String) (mint : Nat → String)
    (s : String) :
    (∃ err, addExpression a exprID mint s = (.error err, a)) ∨
    (∃ tasks,
      infixToRPN s = .ok ((infixToRPN s).toOption.getD []) ∧
      buildTasksFromRPN ((infixToRPN s).toOption.getD []) a.config mint = .ok tasks ∧
      addExpression a exprID mint s =
        (.ok exprID,
          { a with
            heap := a.heap ++ tasks
            expressions :=
              mapSet a.expressions exprID
                { ID := exprID, Expression := s,
                  Status := if firstTaskReady tasks then .StatusProcessing else .StatusPending,
                  Result := none,
                  Tasks := List.range' a.heap.length tasks.length,
                  CurrentTaskIndex := 0 }
            tasks := registerTasks a.tasks tasks a.heap.length
            taskQueue :=
              if firstTaskReady tasks then a.taskQueue ++ [a.heap.length]
              else a.taskQueue })) := by
  cases h1 : infixToRPN s with
  | error err => left; exact ⟨err, by simp [addExpression, h1]⟩
  | ok tokens =>
    cases h2 : buildTasksFromRPN tokens a.config mint with
    | error err => left; exact ⟨err, by simp [addExpression, h1, h2]⟩
    | ok tasks =>
      right
      refine ⟨tasks, by simp [Except.toOption], by simpa [Except.toOption] using h2, ?_⟩
      simp [addExpression, h1, h2]

/-- The outcomes of a result submission: the state is untouched, or the owner advanced to
the next task, or the owner completed. -/
theorem submitResult_cases (a : Application) (req : TaskResultRequest) :
    (submitResult a req).2 = a ∨
    ∃ (k : Nat) (key : String) (expr : Expression) (i : Nat),
      a.expressions[k]? = some (key, expr) ∧
      (i : Int) = expr.CurrentTaskIndex ∧
      ((∃ p, expr.Tasks[i + 1]? = some p ∧
        (submitResult a req).2 =
          { a with
            heap := a.heap.set p (substitute (deref a.heap p) i req.Result)
            expressions :=
              a.expressions.set k (key, { expr with CurrentTaskIndex := (i : Int) + 1 })
            taskQueue :=
              if isNumeric (substitute (deref a.heap p) i req.Result).Arg1 &&
                  isNumeric (substitute (deref a.heap p) i req.Result).Arg2 then
                a.taskQueue ++ [p]
              else a.taskQueue }) ∨
       (expr.Tasks[i + 1]? = none ∧
        (submitResult a req).2 =
          { a with
            expressions :=
              a.expressions.set k
                (key, { expr with
                        CurrentTaskIndex := (i : Int) + 1
                        Status := .StatusCompleted
                        Result := some req.Result }) })) := by
  cases hreg : mapHas a.tasks req.ID with
  | false => left; simp [submitResult, hreg]
  | true =>
    cases howner : findExpression a.heap req.ID a.expressions with
    | none => left; simp [submitResult, hreg, howner]
    | some k =>
      obtain ⟨key, expr, hexpr, hsome⟩ := findExpression_spec howner
      obtain ⟨i, hpos⟩ := Option.isSome_iff_exists.1 hsome
      by_cases hcur : (i : Int) = expr.CurrentTaskIndex
      · right
        refine ⟨k, key, expr, i, hexpr, hcur, ?_⟩
        cases hnext : expr.Tasks[i + 1]? with
        | none =>
          right
          exact ⟨rfl, by rw [submitResult_last a req k key expr i hreg howner hexpr hpos hcur hnext]⟩
        | some p =>
          left
          exact ⟨p, rfl, by
            rw [submitResult_next a req k key expr i p hreg howner hexpr hpos hcur hnext]⟩
      · left
        rw [submitResult_eq a req k key expr i hreg howner hexpr hpos]
        simp [hcur]

theorem pendingPtrs_perm {l1 l2 : List (String × Expression)} (h : l1.Perm l2) :
    (pendingPtrs l1).Perm (pendingPtrs l2) := by
  induction h with
  | nil => exact List.Perm.refl _
  | cons x _ ih => exact List.Perm.append_left _ ih
  | swap x y l =>
    simp only [pendingPtrs]
    rw [← List.append_assoc, ← List.append_assoc]
    exact List.Perm.append_right _ List.perm_append_comm
  | trans _ _ ih1 ih2 => exact ih1.trans ih2

theorem count_pendingPtrs_mapSet (x : Nat) (key : String) (e : Expression) :
    ∀ es : List (String × Expression),
      (pendingPtrs (mapSet es key e)).count x ≤
        (pendingPtrs es).count x + (e.Tasks.drop (e.CurrentTaskIndex.toNat + 1)).count x
  | [] => by simp [mapSet, pendingPtrs]
  | (k1, v1) :: es => by
    unfold mapSet
    by_cases h : k1 = key
    · simp only [h, if_true, pendingPtrs, List.count_append]
      omega
    · simp only [h, if_false, pendingPtrs, List.count_append]
      have := count_pendingPtrs_mapSet x key e es
      omega

theorem count_pendingPtrs_set (x : Nat) (kv1 kv2 : String × Expression) :
    ∀ (es : List (String × Expression)) (k : Nat), es[k]? = some kv1 →
      (pendingPtrs (es.set k kv2)).count x +
          (kv1.2.Tasks.drop (kv1.2.CurrentTaskIndex.toNat + 1)).count x =
        (pendingPtrs es).count x +
          (kv2.2.Tasks.drop (kv2.2.CurrentTaskIndex.toNat + 1)).count x
  | [], k, h => by simp at h
  | kv :: es, 0, h => by
    simp only [List.getElem?_cons_zero, Option.some.injEq] at h
    subst h
    simp only [List.set_cons_zero, pendingPtrs, List.count_append]
    omega
  | kv :: es, k + 1, h => by
    simp only [List.getElem?_cons_succ] at h
    have := count_pendingPtrs_set x kv1 kv2 es k h
    simp only [List.set_cons_succ, pendingPtrs, List.count_append]
    omega

theorem idsOf_append (heap extra : List Task) (ps : List Nat) (h : ∀ p ∈ ps, p < heap.length) :
    idsOf (heap ++ extra) ps = idsOf heap ps := by
  unfold idsOf
  apply List.map_congr_left
  intro p hp
  simp [deref, List.getD, List.getElem?_append_left (h p hp)]

theorem idsOf_set (heap : List Task) (q : Nat) (t : Task) (ps : List Nat)
    (ht : t.ID = (deref heap q).ID) : idsOf (heap.set q t) ps = idsOf heap ps := by
  unfold idsOf
  apply List.map_congr_left
  intro p _
  by_cases hq : q < heap.length
  · rw [deref_set _ _ _ _ hq]
    split
    · rename_i hpq; rw [ht, hpq]
    · rfl
  · rw [List.set_eq_of_length_le (by omega)]

/-- Every operation keeps the invariant of executions. -/
theorem step_inv (a : Application) (tr : Trace) (done : List Nat) (op : Op)
    (h : RunInv a tr done) : ∃ done1, RunInv (step a tr op).1 (step a tr op).2 done1 := by
  obtain ⟨hb, hn, hd, he⟩ := h
  rw [List.nodup_iff_count_le_one] at hn
  have hzero : ∀ x, a.heap.length ≤ x →
      (done ++ a.taskQueue ++ pendingPtrs a.expressions).count x = 0 := by
    intro x hx
    apply List.count_eq_zero_of_not_mem
    intro hm
    have := hb x hm
    omega
  cases op with
  | visit order =>
    by_cases hp : order.Perm a.expressions
    · have hperm := pendingPtrs_perm hp
      refine ⟨done, ?_⟩
      simp only [step, hp, if_true]
      refine ⟨?_, ?_, hd, he⟩
      · intro p hm
        apply hb p
        simp only [List.mem_append] at hm ⊢
        rcases hm with hm | hm
        · exact Or.inl hm
        · exact Or.inr (hperm.mem_iff.1 hm)
      · rw [List.nodup_iff_count_le_one]
        intro x
        have := hn x
        simp only [List.count_append] at this ⊢
        rw [hperm.count_eq x]
        exact this
    · refine ⟨done, ?_⟩
      simp only [step, hp, if_false]
      exact ⟨hb, List.nodup_iff_count_le_one.2 hn, hd, he⟩
  | dispatch =>
    cases hq : a.taskQueue with
    | nil =>
      refine ⟨done, ?_⟩
      simp only [step, giveTaskHandler, dispatch, hq, Response.dispatchedID, List.append_nil]
      refine ⟨?_, ?_, hd, ?_⟩
      · simpa [hq] using hb
      · rw [List.nodup_iff_count_le_one]; simpa [hq] using hn
      · simpa [hq] using he
    | cons p queue =>
      refine ⟨done ++ [p], ?_⟩
      simp only [step, giveTaskHandler, dispatch, hq, Response.dispatchedID]
      refine ⟨?_, ?_, ?_, ?_⟩
      · simpa [hq] using hb
      · rw [List.nodup_iff_count_le_one]; simpa [hq] using hn
      · simp [hd, idsOf]
      · simpa [hq] using he
  | submit exprID mint s =>
    rcases addExpression_cases a exprID mint s with ⟨err, herr⟩ | ⟨tasks, -, -, hok⟩
    · refine ⟨done, ?_⟩
      simp only [step, herr, List.drop_length, List.append_nil]
      exact ⟨hb, List.nodup_iff_count_le_one.2 hn, hd, he⟩
    · refine ⟨done, ?_⟩
      simp only [step, hok]
      have hready : firstTaskReady tasks = true → 0 < tasks.length := firstTaskReady_pos tasks
      have hdrop : ∀ x, (List.drop 1 (List.range' a.heap.length tasks.length)).count x +
          (if firstTaskReady tasks = true then [a.heap.length] else []).count x ≤
            (List.range' a.heap.length tasks.length).count x := by
        intro x
        cases htl : tasks.length with
        | zero =>
          have : firstTaskReady tasks = false := by
            cases hf : firstTaskReady tasks with
            | false => rfl
            | true => have := hready hf; omega
          simp [this]
        | succ n =>
          simp only [List.range'_succ, List.drop_one, List.tail_cons]
          split <;> simp [List.count_cons]
      have hrange : ∀ x, (List.range' a.heap.length tasks.length).count x ≤ 1 :=
        List.nodup_iff_count_le_one.1 (List.nodup_range' _ _)
      have hrange0 : ∀ x, x < a.heap.length →
          (List.range' a.heap.length tasks.length).count x = 0 := by
        intro x hx
        apply List.count_eq_zero_of_not_mem
        rw [List.mem_range'_1]
        omega
      have hqueue : (if firstTaskReady tasks = true then a.taskQueue ++ [a.heap.length]
          else a.taskQueue) =
          a.taskQueue ++ (if firstTaskReady tasks = true then [a.heap.length] else []) := by
        split <;> simp
      refine ⟨?_, ?_, ?_, ?_⟩
      · intro p hm
        simp only [List.length_append]
        by_contra hlt
        have hp0 : (done ++ a.taskQueue ++ pendingPtrs a.expressions).count p = 0 :=
          hzero p (by omega)
        have hr0 : (List.range' a.heap.length tasks.length).count p = 0 := by
          apply List.count_eq_zero_of_not_mem
          rw [List.mem_range'_1]
          omega
        have hpos := List.count_pos_iff.2 hm
        have hms := count_pendingPtrs_mapSet p exprID
          { ID := exprID, Expression := s,
            Status := if firstTaskReady tasks then .StatusProcessing else .StatusPending,
            Result := none,
            Tasks := List.range' a.heap.length tasks.length,
            CurrentTaskIndex := 0 } a.expressions
        have hdp := hdrop p
        simp only [hqueue, List.count_append, Int.toNat_zero, Nat.zero_add] at hpos hp0 hms
        omega
      · rw [List.nodup_iff_count_le_one]
        intro x
        have hms := count_pendingPtrs_mapSet x exprID
          { ID := exprID, Expression := s,
            Status := if firstTaskReady tasks then .StatusProcessing else .StatusPending,
            Result := none,
            Tasks := List.range' a.heap.length tasks.length,
            CurrentTaskIndex := 0 } a.expressions
        have hdp := hdrop x
        have h1 := hn x
        have h2 := hrange x
        simp only [hqueue, List.count_append, Int.toNat_zero, Nat.zero_add] at hms h1 ⊢
        by_cases hx : x < a.heap.length
        · have := hrange0 x hx
          omega
        · have := hzero x (by omega)
          simp only [List.count_append] at this
          omega
      · rw [hd]
        exact (idsOf_append _ _ _ (fun p hp => hb p (by simp [hp]))).symm
      · rw [he, hqueue]
        simp
  | result req =>
    have hstep : (step a tr (.result req)) =
        ((submitResult a req).2,
          { tr with enqueued := tr.enqueued ++
              (submitResult a req).2.taskQueue.drop a.taskQueue.length }) := rfl
    rw [hstep]
    rcases submitResult_cases a req with hsame | ⟨k, key, expr, i, hexpr, hcur, hcase⟩
    · refine ⟨done, ?_⟩
      rw [hsame]
      simp only [List.drop_length, List.append_nil]
      exact ⟨hb, List.nodup_iff_count_le_one.2 hn, hd, he⟩
    · have htoNat : expr.CurrentTaskIndex.toNat = i := by omega
      rcases hcase with ⟨p, hnext, hstate⟩ | ⟨hnext, hstate⟩
      · refine ⟨done, ?_⟩
        rw [hstate]
        obtain ⟨hlt, hget⟩ := List.getElem?_eq_some.1 hnext
        have hdropEq : expr.Tasks.drop (i + 1) = p :: expr.Tasks.drop (i + 1 + 1) := by
          rw [List.drop_eq_getElem_cons hlt, hget]
        have hset := fun x => count_pendingPtrs_set x (key, expr)
          (key, { expr with CurrentTaskIndex := (i : Int) + 1 }) a.expressions k hexpr
        have htoNat2 : ((i : Int) + 1).toNat = i + 1 := by omega
        simp only [htoNat, htoNat2, hdropEq, List.count_cons] at hset
        have hqueue : (if (isNumeric (substitute (deref a.heap p) i req.Result).Arg1 &&
            isNumeric (substitute (deref a.heap p) i req.Result).Arg2) = true
            then a.taskQueue ++ [p] else a.taskQueue) =
            a.taskQueue ++ (if (isNumeric (substitute (deref a.heap p) i req.Result).Arg1 &&
              isNumeric (substitute (deref a.heap p) i req.Result).Arg2) = true
              then [p] else []) := by
          split <;> simp
        simp only [hqueue]
        have hcq : ∀ x, (if (isNumeric (substitute (deref a.heap p) i req.Result).Arg1 &&
              isNumeric (substitute (deref a.heap p) i req.Result).Arg2) = true
              then [p] else []).count x ≤ if p = x then 1 else 0 := by
          intro x
          split <;> simp [List.count_cons]
        have hcount : ∀ x,
            (done ++ (a.taskQueue ++ (if (isNumeric (substitute (deref a.heap p) i
                req.Result).Arg1 && isNumeric (substitute (deref a.heap p) i
                req.Result).Arg2) = true then [p] else [])) ++
              pendingPtrs (a.expressions.set k
                (key, { expr with CurrentTaskIndex := (i : Int) + 1 }))).count x ≤
            (done ++ a.taskQueue ++ pendingPtrs a.expressions).count x := by
          intro x
          have h1 := hset x
          have h2 := hcq x
          simp only [List.count_append]
          simp only [beq_iff_eq] at h1
          omega
        refine ⟨?_, ?_, ?_, ?_⟩
        · intro q hm
          dsimp only at hm ⊢
          simp only [List.length_set]
          apply hb q
          apply List.count_pos_iff.1
          have := hcount q
          have := List.count_pos_iff.2 hm
          omega
        · rw [List.nodup_iff_count_le_one]
          intro x
          dsimp only
          have := hcount x
          have := hn x
          omega
        · show tr.dispatched = idsOf (a.heap.set p _) done
          rw [idsOf_set _ _ _ _ (substitute_fields _ _ _).1]
          exact hd
        · simp [he]
      · refine ⟨done, ?_⟩
        rw [hstate]
        have hge : expr.Tasks.length ≤ i + 1 := by
          rw [List.getElem?_eq_none_iff] at hnext; exact hnext
        have hset := fun x => count_pendingPtrs_set x (key, expr)
          (key, { expr with CurrentTaskIndex := (i : Int) + 1, Status := .StatusCompleted,
                            Result := some req.Result }) a.expressions k hexpr
        have htoNat2 : ((i : Int) + 1).toNat = i + 1 := by omega
        simp only [htoNat, htoNat2, List.drop_eq_nil_of_le hge,
          List.drop_eq_nil_of_le (Nat.le_succ_of_le hge), List.count_nil, Nat.add_zero] at hset
        simp only [List.drop_length, List.append_nil]
        refine ⟨?_, ?_, hd, he⟩
        · intro q hm
          apply hb q
          apply List.count_pos_iff.1
          have := List.count_pos_iff.2 hm
          have := hset q
          simp only [List.count_append] at *
          omega
        · rw [List.nodup_iff_count_le_one]
          intro x
          have := hn x
          have := hset x
          simp only [List.count_append] at *
          omega

/-- The invariant holds all along an execution from the empty coordinator. -/
theorem run_inv :
    ∀ (ops : List Op) (a : Application) (tr : Trace) (done : List Nat), RunInv a tr done →
      ∃ done1, RunInv (run a tr ops).1 (run a tr ops).2 done1
  | [], a, tr, done, h => ⟨done, h⟩
  | op :: ops, a, tr, done, h => by
    obtain ⟨done1, h1⟩ := step_inv a tr done op h
    exact run_inv ops _ _ done1 h1

theorem runInv_New (config : Config) : RunInv (New config) { dispatched := [], enqueued := [] } [] := by
  refine ⟨?_, ?_, rfl, rfl⟩
  · intro p hp
    simp [New, pendingPtrs] at hp
  · simp [New, pendingPtrs]

/-- C10: in every execution from the empty coordinator made of expression submissions,
dispatches and result submissions (in any order, whatever order the expression map is
visited in), if the identifiers minted for the tasks are pairwise distinct then no
identifier is returned by dispatch twice, no task is appended to the queue twice (neither
by address nor by identifier), and the queue holds no task twice; the tasks appended to the
queue are, in order, the dispatched ones followed by those still queued. -/
theorem C10_dispatched_once (config : Config) (ops : List Op)
    (hmint :
      ((run (New config) { dispatched := [], enqueued := [] } ops).1.heap.map
        (fun t => t.ID)).Nodup) :
    (run (New config) { dispatched := [], enqueued := [] } ops).2.dispatched.Nodup ∧
      (run (New config) { dispatched := [], enqueued := [] } ops).2.enqueued.Nodup ∧
      (idsOf (run (New config) { dispatched := [], enqueued := [] } ops).1.heap
        (run (New config) { dispatched := [], enqueued := [] } ops).2.enqueued).Nodup ∧
      (run (New config) { dispatched := [], enqueued := [] } ops).1.taskQueue.Nodup ∧
      (idsOf (run (New config) { dispatched := [], enqueued := [] } ops).1.heap
        (run (New config) { dispatched := [], enqueued := [] } ops).1.taskQueue).Nodup ∧
      (idsOf (run (New config) { dispatched := [], enqueued := [] } ops).1.heap
          (run (New config) { dispatched := [], enqueued := [] } ops).2.enqueued =
        (run (New config) { dispatched := [], enqueued := [] } ops).2.dispatched ++
          idsOf (run (New config) { dispatched := [], enqueued := [] } ops).1.heap
            (run (New config) { dispatched := [], enqueued := [] } ops).1.taskQueue) := by
  obtain ⟨done, hb, hn, hd, he⟩ := run_inv ops _ _ [] (runInv_New config)
  generalize (run (New config) { dispatched := [], enqueued := [] } ops).1 = a at *
  generalize (run (New config) { dispatched := [], enqueued := [] } ops).2 = tr at *
  have hdq : (done ++ a.taskQueue).Nodup := (List.nodup_append.1 hn).1
  have hinj : ∀ x ∈ done ++ a.taskQueue, ∀ y ∈ done ++ a.taskQueue,
      (deref a.heap x).ID = (deref a.heap y).ID → x = y := by
    intro x hx y hy hxy
    have hx1 : x < a.heap.length := hb x (by simp only [List.mem_append] at hx ⊢; tauto)
    have hy1 : y < a.heap.length := hb y (by simp only [List.mem_append] at hy ⊢; tauto)
    have hx2 : x < (a.heap.map (fun t => t.ID)).length := by simpa using hx1
    have hy2 : y < (a.heap.map (fun t => t.ID)).length := by simpa using hy1
    have hinj0 : (a.heap.map (fun t => t.ID))[x] = (a.heap.map (fun t => t.ID))[y] ↔ x = y :=
      List.Nodup.getElem_inj_iff hmint
    apply hinj0.1
    have hdx : deref a.heap x = a.heap[x] := by
      simp [deref, List.getD, List.getElem?_eq_getElem hx1]
    have hdy : deref a.heap y = a.heap[y] := by
      simp [deref, List.getD, List.getElem?_eq_getElem hy1]
    rw [hdx, hdy] at hxy
    simpa using hxy
  have hids : (idsOf a.heap (done ++ a.taskQueue)).Nodup := List.Nodup.map_on hinj hdq
  have hsplit : idsOf a.heap (done ++ a.taskQueue) =
      idsOf a.heap done ++ idsOf a.heap a.taskQueue := by simp [idsOf]
  rw [hd, he]
  rw [hsplit] at hids
  exact ⟨(List.nodup_append.1 hids).1, hdq, by rw [hsplit]; exact hids,
    (List.nodup_append.1 hdq).2.1, (List.nodup_append.1 hids).2.1, hsplit⟩

theorem C10_dispatched_once_witness :
    (run (New defaultConfig) { dispatched := [], enqueued := [] } sampleOps).2.dispatched =
        ["t0", "t1"] ∧
      (run (New defaultConfig) { dispatched := [], enqueued := [] } sampleOps).2.dispatched.Nodup :=
  ⟨by decide, (C10_dispatched_once defaultConfig sampleOps (by decide)).1⟩

/-! ## Decimal renderings are numeric -/

theorem digitChar_spec (k : Nat) (hk : k < 10) :
    isDigit (Nat.digitChar k) = true ∧ (Nat.digitChar k).toNat - 48 = k := by
  interval_cases k <;> decide

theorem digitsFold_append (acc : Nat) (l1 l2 : List Char) :
    digitsFold acc (l1 ++ l2) = digitsFold (digitsFold acc l1) l2 := by
  simp [digitsFold, List.foldl_append]

theorem digitsFold_acc (l : List Char) :
    ∀ acc, digitsFold acc l = acc * 10 ^ l.length + digitsFold 0 l := by
  induction l with
  | nil => intro acc; simp [digitsFold]
  | cons c cs ih =>
    intro acc
    have h1 : digitsFold acc (c :: cs) = digitsFold (acc * 10 + (c.toNat - 48)) cs := rfl
    have h2 : digitsFold 0 (c :: cs) = digitsFold (0 * 10 + (c.toNat - 48)) cs := rfl
    rw [h1, h2, ih (acc * 10 + (c.toNat - 48)), ih (0 * 10 + (c.toNat - 48))]
    simp only [List.length_cons, pow_succ]
    ring

theorem toDigitsCore_spec :
    ∀ (fuel n : Nat) (ds : List Char), n < fuel →
      ∃ pre, Nat.toDigitsCore 10 fuel n ds = pre ++ ds ∧ pre ≠ [] ∧
        (∀ c ∈ pre, isDigit c = true) ∧ digitsFold 0 pre = n
  | 0, n, ds, h => by omega
  | fuel + 1, n, ds, h => by
    obtain ⟨hd1, hd2⟩ := digitChar_spec (n % 10) (Nat.mod_lt _ (by decide))
    unfold Nat.toDigitsCore
    simp only
    by_cases h0 : n / 10 = 0
    · simp only [h0, if_true]
      refine ⟨[Nat.digitChar (n % 10)], rfl, by simp, ?_, ?_⟩
      · intro c hc
        rw [List.mem_singleton.1 hc]
        exact hd1
      · show 0 * 10 + ((Nat.digitChar (n % 10)).toNat - 48) = n
        rw [hd2]
        omega
    · simp only [h0, if_false]
      obtain ⟨pre, hpre, hne, hdig, hval⟩ :=
        toDigitsCore_spec fuel (n / 10) (Nat.digitChar (n % 10) :: ds) (by omega)
      refine ⟨pre ++ [Nat.digitChar (n % 10)], by simp [hpre], by simp, ?_, ?_⟩
      · intro c hc
        rcases List.mem_append.1 hc with hc | hc
        · exact hdig c hc
        · rw [List.mem_singleton.1 hc]
          exact hd1
      · rw [digitsFold_append, hval]
        show n / 10 * 10 + ((Nat.digitChar (n % 10)).toNat - 48) = n
        rw [hd2]
        omega

/-- The decimal digits of a number: not empty, digits only, and they read back as it. -/
theorem toDigits_spec (n : Nat) :
    Nat.toDigits 10 n ≠ [] ∧ (∀ c ∈ Nat.toDigits 10 n, isDigit c = true) ∧
      digitsFold 0 (Nat.toDigits 10 n) = n := by
  obtain ⟨pre, hpre, hne, hdig, hval⟩ := toDigitsCore_spec (n + 1) n [] (by omega)
  have : Nat.toDigits 10 n = pre := by
    unfold Nat.toDigits
    rw [hpre, List.append_nil]
  rw [this]
  exact ⟨hne, hdig, hval⟩

theorem toDigits_length_le (n e : Nat) (he : 0 < e) (hn : n < 10 ^ e) :
    (Nat.toDigits 10 n).length ≤ e := by
  have := Nat.repr_length n e he hn
  simpa [Nat.repr, String.length, List.asString] using this

theorem padDigits_spec (m : Nat) (hm : m < 10 ^ 6) :
    (padDigits 6 m).length = 6 ∧ (∀ c ∈ padDigits 6 m, isDigit c = true) ∧
      ∀ acc, digitsFold acc (padDigits 6 m) = acc * 10 ^ 6 + m := by
  obtain ⟨-, hdig, hval⟩ := toDigits_spec m
  have hlen := toDigits_length_le m 6 (by decide) hm
  refine ⟨?_, ?_, ?_⟩
  · simp only [padDigits, List.length_append, List.length_replicate]
    omega
  · intro c hc
    simp only [padDigits, List.mem_append, List.mem_replicate] at hc
    rcases hc with ⟨-, rfl⟩ | hc
    · decide
    · exact hdig c hc
  · intro acc
    have hzero : ∀ (k acc : Nat), digitsFold acc (List.replicate k '0') = acc * 10 ^ k := by
      intro k
      induction k with
      | zero => intro acc; simp [digitsFold]
      | succ k ih =>
        intro acc
        have : digitsFold acc (List.replicate (k + 1) '0') =
            digitsFold (acc * 10 + ('0'.toNat - 48)) (List.replicate k '0') := rfl
        rw [this, ih]
        have h48 : '0'.toNat - 48 = 0 := by decide
        rw [h48, pow_succ]
        ring
    simp only [padDigits]
    rw [digitsFold_append, hzero, digitsFold_acc, hval, mul_assoc, ← pow_add]
    congr 3
    omega

theorem isDigit_not_special (c : Char) (h : isDigit c = true) :
    c ≠ '_' ∧ c ≠ '.' ∧ c ≠ '+' ∧ c ≠ '-' ∧ lower c ≠ 120 ∧ lower c ≠ 101 := by
  refine ⟨?_, ?_, ?_, ?_, ?_, ?_⟩ <;>
    first
    | (intro hc; subst hc; revert h; decide)
    | (simp only [isDigit, Bool.and_eq_true, decide_eq_true_eq] at h
       unfold lower
       obtain ⟨h1, h2⟩ := h
       generalize c.toNat = k at h1 h2
       interval_cases k <;> decide)

theorem readMant_digit_step (st : MantState) (c : Char) (cs : List Char)
    (hc : isDigit c = true) :
    readMant false st (c :: cs) =
      if c = '0' ∧ st.nd = 0 then
        readMant false { st with sawdigits := true, dp := st.dp - 1 } cs
      else
        readMant false { st with sawdigits := true, nd := st.nd + 1,
                                 mant := st.mant * 10 + (c.toNat - 48) } cs := by
  obtain ⟨h1, h2, -⟩ := isDigit_not_special c hc
  rw [readMant, if_neg h1, if_neg h2, if_pos hc]
  rfl

/-- The mantissa loop over a run of decimal digits. -/
theorem readMant_digits :
    ∀ (ds : List Char) (st : MantState) (rest : List Char),
      (∀ c ∈ ds, isDigit c = true) → (st.nd = 0 → st.mant = 0) →
      ∃ st1, readMant false st (ds ++ rest) = readMant false st1 rest ∧
        st1.mant = digitsFold st.mant ds ∧
        st1.dp - st1.nd = st.dp - st.nd - ds.length ∧
        (st1.nd = 0 → st1.mant = 0) ∧
        st1.sawdot = st.sawdot ∧ st1.underscores = st.underscores ∧
        (st.sawdigits = true ∨ ds ≠ [] → st1.sawdigits = true)
  | [], st, rest, _, hz => ⟨st, rfl, rfl, by simp, hz, rfl, rfl, by simp⟩
  | c :: ds, st, rest, hdig, hz => by
    have hc : isDigit c = true := hdig c (by simp)
    have hds : ∀ x ∈ ds, isDigit x = true := fun x hx => hdig x (List.mem_cons_of_mem _ hx)
    have hstep := readMant_digit_step st c (ds ++ rest) hc
    by_cases hlead : c = '0' ∧ st.nd = 0
    · rw [if_pos hlead] at hstep
      obtain ⟨st1, e1, e2, e3, e4, e5, e6, e7⟩ := readMant_digits ds
        { st with sawdigits := true, dp := st.dp - 1 } rest hds hz
      refine ⟨st1, by rw [List.cons_append, hstep, e1], ?_, ?_, e4, e5, e6,
        fun _ => e7 (Or.inl rfl)⟩
      · rw [e2]
        have hm : st.mant = 0 := hz hlead.2
        show digitsFold st.mant ds = digitsFold (st.mant * 10 + (c.toNat - 48)) ds
        rw [hm, hlead.1]
        rfl
      · rw [e3]
        simp only [List.length_cons]
        push_cast
        ring
    · rw [if_neg hlead] at hstep
      obtain ⟨st1, e1, e2, e3, e4, e5, e6, e7⟩ := readMant_digits ds
        { st with sawdigits := true, nd := st.nd + 1,
                  mant := st.mant * 10 + (c.toNat - 48) } rest hds (by simp)
      refine ⟨st1, by rw [List.cons_append, hstep, e1], ?_, ?_, e4, e5, e6,
        fun _ => e7 (Or.inl rfl)⟩
      · rw [e2]; rfl
      · rw [e3]
        simp only [List.length_cons]
        push_cast
        ring

/-- `readFloat` on an optionally negated decimal with integer digits, a point and
fractional digits. -/
theorem readFloat_decimal (neg : Bool) (ds1 ds2 : List Char)
    (h1 : ∀ c ∈ ds1, isDigit c = true) (h2 : ∀ c ∈ ds2, isDigit c = true)
    (hne : ds1 ≠ []) :
    readFloat ((if neg then ['-'] else []) ++ ds1 ++ ['.'] ++ ds2) =
      some { neg := neg, hex := false, mant := digitsFold 0 (ds1 ++ ds2),
             exp := -(ds2.length : Int) } := by
  -- the mantissa loop on the part after the sign
  have hloop : ∀ s neg1, parseExponent s neg1 false
      (readMant false MantState.init (ds1 ++ '.' :: ds2)).1
      (readMant false MantState.init (ds1 ++ '.' :: ds2)).2 =
      some { neg := neg1, hex := false, mant := digitsFold 0 (ds1 ++ ds2),
             exp := -(ds2.length : Int) } := by
    intro s neg1
    obtain ⟨st1, e1, m1, d1, z1, sd1, us1, sg1⟩ :=
      readMant_digits ds1 MantState.init ('.' :: ds2) h1 (fun _ => rfl)
    have hdot : readMant false st1 ('.' :: ds2) =
        readMant false { st1 with sawdot := true, dp := st1.nd } (ds2 ++ []) := by
      have hsd : st1.sawdot = false := sd1
      rw [readMant, if_neg (by decide), if_pos rfl, hsd, List.append_nil]
      rfl
    obtain ⟨st2, e2, m2, d2, z2, sd2, us2, sg2⟩ :=
      readMant_digits ds2 { st1 with sawdot := true, dp := st1.nd } [] h2 z1
    have hend : readMant false st2 [] = (st2, []) := rfl
    rw [e1, hdot, e2, hend]
    have hsg : st2.sawdigits = true := sg2 (Or.inl (sg1 (Or.inr hne)))
    have hsdot : st2.sawdot = true := sd2
    have hus : st2.underscores = false := by rw [us2]; exact us1
    have hmant : st2.mant = digitsFold 0 (ds1 ++ ds2) := by
      rw [m2, digitsFold_append]
      show digitsFold st1.mant ds2 = _
      rw [m1]
      rfl
    have hexp : st2.dp - (st2.nd : Int) = -(ds2.length : Int) := by
      rw [d2]
      show ((st1.nd : Int) - st1.nd) - _ = _
      ring
    simp only [parseExponent, hsg, hsdot, hus, parseFinish, Bool.not_true, Bool.false_eq_true,
      if_false, if_true, List.isEmpty_nil, Bool.not_false, Bool.true_or, Bool.and_self, hmant]
    rw [hexp]
  obtain ⟨c1, r1, hds1⟩ := List.exists_cons_of_ne_nil hne
  have hc1 : isDigit c1 = true := h1 c1 (by simp [hds1])
  obtain ⟨-, -, p3, p4, -, -⟩ := isDigit_not_special c1 hc1
  -- the base prefix is not there: the second character is a digit or the point
  have hnohex : ∀ (s : List Char) (neg1 : Bool),
      (match ds1 ++ '.' :: ds2 with
        | c0 :: c1 :: c2 :: r2 =>
          if c0 = '0' ∧ lower c1 = 120 then
            parseExponent s neg1 true (readMant true MantState.init (c2 :: r2)).1
              (readMant true MantState.init (c2 :: r2)).2
          else
            parseExponent s neg1 false (readMant false MantState.init (ds1 ++ '.' :: ds2)).1
              (readMant false MantState.init (ds1 ++ '.' :: ds2)).2
        | _ =>
          parseExponent s neg1 false (readMant false MantState.init (ds1 ++ '.' :: ds2)).1
            (readMant false MantState.init (ds1 ++ '.' :: ds2)).2) =
      some { neg := neg1, hex := false, mant := digitsFold 0 (ds1 ++ ds2),
             exp := -(ds2.length : Int) } := by
    intro s neg1
    split
    · rename_i c0 c1' c2 r2 heq
      have hsecond : lower c1' ≠ 120 := by
        rw [hds1] at heq
        cases r1 with
        | nil =>
          simp only [List.cons_append, List.nil_append, List.cons.injEq] at heq
          rw [← heq.2.1]
          decide
        | cons x xs =>
          simp only [List.cons_append, List.cons.injEq] at heq
          have hx : isDigit x = true := h1 x (by simp [hds1])
          rw [← heq.2.1]
          exact (isDigit_not_special x hx).2.2.2.2.1
      rw [if_neg (fun h => hsecond h.2)]
      exact hloop s neg1
    · exact hloop s neg1
  cases neg with
  | true =>
    have hs : ((if true = true then ['-'] else []) ++ ds1 ++ ['.'] ++ ds2) =
        '-' :: (ds1 ++ '.' :: ds2) := by simp
    rw [hs, readFloat]
    simp only [or_true, if_true, decide_True]
    exact hnohex _ _
  | false =>
    have hs : ((if false = true then ['-'] else []) ++ ds1 ++ ['.'] ++ ds2) =
        c1 :: (r1 ++ '.' :: ds2) := by simp [hds1]
    have hs2 : c1 :: (r1 ++ '.' :: ds2) = ds1 ++ '.' :: ds2 := by simp [hds1]
    rw [hs, readFloat]
    have hm : decide (c1 = '-') = false := by simp [p4]
    simp only [p3, p4, or_self, if_false, hm]
    rw [hs2]
    exact hnohex _ _

theorem formatFloat_readFloat (x : Float64) :
    readFloat (formatFloat x).data =
      some { neg := x.neg, hex := false, mant := x.scaled, exp := -6 } := by
  obtain ⟨hne, hdig, hval⟩ := toDigits_spec (x.scaled / 10 ^ 6)
  obtain ⟨hlen, hpdig, hpval⟩ := padDigits_spec (x.scaled % 10 ^ 6) (Nat.mod_lt _ (by norm_num))
  have h := readFloat_decimal x.neg (Nat.toDigits 10 (x.scaled / 10 ^ 6))
    (padDigits 6 (x.scaled % 10 ^ 6)) hdig hpdig hne
  rw [digitsFold_append, hval, hpval, hlen, Nat.div_add_mod'] at h
  exact h

theorem abs_toRat (x : Float64) : |x.toRat| = (x.mant : ℚ) * (2 : ℚ) ^ x.exp := by
  have hpos : (0 : ℚ) ≤ (x.mant : ℚ) * (2 : ℚ) ^ x.exp :=
    mul_nonneg (Nat.cast_nonneg _) (zpow_nonneg (by norm_num) _)
  unfold Float64.toRat
  cases x.neg with
  | true =>
    simp only [if_true]
    rw [mul_assoc, neg_one_mul, abs_neg, abs_of_nonneg hpos]
  | false =>
    simp only [Bool.false_eq_true, if_false]
    rw [mul_assoc, one_mul, abs_of_nonneg hpos]

/-- A float with at most six fractional digits is scaled without rounding. -/
theorem scaled_exact (x : Float64) (h : x.sixDigits) :
    (x.scaled : ℚ) = |x.toRat| * 10 ^ 6 := by
  rw [abs_toRat]
  unfold Float64.scaled
  by_cases he : 0 ≤ x.exp
  · rw [if_pos he]
    obtain ⟨k, hk⟩ := Int.eq_ofNat_of_zero_le he
    rw [hk]
    simp only [Int.toNat_ofNat, zpow_natCast]
    push_cast
    ring
  · rw [if_neg he]
    obtain ⟨m, hm⟩ := h
    have habs : |x.toRat| * 10 ^ 6 = ((m.natAbs : ℕ) : ℚ) := by
      have : |x.toRat * 10 ^ 6| = |(m : ℚ)| := by rw [hm]
      rw [abs_mul, abs_of_nonneg (by positivity : (0 : ℚ) ≤ 10 ^ 6)] at this
      rw [this, Nat.cast_natAbs, Int.cast_abs]
    rw [abs_toRat] at habs
    obtain ⟨k, hk⟩ : ∃ k : ℕ, x.exp = -(k : ℤ) := ⟨(-x.exp).toNat, by omega⟩
    have hk2 : (-x.exp).toNat = k := by omega
    rw [hk2]
    rw [hk, zpow_neg, zpow_natCast] at habs ⊢
    have hd : (0 : ℚ) < 2 ^ k := by positivity
    have hnat : x.mant * 10 ^ 6 = m.natAbs * 2 ^ k := by
      have : ((x.mant * 10 ^ 6 : ℕ) : ℚ) = ((m.natAbs * 2 ^ k : ℕ) : ℚ) := by
        push_cast
        field_simp at habs
        linarith
      exact_mod_cast this
    have hq : x.mant * 10 ^ 6 / 2 ^ k = m.natAbs := by
      rw [hnat]
      exact Nat.mul_div_cancel _ (by positivity)
    have hr : x.mant * 10 ^ 6 % 2 ^ k = 0 := by
      rw [hnat]
      exact Nat.mul_mod_left _ _
    simp only [hq, hr, Nat.mul_zero]
    have hdpos : 0 < 2 ^ k := by positivity
    rw [if_neg (by omega), if_neg (by omega)]
    rw [← habs]

theorem threshold_gt_max : maxFloat64 * 10 ^ 6 < (overflowThreshold : ℚ) * 10 ^ 6 := by
  unfold maxFloat64 overflowThreshold
  norm_num

/-- The rendering of a float that is in range and has at most six fractional digits is a
numeric string, and its value is the float. -/
theorem formatFloat_exact (x : Float64) (h6 : x.sixDigits) (hr : x.inRange) :
    isNumeric (formatFloat x) = true ∧ numValue (formatFloat x) = some x.toRat := by
  have hs := scaled_exact x h6
  have hlt : x.scaled < overflowThreshold * 10 ^ 6 := by
    have : (x.scaled : ℚ) < ((overflowThreshold * 10 ^ 6 : ℕ) : ℚ) := by
      rw [hs]
      push_cast
      calc |x.toRat| * 10 ^ 6 ≤ maxFloat64 * 10 ^ 6 :=
            mul_le_mul_of_nonneg_right hr (by positivity)
        _ < (overflowThreshold : ℚ) * 10 ^ 6 := threshold_gt_max
    exact_mod_cast this
  have hov : FloatLit.outOfRange { neg := x.neg, hex := false, mant := x.scaled, exp := -6 } =
      false := by
    simp only [FloatLit.outOfRange, overflows, Bool.false_eq_true, if_false]
    rw [if_neg (by decide)]
    simp only [decide_eq_false_iff_not, not_le]
    exact hlt
  refine ⟨?_, ?_⟩
  · unfold isNumeric parseFloatOk
    rw [formatFloat_readFloat]
    simp [hov]
  · unfold numValue
    rw [formatFloat_readFloat]
    simp only [hov, Bool.false_eq_true, if_false, Option.some.injEq]
    unfold FloatLit.value Float64.toRat
    simp only [Bool.false_eq_true, if_false]
    have hsc : (x.scaled : ℚ) = (x.mant : ℚ) * (2 : ℚ) ^ x.exp * 10 ^ 6 := by
      rw [hs, abs_toRat]
    rw [hsc]
    have h10 : (10 : ℚ) ^ (-6 : ℤ) * 10 ^ 6 = 1 := by norm_num
    calc (if x.neg = true then -1 else 1) * ((x.mant : ℚ) * (2 : ℚ) ^ x.exp * 10 ^ 6) *
          (10 : ℚ) ^ (-6 : ℤ)
        = (if x.neg = true then -1 else 1) * (x.mant : ℚ) * (2 : ℚ) ^ x.exp *
            ((10 : ℚ) ^ (-6 : ℤ) * 10 ^ 6) := by ring
      _ = _ := by rw [h10, mul_one]

/-- A placeholder is not a numeric string. -/
theorem isNumeric_placeholder (k : Nat) : isNumeric (placeholder k) = false := by
  unfold isNumeric placeholder parseFloatOk
  have h1 : special ('T' :: Nat.toDigits 10 k) = false := by
    simp [special]
  have h2 : readFloat ('T' :: Nat.toDigits 10 k) = none := by
    have hm : ∀ cs, readMant false MantState.init ('T' :: cs) = (MantState.init, 'T' :: cs) := by
      intro cs
      rw [readMant]
      simp [isDigit]
    have key : ∀ (s : List Char) (neg : Bool) (cs : List Char), parseExponent s neg false
        (readMant false MantState.init ('T' :: cs)).1
        (readMant false MantState.init ('T' :: cs)).2 = none := by
      intro s neg cs
      rw [hm]
      simp [parseExponent, MantState.init]
    unfold readFloat
    simp only [(by decide : ¬('T' = '+' ∨ 'T' = '-')), if_false]
    split
    · rename_i c0 c1 c2 r2 heq
      have hc0 : c0 = 'T' := by
        injection heq with h _
        exact h.symm
      rw [if_neg (by rintro ⟨h, -⟩; rw [hc0] at h; revert h; decide)]
      exact key _ _ _
    · exact key _ _ _
  simp [h1, h2]

/-- Distinct indices have distinct placeholders. -/
theorem placeholder_injective (j k : Nat) (h : placeholder j = placeholder k) : j = k := by
  unfold placeholder at h
  have hd : Nat.toDigits 10 j = Nat.toDigits 10 k := by
    have := congrArg String.data h
    simpa using this
  have hj := (toDigits_spec j).2.2
  have hk := (toDigits_spec k).2.2
  rw [← hj, ← hk, hd]

/-! ## The shunting loop on well-formed phrases -/

theorem popToParen_operators :
    ∀ (pend output opStack : List String), (∀ p ∈ pend, isOperator p = true) →
      popToParen output (pend ++ "(" :: opStack) = (output ++ pend, "(" :: opStack)
  | [], output, opStack, _ => by simp [popToParen]
  | p :: pend, output, opStack, h => by
    have hp : p ≠ "(" := by
      rcases isOperator_cases p (h p (by simp)) with rfl | rfl | rfl | rfl <;> decide
    rw [List.cons_append, popToParen, if_neg hp,
      popToParen_operators pend _ opStack (fun q hq => h q (List.mem_cons_of_mem _ hq))]
    simp

theorem popOperators_all (token : String) :
    ∀ (pend output opStack : List String),
      (∀ p ∈ pend, isOperator p = true ∧ precedence token ≤ precedence p) →
      (∀ top rest, opStack = top :: rest → top = "(" ∨ precedence top < precedence token) →
      popOperators token output (pend ++ opStack) = (output ++ pend, opStack)
  | [], output, opStack, _, hb => by
    cases opStack with
    | nil => simp [popOperators]
    | cons top rest =>
      rw [List.nil_append, popOperators]
      rcases hb top rest rfl with h | h
      · rw [if_pos h]; simp
      · by_cases h1 : top = "("
        · rw [if_pos h1]; simp
        · rw [if_neg h1, if_neg (by omega)]; simp
  | p :: pend, output, opStack, h, hb => by
    obtain ⟨hop, hprec⟩ := h p (by simp)
    have hp : p ≠ "(" := by
      rcases isOperator_cases p hop with rfl | rfl | rfl | rfl <;> decide
    rw [List.cons_append, popOperators, if_neg hp, if_pos hprec,
      popOperators_all token pend _ opStack (fun q hq => h q (List.mem_cons_of_mem _ hq)) hb]
    simp

theorem drainStack_operators :
    ∀ (pend output : List String), (∀ p ∈ pend, isOperator p = true) →
      drainStack output pend = .ok (output ++ pend)
  | [], output, _ => by simp [drainStack]
  | p :: pend, output, h => by
    have hp : ¬(p = "(" ∨ p = ")") := by
      rcases isOperator_cases p (h p (by simp)) with rfl | rfl | rfl | rfl <;> decide
    rw [drainStack, if_neg hp,
      drainStack_operators pend _ (fun q hq => h q (List.mem_cons_of_mem _ hq))]
    simp

/-- The step of `infixLoop` at an operator token. -/
theorem infixLoop_operator (token : String) (tokens output opStack : List String)
    (h : isOperator token = true) :
    infixLoop (token :: tokens) output opStack =
      infixLoop tokens (popOperators token output opStack).1
        (token :: (popOperators token output opStack).2) := by
  have h3 : isNumeric token = false ∧ token ≠ "(" ∧ token ≠ ")" := by
    rcases isOperator_cases token h with rfl | rfl | rfl | rfl <;> decide
  rw [infixLoop, if_neg (by simp [h3.1]), if_neg h3.2.1, if_neg h3.2.2, if_pos h]

/-- The loop over a phrase followed by an operator of the level of the phrase: the phrase
goes to the output in postfix form and the operator waits on the stack. -/
theorem infixLoop_binary (token : String) (q : Int) (hop : isOperator token = true)
    (hq : precedence token = q) (o1 p1 o2 p2 : List String) (toks1 toks2 : List String)
    (output opStack rest : List String)
    (h1 : infixLoop (toks1 ++ token :: (toks2 ++ rest)) output opStack =
      infixLoop (token :: (toks2 ++ rest)) (output ++ o1) (p1 ++ opStack))
    (hp1 : ∀ p ∈ p1, isOperator p = true ∧ q ≤ precedence p)
    (hb : ∀ top rest, opStack = top :: rest → top = "(" ∨ precedence top < q)
    (h2 : infixLoop (toks2 ++ rest) (output ++ o1 ++ p1) (token :: opStack) =
      infixLoop rest (output ++ o1 ++ p1 ++ o2) (p2 ++ token :: opStack)) :
    infixLoop ((toks1 ++ token :: toks2) ++ rest) output opStack =
      infixLoop rest (output ++ (o1 ++ p1 ++ o2)) ((p2 ++ [token]) ++ opStack) := by
  have hpop := popOperators_all token p1 (output ++ o1) opStack
    (fun p hp => ⟨(hp1 p hp).1, by rw [hq]; exact (hp1 p hp).2⟩)
    (fun top r hr => by rw [hq]; exact hb top r hr)
  have e1 : (toks1 ++ token :: toks2) ++ rest = toks1 ++ token :: (toks2 ++ rest) := by simp
  rw [e1, h1, infixLoop_operator token _ _ _ hop, hpop, h2]
  simp

/-- The shunting loop on a well-formed phrase: its tokens are consumed, part of its postfix
form is appended to the output and the rest, operators of the level of the phrase or
tighter, waits on the operator stack. -/
theorem infixLoop_phrase {n : Nat} (e : Phrase n)
    (hlit : ∀ t ∈ e.ast.literals, isNumeric t = true) :
    ∃ o pend, o ++ pend = e.ast.rpn ∧
      (∀ p ∈ pend, isOperator p = true ∧ (n : Int) + 1 ≤ precedence p) ∧
      ∀ output opStack rest, Barrier n opStack →
        infixLoop (e.tokens ++ rest) output opStack =
          infixLoop rest (output ++ o) (pend ++ opStack) := by
  induction e with
  | num token =>
    refine ⟨[token], [], rfl, by simp, ?_⟩
    intro output opStack rest _
    have hn : isNumeric token = true := hlit token (by simp [Phrase.ast, Ast.literals])
    simp only [Phrase.tokens, List.cons_append, List.nil_append]
    rw [infixLoop, if_pos hn]
  | paren e ih =>
    obtain ⟨o, pend, hrpn, hpend, hrun⟩ := ih hlit
    refine ⟨o ++ pend, [], by simpa [Phrase.ast] using hrpn, by simp, ?_⟩
    intro output opStack rest _
    have hb : Barrier 0 ("(" :: opStack) := by
      intro top r hr
      left
      injection hr with h _
      exact h.symm
    have e1 : (Phrase.paren e).tokens ++ rest = "(" :: (e.tokens ++ ")" :: rest) := by
      simp [Phrase.tokens]
    rw [e1, infixLoop, if_neg (by decide), if_pos rfl, hrun output _ _ hb, infixLoop,
      if_neg (by decide), if_neg (by decide), if_pos rfl,
      popToParen_operators pend _ opStack (fun p hp => (hpend p hp).1)]
    simp
  | atom f ih =>
    obtain ⟨o, pend, hrpn, hpend, hrun⟩ := ih hlit
    refine ⟨o, pend, hrpn, fun p hp => ⟨(hpend p hp).1, by have := (hpend p hp).2; omega⟩, ?_⟩
    intro output opStack rest hb
    exact hrun output opStack rest
      (fun top r hr => (hb top r hr).imp id (fun h => by push_cast at h ⊢; omega))
  | term t ih =>
    obtain ⟨o, pend, hrpn, hpend, hrun⟩ := ih hlit
    refine ⟨o, pend, hrpn, fun p hp => ⟨(hpend p hp).1, by have := (hpend p hp).2; omega⟩, ?_⟩
    intro output opStack rest hb
    exact hrun output opStack rest
      (fun top r hr => (hb top r hr).imp id (fun h => by push_cast at h ⊢; omega))
  | mul t f iht ihf =>
    obtain ⟨o1, p1, hrpn1, hpend1, hrun1⟩ :=
      iht (fun x hx => hlit x (by simp [Phrase.ast, Ast.literals, hx]))
    obtain ⟨o2, p2, hrpn2, hpend2, hrun2⟩ :=
      ihf (fun x hx => hlit x (by simp [Phrase.ast, Ast.literals, hx]))
    refine ⟨o1 ++ p1 ++ o2, p2 ++ ["*"], ?_, ?_, ?_⟩
    · simp only [Phrase.ast, Ast.rpn, Operation.token, ← hrpn1, ← hrpn2]
      simp
    · intro p hp
      rcases List.mem_append.1 hp with h | h
      · exact ⟨(hpend2 p h).1, by have := (hpend2 p h).2; push_cast at this ⊢; omega⟩
      · rw [List.mem_singleton.1 h]; decide
    · intro output opStack rest hb
      exact infixLoop_binary "*" 2 (by decide) (by decide) o1 p1 o2 p2 t.tokens f.tokens
        output opStack rest (hrun1 output opStack _ hb)
        (fun p hp => ⟨(hpend1 p hp).1, by have := (hpend1 p hp).2; push_cast at this; omega⟩)
        (fun top r hr => (hb top r hr).imp id (fun h => by push_cast at h; omega))
        (hrun2 _ _ rest (fun top r hr => by
          right
          injection hr with h _
          rw [← h]
          decide))
  | div t f iht ihf =>
    obtain ⟨o1, p1, hrpn1, hpend1, hrun1⟩ :=
      iht (fun x hx => hlit x (by simp [Phrase.ast, Ast.literals, hx]))
    obtain ⟨o2, p2, hrpn2, hpend2, hrun2⟩ :=
      ihf (fun x hx => hlit x (by simp [Phrase.ast, Ast.literals, hx]))
    refine ⟨o1 ++ p1 ++ o2, p2 ++ ["/"], ?_, ?_, ?_⟩
    · simp only [Phrase.ast, Ast.rpn, Operation.token, ← hrpn1, ← hrpn2]
      simp
    · intro p hp
      rcases List.mem_append.1 hp with h | h
      · exact ⟨(hpend2 p h).1, by have := (hpend2 p h).2; push_cast at this ⊢; omega⟩
      · rw [List.mem_singleton.1 h]; decide
    · intro output opStack rest hb
      exact infixLoop_binary "/" 2 (by decide) (by decide) o1 p1 o2 p2 t.tokens f.tokens
        output opStack rest (hrun1 output opStack _ hb)
        (fun p hp => ⟨(hpend1 p hp).1, by have := (hpend1 p hp).2; push_cast at this; omega⟩)
        (fun top r hr => (hb top r hr).imp id (fun h => by push_cast at h; omega))
        (hrun2 _ _ rest (fun top r hr => by
          right
          injection hr with h _
          rw [← h]
          decide))
  | add e t ihe iht =>
    obtain ⟨o1, p1, hrpn1, hpend1, hrun1⟩ :=
      ihe (fun x hx => hlit x (by simp [Phrase.ast, Ast.literals, hx]))
    obtain ⟨o2, p2, hrpn2, hpend2, hrun2⟩ :=
      iht (fun x hx => hlit x (by simp [Phrase.ast, Ast.literals, hx]))
    refine ⟨o1 ++ p1 ++ o2, p2 ++ ["+"], ?_, ?_, ?_⟩
    · simp only [Phrase.ast, Ast.rpn, Operation.token, ← hrpn1, ← hrpn2]
      simp
    · intro p hp
      rcases List.mem_append.1 hp with h | h
      · exact ⟨(hpend2 p h).1, by have := (hpend2 p h).2; push_cast at this ⊢; omega⟩
      · rw [List.mem_singleton.1 h]; decide
    · intro output opStack rest hb
      exact infixLoop_binary "+" 1 (by decide) (by decide) o1 p1 o2 p2 e.tokens t.tokens
        output opStack rest (hrun1 output opStack _ hb)
        (fun p hp => ⟨(hpend1 p hp).1, by have := (hpend1 p hp).2; push_cast at this; omega⟩)
        (fun top r hr => (hb top r hr).imp id (fun h => by push_cast at h; omega))
        (hrun2 _ _ rest (fun top r hr => by
          right
          injection hr with h _
          rw [← h]
          decide))
  | sub e t ihe iht =>
    obtain ⟨o1, p1, hrpn1, hpend1, hrun1⟩ :=
      ihe (fun x hx => hlit x (by simp [Phrase.ast, Ast.literals, hx]))
    obtain ⟨o2, p2, hrpn2, hpend2, hrun2⟩ :=
      iht (fun x hx => hlit x (by simp [Phrase.ast, Ast.literals, hx]))
    refine ⟨o1 ++ p1 ++ o2, p2 ++ ["-"], ?_, ?_, ?_⟩
    · simp only [Phrase.ast, Ast.rpn, Operation.token, ← hrpn1, ← hrpn2]
      simp
    · intro p hp
      rcases List.mem_append.1 hp with h | h
      · exact ⟨(hpend2 p h).1, by have := (hpend2 p h).2; push_cast at this ⊢; omega⟩
      · rw [List.mem_singleton.1 h]; decide
    · intro output opStack rest hb
      exact infixLoop_binary "-" 1 (by decide) (by decide) o1 p1 o2 p2 e.tokens t.tokens
        output opStack rest (hrun1 output opStack _ hb)
        (fun p hp => ⟨(hpend1 p hp).1, by have := (hpend1 p hp).2; push_cast at this; omega⟩)
        (fun top r hr => (hb top r hr).imp id (fun h => by push_cast at h; omega))
        (hrun2 _ _ rest (fun top r hr => by
          right
          injection hr with h _
          rw [← h]
          decide))

/-- On a well-formed expression whose literals are numeric tokens, `infixToRPN` returns
the postfix form of its tree. -/
theorem infixToRPN_phrase (e : Phrase 0) (s : String) (hs : fields s = e.tokens)
    (hlit : ∀ t ∈ e.ast.literals, isNumeric t = true) :
    infixToRPN s = .ok e.ast.rpn := by
  obtain ⟨o, pend, hrpn, hpend, hrun⟩ := infixLoop_phrase e hlit
  have h := hrun [] [] [] (fun top r hr => by cases hr)
  rw [List.append_nil] at h
  unfold infixToRPN
  rw [hs, h, infixLoop, List.append_nil, List.nil_append,
    drainStack_operators pend o (fun p hp => (hpend p hp).1), hrpn]

/-! ## `buildTasksFromRPN` on the postfix form of a tree -/

theorem operationOf_token (config : Config) (op : Operation) :
    operationOf config op.token = (op, config.timeOf op) := by
  cases op <;> simp [operationOf, Operation.token, Config.timeOf]

theorem token_facts (op : Operation) :
    isNumeric op.token = false ∧ isOperator op.token = true := by
  cases op <;> decide

theorem chain_length (config : Config) (mint : Nat → String) :
    ∀ (a : Ast) (n : Nat), (a.chain config mint n).length = a.operators
  | .lit _, _ => rfl
  | .bin op l r, n => by
    simp only [Ast.chain, Ast.operators, List.length_append, chain_length config mint l,
      chain_length config mint r, List.length_singleton]

theorem buildLoop_numeric (config : Config) (mint : Nat → String) (token : String)
    (tokens : List String) (tasks : List Task) (stack : List String) (n : Nat)
    (h : isNumeric token = true) :
    buildLoop config mint (token :: tokens) tasks stack n =
      buildLoop config mint tokens tasks (token :: stack) n := by
  rcases stack with _ | ⟨a, _ | ⟨b, s⟩⟩ <;> simp [buildLoop, h]

theorem buildLoop_operator (config : Config) (mint : Nat → String) (token : String)
    (tokens : List String) (tasks : List Task) (op2 op1 : String) (stack : List String)
    (n : Nat) (h1 : isNumeric token = false) (h2 : isOperator token = true) :
    buildLoop config mint (token :: tokens) tasks (op2 :: op1 :: stack) n =
      buildLoop config mint tokens
        (tasks ++ [{ ID := mint n, Arg1 := op1, Arg2 := op2,
                     Operation := (operationOf config token).1,
                     OperationTime := (operationOf config token).2 }])
        (placeholder n :: stack) (n + 1) := by
  simp [buildLoop, h1, h2]

/-- The loop of `buildTasksFromRPN` over the postfix form of a tree: the tasks of the tree
are appended, its operand is pushed and the counter advances by its operators. -/
theorem buildLoop_rpn (config : Config) (mint : Nat → String) :
    ∀ (a : Ast), (∀ t ∈ a.literals, isNumeric t = true) →
      ∀ (rest : List String) (tasks : List Task) (stack : List String) (n : Nat),
        buildLoop config mint (a.rpn ++ rest) tasks stack n =
          buildLoop config mint rest (tasks ++ a.chain config mint n) (a.operand n :: stack)
            (n + a.operators)
  | .lit token, hlit, rest, tasks, stack, n => by
    have hn : isNumeric token = true := hlit token (by simp [Ast.literals])
    simp only [Ast.rpn, List.cons_append, List.nil_append, Ast.chain, Ast.operand,
      Ast.operators, List.append_nil, Nat.add_zero]
    rw [buildLoop_numeric _ _ _ _ _ _ _ hn]
  | .bin op l r, hlit, rest, tasks, stack, n => by
    have hl : ∀ t ∈ l.literals, isNumeric t = true :=
      fun t ht => hlit t (by simp [Ast.literals, ht])
    have hr : ∀ t ∈ r.literals, isNumeric t = true :=
      fun t ht => hlit t (by simp [Ast.literals, ht])
    obtain ⟨hnum, hop⟩ := token_facts op
    have e1 : (Ast.bin op l r).rpn ++ rest = l.rpn ++ (r.rpn ++ op.token :: rest) := by
      simp [Ast.rpn]
    rw [e1, buildLoop_rpn config mint l hl, buildLoop_rpn config mint r hr,
      buildLoop_operator _ _ _ _ _ _ _ _ _ hnum hop]
    simp only [operationOf_token, Ast.chain, Ast.operand, Ast.operators]
    congr 1
    · simp
    · omega

/-- On the postfix form of a tree whose literals are numeric tokens, `buildTasksFromRPN`
returns the chain of the tree. -/
theorem buildTasksFromRPN_rpn (config : Config) (mint : Nat → String) (a : Ast)
    (hlit : ∀ t ∈ a.literals, isNumeric t = true) :
    buildTasksFromRPN a.rpn config mint = .ok (a.chain config mint 0) := by
  have h := buildLoop_rpn config mint a hlit [] [] [] 0
  rw [List.append_nil] at h
  unfold buildTasksFromRPN
  rw [h, buildLoop]
  simp

/-! ## The chain of a tree whose operators all have a literal operand -/

theorem chainEval_append :
    ∀ (xs ys : List Task) (k : Nat) (prev : Option ℚ),
      chainEval k prev (xs ++ ys) = chainEval (k + xs.length) (chainEval k prev xs) ys
  | [], ys, k, prev => by simp [chainEval]
  | x :: xs, ys, k, prev => by
    show chainEval (k + 1) (taskValue k prev x) (xs ++ ys) =
      chainEval (k + (xs.length + 1)) (chainEval (k + 1) (taskValue k prev x) xs) ys
    rw [chainEval_append xs ys]
    congr 1
    omega

theorem numeric_ne_placeholder (arg : String) (k : Nat) (h : isNumeric arg = true) :
    arg ≠ placeholder k := by
  intro he
  rw [he, isNumeric_placeholder] at h
  cases h

theorem argValue_numeric (k : Nat) (prev : Option ℚ) (arg : String)
    (h : isNumeric arg = true) : argValue k prev arg = numValue arg := by
  unfold argValue
  rw [if_neg (fun hc => numeric_ne_placeholder arg _ h hc.2)]

theorem argValue_placeholder (k : Nat) (prev : Option ℚ) (hk : 0 < k) :
    argValue k prev (placeholder (k - 1)) = prev := by
  unfold argValue
  rw [if_pos ⟨hk, rfl⟩]

/-- The chain of a tree with a literal on one side of its root: the chain of the other
side, then the task of the root. -/
theorem chain_bin_zero (config : Config) (mint : Nat → String) (op : Operation) (l r : Ast)
    (h : l.isLit = true ∨ r.isLit = true) :
    ∃ c : Ast, (c = l ∨ c = r) ∧ r.operand (0 + l.operators) = r.operand 0 ∧
      c.operators = l.operators + r.operators ∧
      (Ast.bin op l r).chain config mint 0 =
        c.chain config mint 0 ++
          [{ ID := mint c.operators, Arg1 := l.operand 0, Arg2 := r.operand 0, Operation := op,
             OperationTime := config.timeOf op }] := by
  rcases h with h | h
  · cases l with
    | bin _ _ _ => simp [Ast.isLit] at h
    | lit tl =>
      refine ⟨r, Or.inr rfl, by simp [Ast.operators], by simp [Ast.operators], ?_⟩
      simp [Ast.chain, Ast.operators]
  · cases r with
    | bin _ _ _ => simp [Ast.isLit] at h
    | lit tr =>
      refine ⟨l, Or.inl rfl, by simp [Ast.operand], by simp [Ast.operators], ?_⟩
      simp [Ast.chain, Ast.operators, Ast.operand]

theorem operand_argOK (a : Ast) (hlit : ∀ t ∈ a.literals, isNumeric t = true) :
    ArgOK a.operators (a.operand 0) := by
  cases a with
  | lit t => exact Or.inl (hlit t (by simp [Ast.literals]))
  | bin op l r =>
    right
    refine ⟨by simp [Ast.operators], ?_⟩
    simp [Ast.operand, Ast.operators]

/-- The chain of a tree whose operators all have a literal operand can be resolved in
index order by the coordinator. -/
theorem spine_chainOK (config : Config) (mint : Nat → String) :
    ∀ (a : Ast), a.spine → (∀ t ∈ a.literals, isNumeric t = true) →
      ChainOK mint (a.chain config mint 0)
  | .lit _, _, _ => by
    intro j t h
    simp [Ast.chain] at h
  | .bin op l r, hsp, hlit => by
    have hl : ∀ t ∈ l.literals, isNumeric t = true :=
      fun t ht => hlit t (by simp [Ast.literals, ht])
    have hr : ∀ t ∈ r.literals, isNumeric t = true :=
      fun t ht => hlit t (by simp [Ast.literals, ht])
    have hside : l.isLit = true ∨ r.isLit = true := hsp.imp (fun h => h.1) (fun h => h.1)
    have hspl : l.spine := by
      rcases hsp with h | h
      · cases l with
        | lit _ => trivial
        | bin _ _ _ => simp [Ast.isLit] at h
      · exact h.2
    have hspr : r.spine := by
      rcases hsp with h | h
      · exact h.2
      · cases r with
        | lit _ => trivial
        | bin _ _ _ => simp [Ast.isLit] at h
    obtain ⟨c, hc, -, hops, hchain⟩ := chain_bin_zero config mint op l r hside
    have hcOK : ChainOK mint (c.chain config mint 0) := by
      rcases hc with rfl | rfl
      · exact spine_chainOK config mint _ hspl hl
      · exact spine_chainOK config mint _ hspr hr
    have hargl : ArgOK c.operators (l.operand 0) := by
      rcases hc with rfl | rfl
      · exact operand_argOK _ hl
      · rcases hside with h | h
        · cases l with
          | lit t => exact Or.inl (hl t (by simp [Ast.literals]))
          | bin _ _ _ => simp [Ast.isLit] at h
        · have : l.operators = 0 := by omega
          cases l with
          | lit t => exact Or.inl (hl t (by simp [Ast.literals]))
          | bin _ _ _ => simp [Ast.operators] at this
    have hargr : ArgOK c.operators (r.operand 0) := by
      rcases hc with rfl | rfl
      · have : r.operators = 0 := by omega
        cases r with
        | lit t => exact Or.inl (hr t (by simp [Ast.literals]))
        | bin _ _ _ => simp [Ast.operators] at this
      · exact operand_argOK _ hr
    rw [hchain]
    intro j t hj
    have hlen := chain_length config mint c 0
    by_cases hlt : j < (c.chain config mint 0).length
    · rw [List.getElem?_append_left hlt] at hj
      exact hcOK j t hj
    · rw [List.getElem?_append_right (by omega)] at hj
      have hj0 : j - (c.chain config mint 0).length = 0 := by
        by_contra hne
        rw [List.getElem?_eq_none_iff.2 (by simp; omega)] at hj
        cases hj
      rw [hj0] at hj
      simp only [List.getElem?_cons_zero, Option.some.injEq] at hj
      have hjeq : j = c.operators := by omega
      subst hj
      rw [hjeq]
      exact ⟨rfl, hargl, hargr⟩

theorem operand_value (config : Config) (mint : Nat → String) (a : Ast)
    (hlit : ∀ t ∈ a.literals, isNumeric t = true) (prev : Option ℚ)
    (hval : a.isLit = false → chainEval 0 prev (a.chain config mint 0) = a.eval) :
    argValue a.operators (chainEval 0 prev (a.chain config mint 0)) (a.operand 0) = a.eval := by
  cases a with
  | lit t =>
    rw [Ast.operand, argValue_numeric _ _ _ (hlit t (by simp [Ast.literals]))]
    rfl
  | bin op l r =>
    have h := hval rfl
    have hop : (Ast.bin op l r).operand 0 =
        placeholder ((Ast.bin op l r).operators - 1) := by
      simp [Ast.operand, Ast.operators]
    rw [hop, argValue_placeholder _ _ (by simp [Ast.operators]), h]

/-- Evaluated in index order, the chain of a tree whose operators all have a literal
operand gives the value of the tree. -/
theorem spine_chainEval (config : Config) (mint : Nat → String) :
    ∀ (a : Ast), a.spine → (∀ t ∈ a.literals, isNumeric t = true) → a.isLit = false →
      ∀ prev, chainEval 0 prev (a.chain config mint 0) = a.eval
  | .lit _, _, _, h => by simp [Ast.isLit] at h
  | .bin op l r, hsp, hlit, _ => by
    intro prev
    have hl : ∀ t ∈ l.literals, isNumeric t = true :=
      fun t ht => hlit t (by simp [Ast.literals, ht])
    have hr : ∀ t ∈ r.literals, isNumeric t = true :=
      fun t ht => hlit t (by simp [Ast.literals, ht])
    have hlen := fun c => chain_length config mint c 0
    rcases hsp with ⟨hll, hspr⟩ | ⟨hrl, hspl⟩
    · cases l with
      | bin _ _ _ => simp [Ast.isLit] at hll
      | lit tl =>
        have hv := operand_value config mint r hr prev
          (fun h => spine_chainEval config mint r hspr hr h prev)
        have hch : (Ast.bin op (.lit tl) r).chain config mint 0 =
            r.chain config mint 0 ++
              [{ ID := mint r.operators, Arg1 := tl, Arg2 := r.operand 0, Operation := op,
                 OperationTime := config.timeOf op }] := by
          simp [Ast.chain, Ast.operators, Ast.operand]
        rw [hch, chainEval_append, hlen]
        simp only [chainEval, taskValue, Nat.zero_add]
        rw [hv, argValue_numeric _ _ _ (hl tl (by simp [Ast.literals]))]
        rfl
    · cases r with
      | bin _ _ _ => simp [Ast.isLit] at hrl
      | lit tr =>
        have hv := operand_value config mint l hl prev
          (fun h => spine_chainEval config mint l hspl hl h prev)
        have hch : (Ast.bin op l (.lit tr)).chain config mint 0 =
            l.chain config mint 0 ++
              [{ ID := mint l.operators, Arg1 := l.operand 0, Arg2 := tr, Operation := op,
                 OperationTime := config.timeOf op }] := by
          simp [Ast.chain, Ast.operators, Ast.operand]
        rw [hch, chainEval_append, hlen]
        simp only [chainEval, taskValue, Nat.zero_add]
        rw [hv, argValue_numeric _ _ _ (hr tr (by simp [Ast.literals]))]
        rfl

/-! ## Sequential resolution of a chain -/

theorem mapHas_mapSet {β : Type} (k id : String) (v : β) :
    ∀ m : List (String × β), mapHas (mapSet m k v) id = (mapHas m id || k == id)
  | [] => by simp [mapSet, mapHas]
  | (k1, v1) :: m => by
    unfold mapSet
    by_cases h : k1 = k
    · subst h
      simp only [if_true]
      simp only [mapHas, List.any_cons]
      cases h2 : (k1 == id) <;> simp
    · simp only [h, if_false]
      have ih := mapHas_mapSet k id v m
      simp only [mapHas, List.any_cons] at ih ⊢
      rw [ih, Bool.or_assoc]

theorem mapHas_registerTasks (id : String) :
    ∀ (ts : List Task) (registry : List (String × Nat)) (p : Nat),
      mapHas (registerTasks registry ts p) id =
        (mapHas registry id || ts.any (fun t => t.ID == id))
  | [], registry, p => by simp [registerTasks]
  | t :: ts, registry, p => by
    rw [registerTasks, mapHas_registerTasks id ts, mapHas_mapSet]
    simp [Bool.or_assoc]

theorem deref_eq_of_getElem? (heap : List Task) (j : Nat) (t : Task) (h : heap[j]? = some t) :
    deref heap j = t := by
  simp [deref, List.getD, h]

theorem getElem?_deref (heap : List Task) (j : Nat) (h : j < heap.length) :
    heap[j]? = some (deref heap j) := by
  simp [deref, List.getD, List.getElem?_eq_getElem h]

/-- The position found for the `k`-th identifier in a chain laid out at consecutive
addresses, when the identifiers are distinct. -/
theorem taskIndex_range (mint : Nat → String) (hmint : Function.Injective mint)
    (heap : List Task) :
    ∀ (m start k : Nat), (∀ j, start ≤ j → j < start + m → (deref heap j).ID = mint j) →
      start ≤ k → k < start + m →
      taskIndex heap (mint k) (List.range' start m) = some (k - start)
  | 0, start, k, _, h1, h2 => by omega
  | m + 1, start, k, hid, h1, h2 => by
    rw [List.range'_succ, taskIndex]
    by_cases hk : k = start
    · subst hk
      rw [if_pos (hid k (le_refl _) (by omega))]
      simp
    · have hne : (deref heap start).ID ≠ mint k := by
        rw [hid start (le_refl _) (by omega)]
        exact fun h => hk (hmint h).symm
      rw [if_neg hne, taskIndex_range mint hmint heap m (start + 1) k
        (fun j hj1 hj2 => hid j (by omega) (by omega)) (by omega) (by omega)]
      simp only [Option.map_some', Option.some.injEq]
      omega

theorem chainEval_take_succ (tasks : List Task) (k : Nat) (hk : k < tasks.length) :
    chainEval 0 none (tasks.take (k + 1)) =
      taskValue k (chainEval 0 none (tasks.take k)) (deref tasks k) := by
  have h1 : tasks.take (k + 1) = tasks.take k ++ [deref tasks k] := by
    rw [List.take_succ, getElem?_deref tasks k hk]
    rfl
  rw [h1, chainEval_append]
  simp [chainEval, List.length_take, Nat.min_eq_left (Nat.le_of_lt hk)]

/-- A dispatch at a stage returns the current task, whose operands are numeric. -/
theorem stage_dispatch (mint : Nat → String) (exprID s : String) (tasks : List Task) (k : Nat)
    (a : Application) (h : Stage mint exprID s tasks k a) :
    giveTaskHandler a .get =
      (.task (mint k) (deref a.heap k).Arg1 (deref a.heap k).Arg2 (deref a.heap k).Operation
        (deref a.heap k).OperationTime, { a with taskQueue := [] }) := by
  simp only [giveTaskHandler, dispatch, h.queue]
  rw [h.ids k h.lt]

/-- The exact result of the current task of a stage is the value that the chain gives to
this task. -/
theorem stage_value (mint : Nat → String) (exprID s : String) (tasks : List Task) (k : Nat)
    (a : Application) (h : Stage mint exprID s tasks k a) (r : Float64)
    (hexact : exactResult (deref a.heap k).Operation (deref a.heap k).Arg1
      (deref a.heap k).Arg2 r) :
    chainEval 0 none (tasks.take (k + 1)) = some r.toRat := by
  rw [chainEval_take_succ tasks k h.lt]
  unfold taskValue
  rw [← h.value1, ← h.value2, ← h.operation]
  exact hexact

theorem arg_after_substitution (k : Nat) (arg : String) (r : Float64) (prev : Option ℚ)
    (hok : ArgOK (k + 1) arg) (h6 : r.sixDigits) (hr : r.inRange)
    (hprev : prev = some r.toRat) :
    isNumeric (if arg = placeholder k then formatFloat r else arg) = true ∧
      numValue (if arg = placeholder k then formatFloat r else arg) =
        argValue (k + 1) prev arg := by
  obtain ⟨hnum, hval⟩ := formatFloat_exact r h6 hr
  rcases hok with h | ⟨-, h⟩
  · rw [if_neg (numeric_ne_placeholder arg k h), argValue_numeric _ _ _ h]
    exact ⟨h, rfl⟩
  · have hk : k + 1 - 1 = k := by omega
    rw [hk] at h
    rw [if_pos h, h]
    have := argValue_placeholder (k + 1) prev (by omega)
    rw [hk] at this
    rw [this, hprev]
    exact ⟨hnum, hval⟩

theorem stage_owner (mint : Nat → String) (hmint : Function.Injective mint)
    (exprID s : String) (tasks : List Task) (k : Nat) (a : Application)
    (h : Stage mint exprID s tasks k a) :
    taskIndex a.heap (mint k) (List.range' 0 tasks.length) = some k ∧
      findExpression a.heap (mint k) a.expressions = some 0 := by
  have h1 : taskIndex a.heap (mint k) (List.range' 0 tasks.length) = some k := by
    have := taskIndex_range mint hmint a.heap tasks.length 0 k
      (fun j _ hj => h.ids j (by omega)) (by omega) (by have := h.lt; omega)
    simpa using this
  refine ⟨h1, ?_⟩
  rw [h.exprs]
  simp [findExpression, h1]

/-- An accepted round that is not the last one leads to the next stage. -/
theorem stage_submit_next (mint : Nat → String) (hmint : Function.Injective mint)
    (exprID s : String) (tasks : List Task) (hchain : ChainOK mint tasks) (k : Nat)
    (a : Application) (h : Stage mint exprID s tasks k a) (r : Float64)
    (hexact : exactResult (deref a.heap k).Operation (deref a.heap k).Arg1
      (deref a.heap k).Arg2 r)
    (h6 : r.sixDigits) (hr : r.inRange) (hk : k + 1 < tasks.length) :
    (giveTaskHandler { a with taskQueue := [] }
        (.post (some { ID := mint k, Result := r }))).1 = .ok ∧
      Stage mint exprID s tasks (k + 1)
        (giveTaskHandler { a with taskQueue := [] }
          (.post (some { ID := mint k, Result := r }))).2 := by
  obtain ⟨hpos, howner⟩ := stage_owner mint hmint exprID s tasks k a h
  have hnext : (List.range' 0 tasks.length)[k + 1]? = some (k + 1) := by
    rw [List.getElem?_range' _ _ hk]
    simp
  have hstate := submitResult_next { a with taskQueue := [] } { ID := mint k, Result := r } 0
    exprID { ID := exprID, Expression := s, Status := .StatusProcessing, Result := none,
             Tasks := List.range' 0 tasks.length, CurrentTaskIndex := k } k (k + 1)
    (h.registry k h.lt) howner (by simp [h.exprs]) hpos rfl hnext
  have heq : giveTaskHandler { a with taskQueue := [] }
      (.post (some { ID := mint k, Result := r })) =
      submitResult { a with taskQueue := [] } { ID := mint k, Result := r } := rfl
  rw [heq, hstate]
  have hT : deref a.heap (k + 1) = deref tasks (k + 1) := h.ahead (k + 1) (by omega)
  have hTget : tasks[k + 1]? = some (deref tasks (k + 1)) := getElem?_deref tasks (k + 1) hk
  obtain ⟨-, hok1, hok2⟩ := hchain (k + 1) _ hTget
  obtain ⟨f1, f2, f3, f4, f5⟩ := substitute_fields (deref a.heap (k + 1)) k r
  have hprev := stage_value mint exprID s tasks k a h r hexact
  have hlen : k + 1 < a.heap.length := by rw [h.heap_len]; exact hk
  rw [← hT] at hok1 hok2
  obtain ⟨n1, v1⟩ := arg_after_substitution k (deref a.heap (k + 1)).Arg1 r _ hok1 h6 hr hprev
  obtain ⟨n2, v2⟩ := arg_after_substitution k (deref a.heap (k + 1)).Arg2 r _ hok2 h6 hr hprev
  rw [← f4] at n1 v1
  rw [← f5] at n2 v2
  have hnew : deref (a.heap.set (k + 1) (substitute (deref a.heap (k + 1)) k r)) (k + 1) =
      substitute (deref a.heap (k + 1)) k r := by
    rw [deref_set _ _ _ _ hlen, if_pos rfl]
  refine ⟨rfl, ?_⟩
  refine
    { lt := hk
      heap_len := by simp [h.heap_len]
      ids := ?_
      ahead := ?_
      operation := ?_
      numeric1 := ?_
      numeric2 := ?_
      value1 := ?_
      value2 := ?_
      exprs := ?_
      registry := h.registry
      queue := ?_ }
  · intro j hj
    show (deref (a.heap.set (k + 1) _) j).ID = mint j
    rw [deref_set _ _ _ _ hlen]
    split
    · rename_i hjk
      rw [f1, hjk]
      exact h.ids (k + 1) hk
    · exact h.ids j hj
  · intro j hj
    show deref (a.heap.set (k + 1) _) j = deref tasks j
    rw [deref_set _ _ _ _ hlen, if_neg (by omega)]
    exact h.ahead j (by omega)
  · show (deref (a.heap.set (k + 1) _) (k + 1)).Operation = _
    rw [hnew, f2, hT]
  · show isNumeric (deref (a.heap.set (k + 1) _) (k + 1)).Arg1 = true
    rw [hnew]
    exact n1
  · show isNumeric (deref (a.heap.set (k + 1) _) (k + 1)).Arg2 = true
    rw [hnew]
    exact n2
  · show numValue (deref (a.heap.set (k + 1) _) (k + 1)).Arg1 = _
    rw [hnew, ← hT]
    exact v1
  · show numValue (deref (a.heap.set (k + 1) _) (k + 1)).Arg2 = _
    rw [hnew, ← hT]
    exact v2
  · show List.set a.expressions 0 _ = _
    rw [h.exprs]
    simp
  · show (if _ then _ else _) = [k + 1]
    rw [n1, n2]
    simp

/-- The last accepted round completes the expression with the submitted result, which is
the value that the chain gives to its last task. -/
theorem stage_submit_last (mint : Nat → String) (hmint : Function.Injective mint)
    (exprID s : String) (tasks : List Task) (k : Nat)
    (a : Application) (h : Stage mint exprID s tasks k a) (r : Float64)
    (hexact : exactResult (deref a.heap k).Operation (deref a.heap k).Arg1
      (deref a.heap k).Arg2 r)
    (hk : k + 1 = tasks.length) :
    giveTaskHandler { a with taskQueue := [] } (.post (some { ID := mint k, Result := r })) =
        (.ok,
          { a with
            taskQueue := []
            expressions :=
              [(exprID, { ID := exprID, Expression := s, Status := .StatusCompleted,
                          Result := some r, Tasks := List.range' 0 tasks.length,
                          CurrentTaskIndex := (k : Int) + 1 })] }) ∧
      chainEval 0 none tasks = some r.toRat := by
  obtain ⟨hpos, howner⟩ := stage_owner mint hmint exprID s tasks k a h
  have hnext : (List.range' 0 tasks.length)[k + 1]? = none := by
    rw [List.getElem?_eq_none_iff]
    simp
    omega
  have hstate := submitResult_last { a with taskQueue := [] } { ID := mint k, Result := r } 0
    exprID { ID := exprID, Expression := s, Status := .StatusProcessing, Result := none,
             Tasks := List.range' 0 tasks.length, CurrentTaskIndex := k } k
    (h.registry k h.lt) howner (by simp [h.exprs]) hpos rfl hnext
  have heq : giveTaskHandler { a with taskQueue := [] }
      (.post (some { ID := mint k, Result := r })) =
      submitResult { a with taskQueue := [] } { ID := mint k, Result := r } := rfl
  have hprev := stage_value mint exprID s tasks k a h r hexact
  rw [hk, List.take_length] at hprev
  refine ⟨?_, hprev⟩
  rw [heq, hstate]
  simp [h.exprs]

/-- The state that `addExpression` makes from the empty coordinator, for a resolvable
chain that is not empty, is the stage of the first task. -/
theorem stage_initial (config : Config) (mint : Nat → String) (exprID s : String)
    (tokens : List String) (tasks : List Task)
    (h1 : infixToRPN s = .ok tokens) (h2 : buildTasksFromRPN tokens config mint = .ok tasks)
    (hchain : ChainOK mint tasks) (hpos : 0 < tasks.length) :
    (addExpression (New config) exprID mint s).1 = .ok exprID ∧
      (addExpression (New config) exprID mint s).2.heap = tasks ∧
      Stage mint exprID s tasks 0 (addExpression (New config) exprID mint s).2 := by
  have hget : ∀ j, j < tasks.length → tasks[j]? = some (deref tasks j) :=
    fun j hj => getElem?_deref tasks j hj
  obtain ⟨hid0, ha1, ha2⟩ := hchain 0 _ (hget 0 hpos)
  have hn1 : isNumeric (deref tasks 0).Arg1 = true := ha1.resolve_right (fun h => by omega)
  have hn2 : isNumeric (deref tasks 0).Arg2 = true := ha2.resolve_right (fun h => by omega)
  have hready : firstTaskReady tasks = true := by
    cases tasks with
    | nil => simp at hpos
    | cons t ts =>
      have : deref (t :: ts) 0 = t := rfl
      rw [this] at hn1 hn2
      simp [firstTaskReady, hn1, hn2]
  have hadd : addExpression (New config) exprID mint s =
      (.ok exprID,
        { config := config, heap := tasks,
          expressions :=
            [(exprID, { ID := exprID, Expression := s, Status := .StatusProcessing,
                        Result := none, Tasks := List.range' 0 tasks.length,
                        CurrentTaskIndex := 0 })],
          tasks := registerTasks [] tasks 0, taskQueue := [0] }) := by
    simp [addExpression, h1, h2, New, hready, mapSet]
  rw [hadd]
  refine ⟨rfl, rfl, ?_⟩
  refine
    { lt := hpos
      heap_len := rfl
      ids := fun j hj => (hchain j _ (hget j hj)).1
      ahead := fun j _ => rfl
      operation := rfl
      numeric1 := hn1
      numeric2 := hn2
      value1 := by simp [argValue]
      value2 := by simp [argValue]
      exprs := rfl
      registry := ?_
      queue := rfl }
  intro j hj
  show mapHas (registerTasks [] tasks 0) (mint j) = true
  rw [mapHas_registerTasks]
  simp only [mapHas, List.any_nil, Bool.false_or, List.any_eq_true, beq_iff_eq]
  exact ⟨deref tasks j, List.mem_iff_getElem?.2 ⟨j, hget j hj⟩, (hchain j _ (hget j hj)).1⟩

/-- Sequential resolution from a stage: while results are missing the next stage is
reached, and with the last result the expression is completed with the value of the chain. -/
theorem resolves_from_stage (mint : Nat → String) (hmint : Function.Injective mint)
    (exprID s : String) (tasks : List Task) (hchain : ChainOK mint tasks) :
    ∀ (rs : List Float64) (k : Nat) (a b : Application), Stage mint exprID s tasks k a →
      Resolves a rs b → k + rs.length ≤ tasks.length →
      (∀ r ∈ rs.take (tasks.length - 1 - k), r.sixDigits ∧ r.inRange) →
      (k + rs.length < tasks.length → Stage mint exprID s tasks (k + rs.length) b) ∧
        (k + rs.length = tasks.length →
          ∃ r, rs.getLast? = some r ∧
            b.expressions =
              [(exprID, { ID := exprID, Expression := s, Status := .StatusCompleted,
                          Result := some r, Tasks := List.range' 0 tasks.length,
                          CurrentTaskIndex := (tasks.length : Int) })] ∧
            chainEval 0 none tasks = some r.toRat)
  | [], k, a, b, hst, hres, _, _ => by
    cases hres
    refine ⟨fun _ => by simpa using hst, fun h => ?_⟩
    have := hst.lt
    simp at h
    omega
  | r :: rs, k, a, b, hst, hres, hlen, hsix => by
    cases hres with
    | round hget hexact hrest =>
      rw [stage_dispatch mint exprID s tasks k a hst] at hget
      injection hget with hresp hstate
      injection hresp with e1 e2 e3 e4 e5
      subst e1 e2 e3 e4 e5 hstate
      simp only [List.length_cons] at hlen ⊢
      by_cases hk : k + 1 < tasks.length
      · have hr : r.sixDigits ∧ r.inRange := by
          apply hsix r
          have : tasks.length - 1 - k = (tasks.length - 2 - k) + 1 := by omega
          rw [this, List.take_succ_cons]
          simp
        obtain ⟨-, hnextStage⟩ := stage_submit_next mint hmint exprID s tasks hchain k a hst r
          hexact hr.1 hr.2 hk
        have ih := resolves_from_stage mint hmint exprID s tasks hchain rs (k + 1) _ b
          hnextStage hrest (by omega) (by
            intro x hx
            apply hsix x
            have : tasks.length - 1 - k = (tasks.length - 1 - (k + 1)) + 1 := by omega
            rw [this, List.take_succ_cons]
            exact List.mem_cons_of_mem _ hx)
        have hsum : k + (rs.length + 1) = k + 1 + rs.length := by omega
        rw [hsum]
        refine ⟨ih.1, fun h => ?_⟩
        obtain ⟨x, hx, hrest2⟩ := ih.2 h
        refine ⟨x, ?_, hrest2⟩
        cases rs with
        | nil => simp at h; omega
        | cons y ys => rw [List.getLast?_cons_cons]; exact hx
      · have hk1 : k + 1 = tasks.length := by have := hst.lt; omega
        have hrs : rs = [] := by
          cases rs with
          | nil => rfl
          | cons y ys => simp at hlen; omega
        subst hrs
        obtain ⟨hstate, hval⟩ := stage_submit_last mint hmint exprID s tasks k a hst r hexact hk1
        rw [hstate] at hrest
        cases hrest
        refine ⟨fun h => by simp at h; omega, fun _ => ⟨r, rfl, ?_, hval⟩⟩
        simp only
        rw [← hk1]
        push_cast
        rfl

/-- C1 amended: sequential resolution of a well-formed expression given as
whitespace-separated tokens, with numeric literals, at least one operator, and a literal
among the two operands of every operator. From the empty coordinator, `addExpression`
succeeds and stores the chain of the expression, one task per operator. Whenever rounds of
dispatching the head of the queue and submitting for the dispatched task the exact
arithmetic result of its operands are run, every result but the last of the chain being a
`float64` in range with at most six fractional digits: as long as results are missing, the
next dispatch returns a task with two numeric operands; and once there is one result per
operator the expression is `Completed`, its `Result` is the last result submitted, and this
result is the value of the expression under the standard semantics of the grammar (`*` and
`/` bind tighter than `+` and `-`, operators of one level associate to the left). -/
theorem C1_sequential_resolution (e : Phrase 0) (s : String) (config : Config)
    (exprID : String) (mint : Nat → String)
    (hs : fields s = e.tokens)
    (hlit : ∀ t ∈ e.ast.literals, isNumeric t = true)
    (hspine : e.ast.spine)
    (hops : e.ast.isLit = false)
    (hmint : Function.Injective mint) :
    (addExpression (New config) exprID mint s).1 = .ok exprID ∧
      (addExpression (New config) exprID mint s).2.heap = e.ast.chain config mint 0 ∧
      (e.ast.chain config mint 0).length = e.ast.operators ∧
      ∀ rs b, Resolves (addExpression (New config) exprID mint s).2 rs b →
        rs.length ≤ e.ast.operators →
        (∀ r ∈ rs.take (e.ast.operators - 1), r.sixDigits ∧ r.inRange) →
        (rs.length < e.ast.operators →
          ∃ id arg1 arg2 op time b1,
            giveTaskHandler b .get = (.task id arg1 arg2 op time, b1) ∧
              isNumeric arg1 = true ∧ isNumeric arg2 = true) ∧
        (rs.length = e.ast.operators →
          ∃ r, rs.getLast? = some r ∧
            mapGet b.expressions exprID =
              some { ID := exprID, Expression := s, Status := .StatusCompleted,
                     Result := some r, Tasks := List.range' 0 e.ast.operators,
                     CurrentTaskIndex := (e.ast.operators : Int) } ∧
            e.ast.eval = some r.toRat) := by
  have hrpn := infixToRPN_phrase e s hs hlit
  have hbuild := buildTasksFromRPN_rpn config mint e.ast hlit
  have hchain := spine_chainOK config mint e.ast hspine hlit
  have hlen := chain_length config mint e.ast 0
  have hpos : 0 < (e.ast.chain config mint 0).length := by
    rw [hlen]
    cases he : e.ast with
    | lit _ => rw [he] at hops; simp [Ast.isLit] at hops
    | bin _ _ _ => simp [Ast.operators]
  obtain ⟨hok, hheap, hstage⟩ :=
    stage_initial config mint exprID s _ _ hrpn hbuild hchain hpos
  have heval := spine_chainEval config mint e.ast hspine hlit hops none
  refine ⟨hok, hheap, hlen, ?_⟩
  intro rs b hres hle hsix
  obtain ⟨hprog, hfin⟩ := resolves_from_stage mint hmint exprID s _ hchain rs 0 _ b hstage hres
    (by rw [hlen]; omega) (by rw [hlen]; simpa using hsix)
  refine ⟨fun hlt => ?_, fun heq => ?_⟩
  · have hst := hprog (by rw [hlen]; omega)
    exact ⟨_, _, _, _, _, _, stage_dispatch mint exprID s _ _ b hst, hst.numeric1, hst.numeric2⟩
  · obtain ⟨r, hr, hexprs, hval⟩ := hfin (by rw [hlen]; omega)
    refine ⟨r, hr, ?_, by rw [← heval, hval]⟩
    rw [hexprs, hlen]
    simp [mapGet]

/-! ## Sequential resolution: the concrete runs -/

theorem numValue_of_readFloat (s : String) (f : FloatLit) (h : readFloat s.data = some f)
    (ho : f.outOfRange = false) : numValue s = some f.value := by
  unfold numValue
  rw [h]
  simp [ho]

theorem sampleMint_injective : Function.Injective sampleMint := by
  intro j k h
  unfold sampleMint at h
  have hd : Nat.toDigits 10 j = Nat.toDigits 10 k := by
    have := congrArg String.data h
    simpa using this
  have hj := (toDigits_spec j).2.2
  have hk := (toDigits_spec k).2.2
  rw [← hj, ← hk, hd]

/-- The run of `"2 + 3 * 4"`: the product is resolved with 12, then the sum with 14. -/
theorem sample_resolves : Resolves sampleSum [.ofNat 12, .ofNat 14] sampleSumFinal := by
  have v3 : numValue "3" = some 3 := by
    rw [numValue_of_readFloat "3" { neg := false, hex := false, mant := 3, exp := 0 }
      (by decide) (by decide)]
    simp [FloatLit.value]
  have v4 : numValue "4" = some 4 := by
    rw [numValue_of_readFloat "4" { neg := false, hex := false, mant := 4, exp := 0 }
      (by decide) (by decide)]
    simp [FloatLit.value]
  have v2 : numValue "2" = some 2 := by
    rw [numValue_of_readFloat "2" { neg := false, hex := false, mant := 2, exp := 0 }
      (by decide) (by decide)]
    simp [FloatLit.value]
  have v12 : numValue "12.000000" = some 12 := by
    rw [numValue_of_readFloat "12.000000"
      { neg := false, hex := false, mant := 12000000, exp := -6 } (by decide) (by decide)]
    simp [FloatLit.value]
    norm_num
  have x1 : exactResult .OperationMultiplication "3" "4" (.ofNat 12) := by
    simp [exactResult, v3, v4, applyOperation, Float64.toRat, Float64.ofNat]
    norm_num
  have x2 : exactResult .OperationAddition "2" "12.000000" (.ofNat 14) := by
    simp [exactResult, v2, v12, applyOperation, Float64.toRat, Float64.ofNat]
    norm_num
  have g1 : giveTaskHandler sampleSum .get =
      (.task "t0" "3" "4" .OperationMultiplication 2000, (giveTaskHandler sampleSum .get).2) := by
    decide
  have g2 : giveTaskHandler sampleSumSecond .get =
      (.task "t1" "2" "12.000000" .OperationAddition 1000,
        (giveTaskHandler sampleSumSecond .get).2) := by
    decide
  exact @Resolves.round sampleSum _ sampleSumFinal "t0" "3" "4" .OperationMultiplication 2000
    (.ofNat 12) [.ofNat 14] g1 x1
    (@Resolves.round sampleSumSecond _ sampleSumFinal "t1" "2" "12.000000" .OperationAddition
      1000 (.ofNat 14) [] g2 x2 (Resolves.done sampleSumFinal))

theorem C1_sequential_resolution_witness :
    ∃ r, [Float64.ofNat 12, Float64.ofNat 14].getLast? = some r ∧
      mapGet sampleSumFinal.expressions "e" =
        some { ID := "e", Expression := "2 + 3 * 4", Status := .StatusCompleted,
               Result := some r, Tasks := List.range' 0 samplePhrase.ast.operators,
               CurrentTaskIndex := (samplePhrase.ast.operators : Int) } ∧
      samplePhrase.ast.eval = some r.toRat :=
  (((C1_sequential_resolution samplePhrase "2 + 3 * 4" defaultConfig "e" sampleMint
    (by decide) (by decide) (Or.inl ⟨rfl, Or.inr ⟨rfl, trivial⟩⟩) rfl
    sampleMint_injective).2.2.2 [.ofNat 12, .ofNat 14] sampleSumFinal sample_resolves
    (by decide) (by
      intro r hr
      have h12 : r = .ofNat 12 := by simpa [samplePhrase, Phrase.ast, Ast.operators] using hr
      subst h12
      refine ⟨⟨12000000, ?_⟩, ?_⟩
      · simp [Float64.toRat, Float64.ofNat]
        norm_num
      · simp [Float64.inRange, Float64.toRat, Float64.ofNat, maxFloat64]
        norm_num)).2 rfl)

/-- C1 fails as stated, in three ways. Written without spaces, `"2+3*4"` passes
`isValidExpression` but is one token for `infixToRPN`, and `addExpression` returns the
unknown-token error. For `"1 * 2 + 3 * 4"`, after both products were dispatched and
resolved with their exact results the sum still has the operand `T0`, the queue is empty
and the expression stays `Processing`: the next dispatch finds no task. For
`"1 / 1024 * 1024"`, after the quotient was resolved with its exact result `2^-10` the
product is queued with the operand `0.000977`. -/
theorem C1_counterexample :
    (isValidExpression "2+3*4" = true ∧
      addExpression (New defaultConfig) "e" sampleMint "2+3*4" =
        (.error (.unknownToken "2+3*4"), New defaultConfig)) ∧
    (isValidExpression "1 * 2 + 3 * 4" = true ∧
      (deref stuckState.heap 2).Arg1 = "T0" ∧
      (deref stuckState.heap 2).Arg2 = "12.000000" ∧
      (mapGet stuckState.expressions "e").map (fun x => (x.Status, x.Result)) =
        some (.StatusProcessing, none) ∧
      giveTaskHandler stuckState .get = (.noTaskAvailable, stuckState)) ∧
    (isValidExpression "1 / 1024 * 1024" = true ∧
      roundedState.taskQueue = [1] ∧
      (deref roundedState.heap 1).Arg1 = "0.000977" ∧
      (deref roundedState.heap 1).Arg2 = "1024") := by
  decide

/-! ## The characters of a valid expression -/

theorem isValidChar_iff (c : Char) :
    isValidChar c = true ↔
      (isDigit c = true ∨ c ∈ ['.', '+', '-', '*', '/', '(', ')', ' ']) := by
  unfold isValidChar isDigit
  simp only [Bool.or_eq_true, Bool.and_eq_true, decide_eq_true_eq, beq_iff_eq,
    List.mem_cons, List.mem_singleton, List.not_mem_nil, or_false]
  tauto

/-- C13 (amended): `isValidExpression` returns true exactly when every character of the
string is a decimal digit, one of `. + - * / ( )`, or the space character U+0020; any other
character, a tab or another white-space character included, makes it false. `isValidChar`
decides this set character by character. -/
theorem C13_valid_characters (expression : String) :
    (isValidExpression expression = true ↔
      ∀ c ∈ expression.data,
        isDigit c = true ∨ c ∈ ['.', '+', '-', '*', '/', '(', ')', ' ']) ∧
    (isValidExpression expression = true ↔ ∀ c ∈ expression.data, isValidChar c = true) ∧
    (∀ c : Char, isValidChar c = true ↔
      (isDigit c = true ∨ c ∈ ['.', '+', '-', '*', '/', '(', ')', ' '])) := by
  have h : isValidExpression expression = true ↔
      ∀ c ∈ expression.data, isValidChar c = true := by
    unfold isValidExpression
    rw [List.all_eq_true]
  refine ⟨?_, h, isValidChar_iff⟩
  rw [h]
  constructor
  · intro hc c hm
    exact (isValidChar_iff c).1 (hc c hm)
  · intro hc c hm
    exact (isValidChar_iff c).2 (hc c hm)

/-- C13 fails as stated for white space other than the space character: the tab is a
white-space character (`strings.Fields` splits on it, and `2<tab>+<tab>2` has the tokens
`2`, `+`, `2`), every character of `2<tab>+<tab>2` is a digit, an operator or white space,
and yet `isValidChar` rejects the tab and `isValidExpression` the string. -/
theorem C13_counterexample :
    isSpace (Char.ofNat 9) = true ∧
    (∀ c ∈ tabbedSum.data,
      isDigit c = true ∨ c ∈ ['.', '+', '-', '*', '/', '(', ')'] ∨ isSpace c = true) ∧
    fields tabbedSum = ["2", "+", "2"] ∧
    isValidChar (Char.ofNat 9) = false ∧
    isValidExpression tabbedSum = false := by
  decide

/-! ## The calculate endpoint -/

/-- C15: the code at the input of the test. A POST with the valid expression `2 + 2`
is answered 201 Created with a body that has the identifier of the stored expression and
an empty result field, and the expression is stored unevaluated with its task queued. No
input at all makes `CalcHandler` answer 200 or fill the result field. -/
theorem C15_created_without_result :
    isValidExpression "2 + 2" = true ∧
    (CalcHandler (New defaultConfig) .post (some "2 + 2") "e" sampleMint).1 = .created "e" ∧
    (CalcHandler (New defaultConfig) .post (some "2 + 2") "e" sampleMint).1.statusCode = 201 ∧
    (CalcHandler (New defaultConfig) .post (some "2 + 2") "e" sampleMint).1.body =
      some { ID := "e", Result := "", Error := "" } ∧
    (mapGet (CalcHandler (New defaultConfig) .post (some "2 + 2") "e" sampleMint).2.expressions
      "e").map (fun x => (x.Status, x.Result)) = some (.StatusProcessing, none) ∧
    (CalcHandler (New defaultConfig) .post (some "2 + 2") "e" sampleMint).2.taskQueue = [0] ∧
    (∀ (a : Application) (method : Method) (body : Option String) (exprID : String)
      (mint : Nat → String),
      (CalcHandler a method body exprID mint).1.statusCode ≠ 200 ∧
      ∀ b, (CalcHandler a method body exprID mint).1.body = some b → b.Result = "") := by
  refine ⟨by decide, by decide, by decide, by decide, by decide, by decide, ?_⟩
  intro a method body exprID mint
  generalize (CalcHandler a method body exprID mint).1 = r
  cases r <;> simp [CalcAnswer.statusCode, CalcAnswer.body]

/-! ## The stack walk of `buildTasksFromRPN` -/

theorem buildLoop_walk (config : Config) (mint : Nat → String) :
    ∀ (tokens : List String) (tasks : List Task) (stack : List String) (n : Nat),
      (∀ t ∈ tokens, isNumeric t = true ∨ isOperator t = true) →
      (stackWalk tokens stack.length = none →
        buildLoop config mint tokens tasks stack n = .error .invalidExpression) ∧
      (∀ d, stackWalk tokens stack.length = some d → d ≠ 1 →
        ∃ st, st.length = d ∧
          buildLoop config mint tokens tasks stack n = .error (.remainingStack st)) ∧
      (stackWalk tokens stack.length = some 1 →
        ∃ news, buildLoop config mint tokens tasks stack n = .ok (tasks ++ news) ∧
          news.map (fun t => (t.Operation, t.OperationTime)) =
            (tokens.filter (fun t => !isNumeric t)).map (operationOf config) ∧
          news.map (fun t => t.ID) = (List.range' n news.length).map mint)
  | [], tasks, stack, n, _ => by
    refine ⟨?_, ?_, ?_⟩
    · intro h
      simp [stackWalk] at h
    · intro d h hd
      simp only [stackWalk, Option.some.injEq] at h
      refine ⟨stack.reverse, by simpa using h, ?_⟩
      rw [buildLoop, if_pos (by omega)]
    · intro h
      simp only [stackWalk, Option.some.injEq] at h
      refine ⟨[], ?_, by simp, by simp⟩
      rw [buildLoop, if_neg (by omega), List.append_nil]
  | token :: tokens, tasks, stack, n, htok => by
    have hrest : ∀ t ∈ tokens, isNumeric t = true ∨ isOperator t = true :=
      fun t ht => htok t (List.mem_cons_of_mem _ ht)
    by_cases hnum : isNumeric token = true
    · have ih := buildLoop_walk config mint tokens tasks (token :: stack) n hrest
      have hw : stackWalk (token :: tokens) stack.length =
          stackWalk tokens (token :: stack).length := by
        rw [stackWalk, if_pos hnum, List.length_cons]
      have hf : (token :: tokens).filter (fun t => !isNumeric t) =
          tokens.filter (fun t => !isNumeric t) := by
        rw [List.filter_cons_of_neg (by simp [hnum])]
      rw [hw, hf, buildLoop_numeric _ _ _ _ _ _ _ hnum]
      exact ih
    · have hnum0 : isNumeric token = false := by simpa using hnum
      have hop : isOperator token = true := by
        rcases htok token (List.mem_cons_self _ _) with h | h
        · exact absurd h hnum
        · exact h
      rcases stack with _ | ⟨op2, _ | ⟨op1, stack1⟩⟩
      · have hw : stackWalk (token :: tokens) ([] : List String).length = none := by
          simp [stackWalk, hnum0]
        rw [hw]
        exact ⟨fun _ => by simp [buildLoop, hnum0, hop], fun d h => (by cases h),
          fun h => (by cases h)⟩
      · have hw : stackWalk (token :: tokens) [op2].length = none := by
          simp [stackWalk, hnum0]
        rw [hw]
        exact ⟨fun _ => by simp [buildLoop, hnum0, hop], fun d h => (by cases h),
          fun h => (by cases h)⟩
      · have hw : stackWalk (token :: tokens) (op2 :: op1 :: stack1).length =
            stackWalk tokens (placeholder n :: stack1).length := by
          rw [stackWalk, if_neg hnum, if_neg (by simp)]
          simp
        have hf : (token :: tokens).filter (fun t => !isNumeric t) =
            token :: tokens.filter (fun t => !isNumeric t) := by
          rw [List.filter_cons_of_pos (by simp [hnum0])]
        rw [hw, hf, buildLoop_operator _ _ _ _ _ _ _ _ _ hnum0 hop]
        obtain ⟨ih1, ih2, ih3⟩ := buildLoop_walk config mint tokens
          (tasks ++ [{ ID := mint n, Arg1 := op1, Arg2 := op2,
                       Operation := (operationOf config token).1,
                       OperationTime := (operationOf config token).2 }])
          (placeholder n :: stack1) (n + 1) hrest
        refine ⟨ih1, ih2, ?_⟩
        intro h
        obtain ⟨news, e1, e2, e3⟩ := ih3 h
        refine ⟨{ ID := mint n, Arg1 := op1, Arg2 := op2,
                  Operation := (operationOf config token).1,
                  OperationTime := (operationOf config token).2 } :: news, ?_, ?_, ?_⟩
        · rw [e1, List.append_assoc, List.singleton_append]
        · rw [List.map_cons, List.map_cons, e2]
        · rw [List.map_cons, e3, List.length_cons, List.range'_succ, List.map_cons]

theorem stackWalk_pos :
    ∀ (tokens : List String) (d0 d : Nat), 1 ≤ d0 → stackWalk tokens d0 = some d → 1 ≤ d
  | [], d0, d, h0, h => by
    simp only [stackWalk, Option.some.injEq] at h
    omega
  | token :: tokens, d0, d, h0, h => by
    rw [stackWalk] at h
    split at h
    · exact stackWalk_pos tokens (d0 + 1) d (by omega) h
    · split at h
      · cases h
      · exact stackWalk_pos tokens (d0 - 1) d (by omega) h

theorem stackWalk_nonempty (tokens : List String) (hne : tokens ≠ []) (d : Nat)
    (h : stackWalk tokens 0 = some d) : 1 ≤ d := by
  rcases tokens with _ | ⟨token, tokens⟩
  · exact absurd rfl hne
  · rw [stackWalk] at h
    split at h
    · exact stackWalk_pos tokens 1 d (by omega) h
    · simp at h

/-- C14: for a non-empty postfix token list of numeric tokens and operator tokens,
`buildTasksFromRPN` returns an error exactly when the walk with the working stack meets an
operator with fewer than two entries on the stack (then "invalid expression"), or ends with
more than one entry on the stack (then the stack is reported); otherwise it succeeds with
one task per operator token, in the order of the operators: the tasks carry the operations
and durations configured for the operator tokens, and the identifiers drawn in turn. -/
theorem C14_build_errors (tokens : List String) (config : Config) (mint : Nat → String)
    (hne : tokens ≠ [])
    (htok : ∀ t ∈ tokens, isNumeric t = true ∨ isOperator t = true) :
    ((∃ err, buildTasksFromRPN tokens config mint = .error err) ↔
      (stackWalk tokens 0 = none ∨ ∃ d, stackWalk tokens 0 = some d ∧ 1 < d)) ∧
    (stackWalk tokens 0 = none →
      buildTasksFromRPN tokens config mint = .error .invalidExpression) ∧
    (∀ d, stackWalk tokens 0 = some d → 1 < d →
      ∃ st, st.length = d ∧
        buildTasksFromRPN tokens config mint = .error (.remainingStack st)) ∧
    (∀ tasks, buildTasksFromRPN tokens config mint = .ok tasks →
      tasks.length = (tokens.filter (fun t => isOperator t)).length ∧
      tasks.map (fun t => (t.Operation, t.OperationTime)) =
        (tokens.filter (fun t => isOperator t)).map (operationOf config) ∧
      tasks.map (fun t => t.ID) = (List.range tasks.length).map mint) := by
  obtain ⟨h1, h2, h3⟩ := buildLoop_walk config mint tokens [] [] 0 htok
  have hfilter : tokens.filter (fun t => !isNumeric t) =
      tokens.filter (fun t => isOperator t) := by
    apply List.filter_congr
    intro t ht
    rcases htok t ht with h | h
    · have ho : isOperator t = false := by
        by_contra hc
        have hc1 : isOperator t = true := by simpa using hc
        rcases isOperator_cases t hc1 with e | e | e | e <;> subst e <;> revert h <;> decide
      simp [h, ho]
    · have hn : isNumeric t = false := by
        rcases isOperator_cases t h with e | e | e | e <;> subst e <;> decide
      simp [h, hn]
  have hb : ∀ tasks stack n, buildLoop config mint tokens tasks stack n =
      buildLoop config mint tokens tasks stack n := fun _ _ _ => rfl
  have hunf : buildTasksFromRPN tokens config mint = buildLoop config mint tokens [] [] 0 := rfl
  simp only [List.length_nil] at h1 h2 h3
  have hok : ∀ tasks, buildTasksFromRPN tokens config mint = .ok tasks →
      stackWalk tokens 0 = some 1 := by
    intro tasks ht
    rcases hw : stackWalk tokens 0 with _ | d
    · rw [hunf, h1 hw] at ht
      cases ht
    · by_cases hd : d = 1
      · rw [hd]
      · obtain ⟨st, _, e⟩ := h2 d hw hd
        rw [hunf, e] at ht
        cases ht
  refine ⟨⟨?_, ?_⟩, h1, ?_, ?_⟩
  · rintro ⟨err, he⟩
    rcases hw : stackWalk tokens 0 with _ | d
    · exact Or.inl rfl
    · right
      refine ⟨d, rfl, ?_⟩
      have hpos := stackWalk_nonempty tokens hne d hw
      by_contra hc
      have hd : d = 1 := by omega
      subst hd
      obtain ⟨news, e, _⟩ := h3 hw
      rw [hunf, e] at he
      cases he
  · rintro (hw | ⟨d, hw, hd⟩)
    · exact ⟨_, h1 hw⟩
    · obtain ⟨st, _, e⟩ := h2 d hw (by omega)
      exact ⟨_, e⟩
  · intro d hw hd
    exact h2 d hw (by omega)
  · intro tasks ht
    obtain ⟨news, e, e2, e3⟩ := h3 (hok tasks ht)
    rw [hunf, e, List.nil_append] at ht
    have hnews : news = tasks := by
      injection ht
    subst hnews
    rw [hfilter] at e2
    refine ⟨?_, e2, ?_⟩
    · have := congrArg List.length e2
      simpa using this
    · rw [e3, List.range_eq_range']

/-- Witness for C14 on `1 2 + 3 *`, the postfix form of `( 1 + 2 ) * 3`. -/
theorem C14_build_errors_witness :
    ((∃ err, buildTasksFromRPN ["1", "2", "+", "3", "*"] defaultConfig sampleMint =
        .error err) ↔
      (stackWalk ["1", "2", "+", "3", "*"] 0 = none ∨
        ∃ d, stackWalk ["1", "2", "+", "3", "*"] 0 = some d ∧ 1 < d)) ∧
    stackWalk ["1", "2", "+", "3", "*"] 0 = some 1 ∧
    (buildTasksFromRPN ["1", "2", "+", "3", "*"] defaultConfig sampleMint).toOption.map
      List.length = some 2 :=
  ⟨(C14_build_errors ["1", "2", "+", "3", "*"] defaultConfig sampleMint (by decide)
      (by decide)).1, by decide, by decide⟩

/-! ## Chains that get stuck -/

/-- C19: the code at `"1 * 2 + 3 * 4"`, an expression with three operators. After the
submission and two rounds of dispatch and result (the products 2 and 12), the third
dispatch finds the queue empty: only two of the three dispatches returned a task, the sum
still has the operand `T0`, and the expression stays `Processing` at index 2 of its three
tasks, without a result. -/
theorem C19_third_dispatch_empty :
    (fields "1 * 2 + 3 * 4" = ["1", "*", "2", "+", "3", "*", "4"] ∧
      (addExpression (New defaultConfig) "e" sampleMint "1 * 2 + 3 * 4").1 = .ok "e") ∧
    (run (New defaultConfig) { dispatched := [], enqueued := [] }
      (stuckOps ++ [.dispatch])).2.dispatched = ["t0", "t1"] ∧
    stuckState.taskQueue = [] ∧
    (giveTaskHandler stuckState .get).1 = .noTaskAvailable ∧
    (giveTaskHandler stuckState .get).1.statusCode = 404 ∧
    (mapGet stuckState.expressions "e").map
      (fun x => (x.Status, x.Result, x.CurrentTaskIndex, x.Tasks.length)) =
        some (.StatusProcessing, none, 2, 3) ∧
    ((deref stuckState.heap 2).Arg1, (deref stuckState.heap 2).Arg2) =
      ("T0", "12.000000") := by
  decide

/-! ## The postfix evaluator on the postfix form of a tree -/

theorem ofToken_token (op : Operation) : Operation.ofToken op.token = op := by
  cases op <;> decide

theorem rpnLoop_numeric (token : String) (tokens : List String) (stack : List ℚ)
    (h : isNumeric token = true) :
    rpnLoop (token :: tokens) stack =
      (numValue token).bind fun v => rpnLoop tokens (v :: stack) := by
  rcases stack with _ | ⟨a, _ | ⟨b, s⟩⟩ <;> simp [rpnLoop, h]

theorem rpnLoop_operator (token : String) (tokens : List String) (y x : ℚ) (stack : List ℚ)
    (h1 : isNumeric token = false) (h2 : isOperator token = true) :
    rpnLoop (token :: tokens) (y :: x :: stack) =
      (applyOperation (Operation.ofToken token) x y).bind fun v =>
        rpnLoop tokens (v :: stack) := by
  simp [rpnLoop, h1, h2]

theorem rpnLoop_rpn :
    ∀ (a : Ast), (∀ t ∈ a.literals, isNumeric t = true) →
      ∀ (rest : List String) (stack : List ℚ),
        rpnLoop (a.rpn ++ rest) stack = a.eval.bind fun v => rpnLoop rest (v :: stack)
  | .lit token, hlit, rest, stack => by
    have hn : isNumeric token = true := hlit token (by simp [Ast.literals])
    simp only [Ast.rpn, List.cons_append, List.nil_append, Ast.eval]
    rw [rpnLoop_numeric _ _ _ hn]
  | .bin op l r, hlit, rest, stack => by
    have hl : ∀ t ∈ l.literals, isNumeric t = true :=
      fun t ht => hlit t (by simp [Ast.literals, ht])
    have hr : ∀ t ∈ r.literals, isNumeric t = true :=
      fun t ht => hlit t (by simp [Ast.literals, ht])
    obtain ⟨hnum, hop⟩ := token_facts op
    have e1 : (Ast.bin op l r).rpn ++ rest = l.rpn ++ (r.rpn ++ op.token :: rest) := by
      simp [Ast.rpn]
    rw [e1, rpnLoop_rpn l hl]
    simp only [Ast.eval]
    rcases l.eval with _ | x
    · rfl
    · simp only [Option.some_bind]
      rw [rpnLoop_rpn r hr]
      rcases r.eval with _ | y
      · rfl
      · simp only [Option.some_bind]
        rw [rpnLoop_operator _ _ _ _ _ hnum hop, ofToken_token]

theorem evalRPN_rpn (a : Ast) (hlit : ∀ t ∈ a.literals, isNumeric t = true) :
    evalRPN a.rpn = a.eval := by
  have h := rpnLoop_rpn a hlit [] []
  rw [List.append_nil] at h
  unfold evalRPN
  rw [h]
  rcases a.eval with _ | v
  · rfl
  · simp [rpnLoop]

theorem numeric_not_operator (t : String) (h : isNumeric t = true) : isOperator t = false := by
  by_contra hc
  have hc1 : isOperator t = true := by simpa using hc
  rcases isOperator_cases t hc1 with e | e | e | e <;> subst e <;> revert h <;> decide

theorem rpn_tokens (a : Ast) (hlit : ∀ t ∈ a.literals, isNumeric t = true) :
    ∀ t ∈ a.rpn, isNumeric t = true ∨ isOperator t = true := by
  induction a with
  | lit token =>
    intro t ht
    simp only [Ast.rpn, List.mem_singleton] at ht
    subst ht
    exact Or.inl (hlit t (by simp [Ast.literals]))
  | bin op l r ihl ihr =>
    intro t ht
    simp only [Ast.rpn, List.mem_append, List.mem_singleton] at ht
    rcases ht with (ht | ht) | ht
    · exact ihl (fun t ht => hlit t (by simp [Ast.literals, ht])) t ht
    · exact ihr (fun t ht => hlit t (by simp [Ast.literals, ht])) t ht
    · subst ht
      exact Or.inr (token_facts op).2

theorem rpn_filter_numeric (a : Ast) (hlit : ∀ t ∈ a.literals, isNumeric t = true) :
    a.rpn.filter (fun t => isNumeric t) = a.literals := by
  induction a with
  | lit token =>
    have hn : isNumeric token = true := hlit token (by simp [Ast.literals])
    simp [Ast.rpn, Ast.literals, hn]
  | bin op l r ihl ihr =>
    have hl := ihl (fun t ht => hlit t (by simp [Ast.literals, ht]))
    have hr := ihr (fun t ht => hlit t (by simp [Ast.literals, ht]))
    simp only [Ast.rpn, Ast.literals, List.filter_append, hl, hr]
    simp [(token_facts op).1]

theorem tokens_filter_numeric :
    ∀ {n : Nat} (e : Phrase n), (∀ t ∈ e.ast.literals, isNumeric t = true) →
      e.tokens.filter (fun t => isNumeric t) = e.ast.literals
  | _, .num token, hlit => by
    have hn : isNumeric token = true := hlit token (by simp [Phrase.ast, Ast.literals])
    simp [Phrase.tokens, Phrase.ast, Ast.literals, hn]
  | _, .paren e, hlit => by
    have h := tokens_filter_numeric e hlit
    have h1 : isNumeric "(" = false := by decide
    have h2 : isNumeric ")" = false := by decide
    simp only [Phrase.tokens, Phrase.ast, List.filter_cons, List.filter_append, h1, h2, h]
    simp
  | _, .atom f, hlit => tokens_filter_numeric f hlit
  | _, .term t, hlit => tokens_filter_numeric t hlit
  | _, .mul t f, hlit => by
    have ht := tokens_filter_numeric t (fun x hx => hlit x (by simp [Phrase.ast, Ast.literals, hx]))
    have hf := tokens_filter_numeric f (fun x hx => hlit x (by simp [Phrase.ast, Ast.literals, hx]))
    have h1 : isNumeric "*" = false := by decide
    simp only [Phrase.tokens, Phrase.ast, Ast.literals, List.filter_append, List.filter_cons,
      h1, ht, hf]
    simp
  | _, .div t f, hlit => by
    have ht := tokens_filter_numeric t (fun x hx => hlit x (by simp [Phrase.ast, Ast.literals, hx]))
    have hf := tokens_filter_numeric f (fun x hx => hlit x (by simp [Phrase.ast, Ast.literals, hx]))
    have h1 : isNumeric "/" = false := by decide
    simp only [Phrase.tokens, Phrase.ast, Ast.literals, List.filter_append, List.filter_cons,
      h1, ht, hf]
    simp
  | _, .add e t, hlit => by
    have he := tokens_filter_numeric e (fun x hx => hlit x (by simp [Phrase.ast, Ast.literals, hx]))
    have ht := tokens_filter_numeric t (fun x hx => hlit x (by simp [Phrase.ast, Ast.literals, hx]))
    have h1 : isNumeric "+" = false := by decide
    simp only [Phrase.tokens, Phrase.ast, Ast.literals, List.filter_append, List.filter_cons,
      h1, he, ht]
    simp
  | _, .sub e t, hlit => by
    have he := tokens_filter_numeric e (fun x hx => hlit x (by simp [Phrase.ast, Ast.literals, hx]))
    have ht := tokens_filter_numeric t (fun x hx => hlit x (by simp [Phrase.ast, Ast.literals, hx]))
    have h1 : isNumeric "-" = false := by decide
    simp only [Phrase.tokens, Phrase.ast, Ast.literals, List.filter_append, List.filter_cons,
      h1, he, ht]
    simp

theorem filter_operator_perm :
    ∀ {n : Nat} (e : Phrase n), (∀ t ∈ e.ast.literals, isNumeric t = true) →
      (e.ast.rpn.filter (fun t => isOperator t)).Perm
        (e.tokens.filter (fun t => isOperator t))
  | _, .num token, hlit => by
    have hn : isNumeric token = true := hlit token (by simp [Phrase.ast, Ast.literals])
    simp [Phrase.tokens, Phrase.ast, Ast.rpn, numeric_not_operator token hn]
  | _, .paren e, hlit => by
    have h := filter_operator_perm e hlit
    have h1 : isOperator "(" = false := by decide
    have h2 : isOperator ")" = false := by decide
    simp only [Phrase.tokens, Phrase.ast, List.filter_cons, List.filter_append, h1, h2]
    simpa using h
  | _, .atom f, hlit => filter_operator_perm f hlit
  | _, .term t, hlit => filter_operator_perm t hlit
  | _, .mul t f, hlit => by
    have ht := filter_operator_perm t (fun x hx => hlit x (by simp [Phrase.ast, Ast.literals, hx]))
    have hf := filter_operator_perm f (fun x hx => hlit x (by simp [Phrase.ast, Ast.literals, hx]))
    have h1 : isOperator "*" = true := by decide
    simp only [Phrase.tokens, Phrase.ast, Ast.rpn, Operation.token, List.filter_append,
      List.filter_cons, h1, if_true, List.filter_nil]
    exact ((ht.append hf).append_right _).trans (by
      rw [List.append_assoc]
      exact List.Perm.append_left _ (List.perm_append_singleton _ _))
  | _, .div t f, hlit => by
    have ht := filter_operator_perm t (fun x hx => hlit x (by simp [Phrase.ast, Ast.literals, hx]))
    have hf := filter_operator_perm f (fun x hx => hlit x (by simp [Phrase.ast, Ast.literals, hx]))
    have h1 : isOperator "/" = true := by decide
    simp only [Phrase.tokens, Phrase.ast, Ast.rpn, Operation.token, List.filter_append,
      List.filter_cons, h1, if_true, List.filter_nil]
    exact ((ht.append hf).append_right _).trans (by
      rw [List.append_assoc]
      exact List.Perm.append_left _ (List.perm_append_singleton _ _))
  | _, .add e t, hlit => by
    have he := filter_operator_perm e (fun x hx => hlit x (by simp [Phrase.ast, Ast.literals, hx]))
    have ht := filter_operator_perm t (fun x hx => hlit x (by simp [Phrase.ast, Ast.literals, hx]))
    have h1 : isOperator "+" = true := by decide
    simp only [Phrase.tokens, Phrase.ast, Ast.rpn, Operation.token, List.filter_append,
      List.filter_cons, h1, if_true, List.filter_nil]
    exact ((he.append ht).append_right _).trans (by
      rw [List.append_assoc]
      exact List.Perm.append_left _ (List.perm_append_singleton _ _))
  | _, .sub e t, hlit => by
    have he := filter_operator_perm e (fun x hx => hlit x (by simp [Phrase.ast, Ast.literals, hx]))
    have ht := filter_operator_perm t (fun x hx => hlit x (by simp [Phrase.ast, Ast.literals, hx]))
    have h1 : isOperator "-" = true := by decide
    simp only [Phrase.tokens, Phrase.ast, Ast.rpn, Operation.token, List.filter_append,
      List.filter_cons, h1, if_true, List.filter_nil]
    exact ((he.append ht).append_right _).trans (by
      rw [List.append_assoc]
      exact List.Perm.append_left _ (List.perm_append_singleton _ _))

/-- C16 (amended): for every well-formed infix expression given as white-space separated
tokens whose number tokens are accepted by `isNumeric` (for an unsigned decimal number:
its value does not overflow float64), `infixToRPN` succeeds; its output has exactly the
number tokens of the input in their original order, the operator tokens of the input, and
nothing else (no parenthesis); and a standard postfix stack evaluator over exact rationals
gives on it the value of the infix expression under the usual precedence and left
associativity (and no value when that one has a division by zero). -/
theorem C16_shunting_yard (e : Phrase 0) (s : String) (hs : fields s = e.tokens)
    (hlit : ∀ t ∈ e.ast.literals, isNumeric t = true) :
    infixToRPN s = .ok e.ast.rpn ∧
    e.ast.rpn.filter (fun t => isNumeric t) = e.tokens.filter (fun t => isNumeric t) ∧
    (e.ast.rpn.filter (fun t => isOperator t)).Perm
      (e.tokens.filter (fun t => isOperator t)) ∧
    (∀ t ∈ e.ast.rpn, (isNumeric t = true ∨ isOperator t = true) ∧ t ≠ "(" ∧ t ≠ ")") ∧
    evalRPN e.ast.rpn = e.ast.eval := by
  refine ⟨infixToRPN_phrase e s hs hlit, ?_, filter_operator_perm e hlit, ?_,
    evalRPN_rpn e.ast hlit⟩
  · rw [rpn_filter_numeric e.ast hlit, tokens_filter_numeric e hlit]
  · intro t ht
    have h := rpn_tokens e.ast hlit t ht
    refine ⟨h, ?_, ?_⟩
    · rintro rfl
      revert h
      decide
    · rintro rfl
      revert h
      decide

/-- Witness for C16 on `"2 + 3 * 4"`: the postfix form is `2 3 4 * +`, of value 14. -/
theorem C16_shunting_yard_witness :
    fields "2 + 3 * 4" = samplePhrase.tokens ∧
    infixToRPN "2 + 3 * 4" = .ok ["2", "3", "4", "*", "+"] ∧
    evalRPN samplePhrase.ast.rpn = samplePhrase.ast.eval :=
  ⟨by decide,
    (C16_shunting_yard samplePhrase "2 + 3 * 4" (by decide) (by decide)).1,
    (C16_shunting_yard samplePhrase "2 + 3 * 4" (by decide) (by decide)).2.2.2.2⟩

set_option maxRecDepth 1000000 in
/-- C16 fails as stated for a decimal number beyond the range of float64. The string
`hugeSum` is a one followed by 309 zeros, then `+` and `1`, separated by spaces: a
well-formed expression whose tokens are unsigned decimal numbers and an operator. The
first number is not accepted by `isNumeric`, and `infixToRPN` returns the unknown-token
error for it. -/
theorem C16_counterexample :
    fields hugeSum = hugePhrase.tokens ∧
    hugePhrase.tokens = [hugeLiteral, "+", "1"] ∧
    hugeLiteral.data.all isDigit = true ∧
    isValidExpression hugeSum = true ∧
    isNumeric hugeLiteral = false ∧
    infixToRPN hugeSum = .error (.unknownToken hugeLiteral) := by
  decide

/-! ## Well-formed postfix lists are the postfix forms of trees -/

theorem token_ofToken (token : String) (h : isOperator token = true) :
    (Operation.ofToken token).token = token := by
  rcases isOperator_cases token h with e | e | e | e <;> subst e <;> decide

theorem operator_not_numeric (t : String) (h : isOperator t = true) : isNumeric t = false := by
  rcases isOperator_cases t h with e | e | e | e <;> subst e <;> decide

theorem rpn_trees :
    ∀ (tokens : List String) (stack : List Ast) (d : Nat),
      (∀ t ∈ tokens, isNumeric t = true ∨ isOperator t = true) →
      (∀ a ∈ stack, ∀ t ∈ a.literals, isNumeric t = true) →
      stackWalk tokens stack.length = some d →
      ∃ stack1 : List Ast, stack1.length = d ∧
        (∀ a ∈ stack1, ∀ t ∈ a.literals, isNumeric t = true) ∧
        rpnOfStack stack1 = rpnOfStack stack ++ tokens
  | [], stack, d, _, hst, hw => by
    simp only [stackWalk, Option.some.injEq] at hw
    exact ⟨stack, hw, hst, by simp⟩
  | token :: tokens, stack, d, htok, hst, hw => by
    have hrest : ∀ t ∈ tokens, isNumeric t = true ∨ isOperator t = true :=
      fun t ht => htok t (List.mem_cons_of_mem _ ht)
    by_cases hnum : isNumeric token = true
    · rw [stackWalk, if_pos hnum] at hw
      have hst1 : ∀ a ∈ Ast.lit token :: stack, ∀ t ∈ a.literals, isNumeric t = true := by
        intro a ha t ht
        rcases List.mem_cons.1 ha with e | ha
        · subst e
          simp only [Ast.literals, List.mem_singleton] at ht
          rw [ht]
          exact hnum
        · exact hst a ha t ht
      obtain ⟨stack1, h1, h2, h3⟩ :=
        rpn_trees tokens (Ast.lit token :: stack) d hrest hst1 (by simpa using hw)
      refine ⟨stack1, h1, h2, ?_⟩
      rw [h3]
      simp [rpnOfStack, Ast.rpn]
    · have hop : isOperator token = true := by
        rcases htok token (List.mem_cons_self _ _) with h | h
        · exact absurd h hnum
        · exact h
      rw [stackWalk, if_neg hnum] at hw
      rcases stack with _ | ⟨r, _ | ⟨l, stack0⟩⟩
      · simp at hw
      · simp at hw
      · rw [if_neg (by simp)] at hw
        have hst1 : ∀ a ∈ Ast.bin (Operation.ofToken token) l r :: stack0,
            ∀ t ∈ a.literals, isNumeric t = true := by
          intro a ha t ht
          rcases List.mem_cons.1 ha with e | ha
          · subst e
            simp only [Ast.literals, List.mem_append] at ht
            rcases ht with ht | ht
            · exact hst l (by simp) t ht
            · exact hst r (by simp) t ht
          · exact hst a (by simp [ha]) t ht
        obtain ⟨stack1, h1, h2, h3⟩ :=
          rpn_trees tokens (Ast.bin (Operation.ofToken token) l r :: stack0) d hrest hst1
            (by simpa using hw)
        refine ⟨stack1, h1, h2, ?_⟩
        rw [h3]
        simp [rpnOfStack, Ast.rpn, token_ofToken token hop]

/-- A token list of numbers and operators on which the stack walk ends with one entry is
the postfix form of a tree with numeric literals. -/
theorem rpn_tree (tokens : List String)
    (htok : ∀ t ∈ tokens, isNumeric t = true ∨ isOperator t = true)
    (hwf : stackWalk tokens 0 = some 1) :
    ∃ a : Ast, (∀ t ∈ a.literals, isNumeric t = true) ∧ a.rpn = tokens := by
  obtain ⟨stack1, h1, h2, h3⟩ := rpn_trees tokens [] 1 htok (by simp) (by simpa using hwf)
  rcases stack1 with _ | ⟨a, _ | ⟨b, s⟩⟩
  · simp at h1
  · refine ⟨a, h2 a (by simp), ?_⟩
    simpa [rpnOfStack] using h3
  · simp at h1

theorem rpn_operators (a : Ast) (hlit : ∀ t ∈ a.literals, isNumeric t = true) :
    (a.rpn.filter (fun t => isOperator t)).length = a.operators := by
  induction a with
  | lit token =>
    have hn : isNumeric token = true := hlit token (by simp [Ast.literals])
    simp [Ast.rpn, Ast.operators, numeric_not_operator token hn]
  | bin op l r ihl ihr =>
    have hl := ihl (fun t ht => hlit t (by simp [Ast.literals, ht]))
    have hr := ihr (fun t ht => hlit t (by simp [Ast.literals, ht]))
    simp only [Ast.rpn, Ast.operators, List.filter_append, List.length_append, hl, hr]
    simp [(token_facts op).2]

/-! ## The values of a chain -/

theorem envValue_numeric (vals : List (Option ℚ)) (arg : String)
    (h : isNumeric arg = true) : envValue vals arg = numValue arg := by
  unfold envValue
  have hnone : (List.range vals.length).find? (fun j => decide (arg = placeholder j)) =
      none := by
    rw [List.find?_eq_none]
    intro j _
    simpa using numeric_ne_placeholder arg j h
  rw [hnone]

theorem envValue_placeholder (vals : List (Option ℚ)) (j : Nat) (h : j < vals.length) :
    envValue vals (placeholder j) = vals.getD j none := by
  unfold envValue
  rcases hf : (List.range vals.length).find?
      (fun i => decide (placeholder j = placeholder i)) with _ | i
  · rw [List.find?_eq_none] at hf
    have := hf j (List.mem_range.2 h)
    simp at this
  · have hp := List.find?_some hf
    have hi : j = i := placeholder_injective j i (by simpa using hp)
    subst hi
    rfl

theorem chainValues_append :
    ∀ (xs ys : List Task) (vals : List (Option ℚ)),
      chainValues (xs ++ ys) vals = chainValues ys (chainValues xs vals)
  | [], ys, vals => rfl
  | x :: xs, ys, vals => by
    rw [List.cons_append, chainValues, chainValues, chainValues_append xs ys]

theorem operand_shape (a : Ast) (hlit : ∀ t ∈ a.literals, isNumeric t = true) (n : Nat) :
    OperandOK (n + a.operators) (a.operand n) := by
  cases a with
  | lit token => exact Or.inl (hlit token (by simp [Ast.literals]))
  | bin op l r =>
    right
    refine ⟨n + l.operators + r.operators, ?_, rfl⟩
    simp only [Ast.operators]
    omega

theorem operandOK_mono (j k : Nat) (arg : String) (hjk : j ≤ k) (h : OperandOK j arg) :
    OperandOK k arg := by
  rcases h with h | ⟨i, hi, e⟩
  · exact Or.inl h
  · exact Or.inr ⟨i, by omega, e⟩

/-- The operands of the chain of a tree: numeric tokens and placeholders of earlier tasks. -/
theorem chain_operands (config : Config) (mint : Nat → String) :
    ∀ (a : Ast), (∀ t ∈ a.literals, isNumeric t = true) → ∀ (n k : Nat) (t : Task),
      (a.chain config mint n)[k]? = some t →
        OperandOK (n + k) t.Arg1 ∧ OperandOK (n + k) t.Arg2
  | .lit token, _, n, k, t, h => by
    simp [Ast.chain] at h
  | .bin op l r, hlit, n, k, t, h => by
    have hl : ∀ t ∈ l.literals, isNumeric t = true :=
      fun t ht => hlit t (by simp [Ast.literals, ht])
    have hr : ∀ t ∈ r.literals, isNumeric t = true :=
      fun t ht => hlit t (by simp [Ast.literals, ht])
    have hll := chain_length config mint l n
    have hrl := chain_length config mint r (n + l.operators)
    simp only [Ast.chain] at h
    by_cases h1 : k < l.operators
    · rw [List.getElem?_append_left (by simp [hll, hrl]; omega),
        List.getElem?_append_left (by rw [hll]; exact h1)] at h
      exact chain_operands config mint l hl n k t h
    · by_cases h2 : k < l.operators + r.operators
      · rw [List.getElem?_append_left (by simp [hll, hrl]; omega),
          List.getElem?_append_right (by rw [hll]; omega), hll] at h
        have := chain_operands config mint r hr (n + l.operators) (k - l.operators) t h
        have e : n + l.operators + (k - l.operators) = n + k := by omega
        rw [e] at this
        exact this
      · rw [List.getElem?_append_right (by simp [hll, hrl]; omega)] at h
        simp only [List.length_append, hll, hrl] at h
        have hk : k - (l.operators + r.operators) = 0 := by
          by_contra hc
          rw [List.getElem?_eq_none (by simp; omega)] at h
          cases h
        rw [hk] at h
        simp only [List.getElem?_cons_zero, Option.some.injEq] at h
        subst h
        refine ⟨operandOK_mono _ _ _ (by omega) (operand_shape l hl n),
          operandOK_mono _ _ _ (by omega) (operand_shape r hr (n + l.operators))⟩

/-- The values of the chain of a tree, evaluated after tasks with the values `vals`: one
value per operator, the operand of the tree stands for the value of the tree, and the
last value is the value of the tree. -/
theorem chain_values (config : Config) (mint : Nat → String) :
    ∀ (a : Ast), (∀ t ∈ a.literals, isNumeric t = true) →
      ∀ (vals : List (Option ℚ)),
        ∃ news : List (Option ℚ), news.length = a.operators ∧
          chainValues (a.chain config mint vals.length) vals = vals ++ news ∧
          (∀ ext, envValue (vals ++ news ++ ext) (a.operand vals.length) = a.eval) ∧
          (a.isLit = false → news.getLast? = some a.eval)
  | .lit token, hlit, vals => by
    refine ⟨[], rfl, by simp [Ast.chain, chainValues], ?_, by simp [Ast.isLit]⟩
    intro ext
    rw [Ast.operand, Ast.eval, envValue_numeric _ _ (hlit token (by simp [Ast.literals]))]
  | .bin op l r, hlit, vals => by
    have hl : ∀ t ∈ l.literals, isNumeric t = true :=
      fun t ht => hlit t (by simp [Ast.literals, ht])
    have hr : ∀ t ∈ r.literals, isNumeric t = true :=
      fun t ht => hlit t (by simp [Ast.literals, ht])
    obtain ⟨nl, hnl, cl, el, _⟩ := chain_values config mint l hl vals
    obtain ⟨nr, hnr, cr, er, _⟩ := chain_values config mint r hr (vals ++ nl)
    have hlen : (vals ++ nl).length = vals.length + l.operators := by
      rw [List.length_append, hnl]
    rw [hlen] at cr er
    have e1 := el nr
    have e2 := er []
    rw [List.append_nil] at e2
    refine ⟨nl ++ nr ++ [(Ast.bin op l r).eval], ?_, ?_, ?_, ?_⟩
    · simp only [List.length_append, List.length_singleton, hnl, hnr, Ast.operators]
    · simp only [Ast.chain]
      rw [chainValues_append, chainValues_append, cl, cr, chainValues, chainValues]
      simp only [e1, e2, Ast.eval]
      simp only [List.append_assoc]
    · intro ext
      have hidx : vals.length + l.operators + r.operators < 
          (vals ++ (nl ++ nr ++ [(Ast.bin op l r).eval]) ++ ext).length := by
        simp only [List.length_append, List.length_singleton, hnl, hnr]
        omega
      rw [Ast.operand, envValue_placeholder _ _ hidx]
      have hsplit : vals ++ (nl ++ nr ++ [(Ast.bin op l r).eval]) ++ ext =
          (vals ++ nl ++ nr) ++ ((Ast.bin op l r).eval :: ext) := by
        simp only [List.append_assoc, List.singleton_append]
      have hl3 : (vals ++ nl ++ nr).length = vals.length + l.operators + r.operators := by
        simp only [List.length_append, hnl, hnr]
      rw [hsplit, List.getD_eq_getElem?_getD, List.getElem?_append_right (by omega), hl3]
      simp
    · intro _
      simp

/-- C17: for every well-formed postfix token list (numeric tokens and operator tokens, the
stack walk never short of entries and ending with one entry) with at least one operator,
`buildTasksFromRPN` returns a non-empty chain such that: each operand of the task at
position `k` is a numeric token or a placeholder `T<j>` with `j < k`; the operation and the
duration of the tasks are those configured for the operator tokens, in order; evaluating
the tasks in index order as `Arg1 op Arg2`, a placeholder `T<j>` standing for the value of
task `j`, gives for the last task the value of the token list under a postfix evaluator
(none for both when a division by zero occurs); and at every operator the loop makes the
deeper of the two stack entries `Arg1` and the top one `Arg2`. -/
theorem C17_chain_of_rpn (tokens : List String) (config : Config) (mint : Nat → String)
    (htok : ∀ t ∈ tokens, isNumeric t = true ∨ isOperator t = true)
    (hwf : stackWalk tokens 0 = some 1)
    (hop : ∃ t ∈ tokens, isOperator t = true) :
    ∃ tasks, buildTasksFromRPN tokens config mint = .ok tasks ∧
      tasks ≠ [] ∧
      (∀ k t, tasks[k]? = some t → OperandOK k t.Arg1 ∧ OperandOK k t.Arg2) ∧
      tasks.map (fun t => (t.Operation, t.OperationTime)) =
        (tokens.filter (fun t => isOperator t)).map (operationOf config) ∧
      (chainValues tasks []).length = tasks.length ∧
      (chainValues tasks []).getLast? = some (evalRPN tokens) ∧
      (∀ (token : String) (rest : List String) (sofar : List Task) (top deeper : String)
        (stack : List String) (n : Nat),
        isNumeric token = false → isOperator token = true →
        buildLoop config mint (token :: rest) sofar (top :: deeper :: stack) n =
          buildLoop config mint rest
            (sofar ++ [{ ID := mint n, Arg1 := deeper, Arg2 := top,
                         Operation := (operationOf config token).1,
                         OperationTime := (operationOf config token).2 }])
            (placeholder n :: stack) (n + 1)) := by
  obtain ⟨a, hlit, hrpn⟩ := rpn_tree tokens htok hwf
  subst hrpn
  have hops : 0 < a.operators := by
    rw [← rpn_operators a hlit]
    obtain ⟨t, ht, ho⟩ := hop
    exact List.length_pos_of_mem (List.mem_filter.2 ⟨ht, by simpa using ho⟩)
  have hnl : a.isLit = false := by
    cases a with
    | lit token => simp [Ast.operators] at hops
    | bin op l r => rfl
  have hbuild := buildTasksFromRPN_rpn config mint a hlit
  obtain ⟨_, _, h3⟩ := buildLoop_walk config mint a.rpn [] [] 0 htok
  obtain ⟨news, e, e2, _⟩ := h3 (by simpa using hwf)
  have hnews : news = a.chain config mint 0 := by
    unfold buildTasksFromRPN at hbuild
    rw [e, List.nil_append] at hbuild
    injection hbuild
  subst hnews
  obtain ⟨vs, hvl, hcv, _, hlast⟩ := chain_values config mint a hlit []
  simp only [List.length_nil, List.nil_append] at hcv
  have hfilter : a.rpn.filter (fun t => !isNumeric t) =
      a.rpn.filter (fun t => isOperator t) := by
    apply List.filter_congr
    intro t ht
    rcases htok t ht with h | h
    · simp [h, numeric_not_operator t h]
    · simp [h, operator_not_numeric t h]
  refine ⟨a.chain config mint 0, hbuild, ?_, ?_, ?_, ?_, ?_, ?_⟩
  · intro hc
    have := chain_length config mint a 0
    rw [hc] at this
    simp at this
    omega
  · intro k t hk
    have := chain_operands config mint a hlit 0 k t hk
    simpa using this
  · rw [← hfilter]
    exact e2
  · rw [hcv, hvl, chain_length]
  · rw [hcv, hlast hnl, evalRPN_rpn a hlit]
  · intro token rest sofar top deeper stack n h1 h2
    exact buildLoop_operator config mint token rest sofar top deeper stack n h1 h2

/-- Witness for C17 on `1 2 * 3 4 * +`, the postfix form of `1 * 2 + 3 * 4`: the last of
the three tasks is `T0 + T1`. -/
theorem C17_chain_of_rpn_witness :
    ∃ tasks, buildTasksFromRPN ["1", "2", "*", "3", "4", "*", "+"] defaultConfig sampleMint =
        .ok tasks ∧
      tasks ≠ [] ∧
      (∀ k t, tasks[k]? = some t → OperandOK k t.Arg1 ∧ OperandOK k t.Arg2) ∧
      (chainValues tasks []).getLast? =
        some (evalRPN ["1", "2", "*", "3", "4", "*", "+"]) := by
  obtain ⟨tasks, h1, h2, h3, _, _, h6, _⟩ :=
    C17_chain_of_rpn ["1", "2", "*", "3", "4", "*", "+"] defaultConfig sampleMint
      (by decide) (by decide) (by decide)
  exact ⟨tasks, h1, h2, h3, h6⟩

/-! ## The tables under the operations -/

theorem mem_allPtrs {p : Nat} :
    ∀ {es : List (String × Expression)}, p ∈ allPtrs es ↔ ∃ kv ∈ es, p ∈ kv.2.Tasks
  | [] => by simp [allPtrs]
  | kv :: es => by
    simp only [allPtrs, List.mem_append, List.mem_cons, exists_eq_or_imp, mem_allPtrs]

theorem allPtrs_append (xs ys : List (String × Expression)) :
    allPtrs (xs ++ ys) = allPtrs xs ++ allPtrs ys := by
  induction xs with
  | nil => rfl
  | cons x xs ih => simp [allPtrs, ih]

theorem allPtrs_perm {l1 l2 : List (String × Expression)} (h : l1.Perm l2) :
    (allPtrs l1).Perm (allPtrs l2) := by
  induction h with
  | nil => exact List.Perm.refl _
  | cons x _ ih => exact List.Perm.append_left _ ih
  | swap x y l =>
    simp only [allPtrs]
    rw [← List.append_assoc, ← List.append_assoc]
    exact List.Perm.append_right _ List.perm_append_comm
  | trans _ _ ih1 ih2 => exact ih1.trans ih2

theorem allPtrs_set (kv1 kv2 : String × Expression) (h : kv2.2.Tasks = kv1.2.Tasks) :
    ∀ (es : List (String × Expression)) (k : Nat), es[k]? = some kv1 →
      allPtrs (es.set k kv2) = allPtrs es
  | [], k, hk => by simp at hk
  | kv :: es, 0, hk => by
    simp only [List.getElem?_cons_zero, Option.some.injEq] at hk
    subst hk
    simp only [List.set_cons_zero, allPtrs, h]
  | kv :: es, k + 1, hk => by
    simp only [List.getElem?_cons_succ] at hk
    simp only [List.set_cons_succ, allPtrs, allPtrs_set kv1 kv2 h es k hk]

theorem keysOf_set (kv1 kv2 : String × Expression) (h : kv2.1 = kv1.1) :
    ∀ (es : List (String × Expression)) (k : Nat), es[k]? = some kv1 →
      keysOf (es.set k kv2) = keysOf es
  | [], k, hk => by simp at hk
  | kv :: es, 0, hk => by
    simp only [List.getElem?_cons_zero, Option.some.injEq] at hk
    subst hk
    simp only [List.set_cons_zero, keysOf, List.map_cons, h]
  | kv :: es, k + 1, hk => by
    simp only [List.getElem?_cons_succ] at hk
    have := keysOf_set kv1 kv2 h es k hk
    simp only [keysOf] at this
    simp only [List.set_cons_succ, keysOf, List.map_cons, this]

theorem mapSet_fresh {β : Type} (k : String) (v : β) :
    ∀ m : List (String × β), k ∉ m.map (fun kv => kv.1) → mapSet m k v = m ++ [(k, v)]
  | [], _ => rfl
  | (k1, v1) :: m, h => by
    simp only [List.map_cons, List.mem_cons, not_or] at h
    unfold mapSet
    rw [if_neg (fun e => h.1 e.symm), mapSet_fresh k v m h.2, List.cons_append]

theorem mapSet_present (k : String) (e : Expression) :
    ∀ es : List (String × Expression), k ∈ keysOf es →
      ∃ (n : Nat) (old : Expression), es[n]? = some (k, old) ∧ mapSet es k e = es.set n (k, e)
  | [], h => by simp [keysOf] at h
  | (k1, v1) :: es, h => by
    unfold mapSet
    by_cases hk : k1 = k
    · subst hk
      exact ⟨0, v1, by simp, by simp⟩
    · have hmem : k ∈ keysOf es := by
        simp only [keysOf, List.map_cons, List.mem_cons] at h
        rcases h with h | h
        · exact absurd h.symm hk
        · exact h
      obtain ⟨n, old, h1, h2⟩ := mapSet_present k e es hmem
      exact ⟨n + 1, old, by simpa using h1, by simp [hk, h2]⟩

theorem keysOf_mapSet (k : String) (e : Expression) (es : List (String × Expression)) :
    keysOf (mapSet es k e) = if k ∈ keysOf es then keysOf es else keysOf es ++ [k] := by
  by_cases h : k ∈ keysOf es
  · rw [if_pos h]
    obtain ⟨n, old, h1, h2⟩ := mapSet_present k e es h
    rw [h2, keysOf_set (k, old) (k, e) rfl es n h1]
  · rw [if_neg h, mapSet_fresh k e es h]
    simp [keysOf]

theorem mem_mapSet {kv : String × Expression} (k : String) (e : Expression) :
    ∀ es : List (String × Expression), kv ∈ mapSet es k e → kv ∈ es ∨ kv = (k, e)
  | [], h => by
    simp only [mapSet, List.mem_singleton] at h
    exact Or.inr h
  | (k1, v1) :: es, h => by
    unfold mapSet at h
    by_cases hk : k1 = k
    · simp only [hk, if_true, List.mem_cons] at h
      rcases h with h | h
      · exact Or.inr h
      · exact Or.inl (List.mem_cons_of_mem _ h)
    · simp only [hk, if_false, List.mem_cons] at h
      rcases h with h | h
      · exact Or.inl (by rw [h]; exact List.mem_cons_self _ _)
      · rcases mem_mapSet k e es h with h1 | h1
        · exact Or.inl (List.mem_cons_of_mem _ h1)
        · exact Or.inr h1

theorem count_allPtrs_mapSet (x : Nat) (key : String) (e : Expression) :
    ∀ es : List (String × Expression),
      (allPtrs (mapSet es key e)).count x ≤ (allPtrs es).count x + e.Tasks.count x
  | [] => by simp [mapSet, allPtrs]
  | (k1, v1) :: es => by
    unfold mapSet
    by_cases h : k1 = key
    · simp only [h, if_true, allPtrs, List.count_append]
      omega
    · simp only [h, if_false, allPtrs, List.count_append]
      have := count_allPtrs_mapSet x key e es
      omega

theorem mem_allPtrs_mapSet {p : Nat} (key : String) (e : Expression)
    (es : List (String × Expression)) (h : p ∈ allPtrs (mapSet es key e)) :
    p ∈ allPtrs es ∨ p ∈ e.Tasks := by
  obtain ⟨kv, hkv, hp⟩ := mem_allPtrs.1 h
  rcases mem_mapSet key e es hkv with h1 | h1
  · exact Or.inl (mem_allPtrs.2 ⟨kv, h1, hp⟩)
  · subst h1
    exact Or.inr hp

theorem deref_append (heap extra : List Task) (p : Nat) (h : p < heap.length) :
    deref (heap ++ extra) p = deref heap p := by
  unfold deref
  rw [List.getD_eq_getElem?_getD, List.getD_eq_getElem?_getD, List.getElem?_append_left h]

theorem deref_set_id (heap : List Task) (p q : Nat) (i : Nat) (r : Float64) :
    (deref (heap.set p (substitute (deref heap p) i r)) q).ID = (deref heap q).ID := by
  by_cases hp : p < heap.length
  · rw [deref_set heap p q _ hp]
    by_cases hq : q = p
    · rw [if_pos hq, (substitute_fields _ _ _).1, hq]
    · rw [if_neg hq]
  · rw [List.set_eq_of_length_le (by omega)]

theorem substitute_numeric (t : Task) (i : Nat) (r : Float64)
    (h : isNumeric t.Arg1 = true ∧ isNumeric t.Arg2 = true) : substitute t i r = t := by
  have h1 : t.Arg1 ≠ placeholder i := numeric_ne_placeholder _ _ h.1
  have h2 : t.Arg2 ≠ placeholder i := numeric_ne_placeholder _ _ h.2
  unfold substitute
  simp only [h1, h2, if_false]

/-- What a result submission does: it is refused and changes nothing, or it is accepted
for the current task of the first visited expression that has the task, and either
rewrites and perhaps queues the next task, or completes the expression. -/
theorem submitResult_effect (a : Application) (req : TaskResultRequest) :
    ((submitResult a req).1 ≠ .ok ∧ (submitResult a req).2 = a) ∨
    ∃ (k : Nat) (key : String) (expr : Expression) (i : Nat),
      (submitResult a req).1 = .ok ∧
      mapHas a.tasks req.ID = true ∧
      findExpression a.heap req.ID a.expressions = some k ∧
      a.expressions[k]? = some (key, expr) ∧
      taskIndex a.heap req.ID expr.Tasks = some i ∧
      (i : Int) = expr.CurrentTaskIndex ∧
      ((∃ p, expr.Tasks[i + 1]? = some p ∧
        (submitResult a req).2 =
          { a with
            heap := a.heap.set p (substitute (deref a.heap p) i req.Result)
            expressions :=
              a.expressions.set k (key, { expr with CurrentTaskIndex := (i : Int) + 1 })
            taskQueue :=
              if isNumeric (substitute (deref a.heap p) i req.Result).Arg1 &&
                  isNumeric (substitute (deref a.heap p) i req.Result).Arg2 then
                a.taskQueue ++ [p]
              else a.taskQueue }) ∨
       (expr.Tasks[i + 1]? = none ∧
        (submitResult a req).2 =
          { a with
            expressions :=
              a.expressions.set k
                (key, { expr with
                        CurrentTaskIndex := (i : Int) + 1
                        Status := .StatusCompleted
                        Result := some req.Result }) })) := by
  cases hreg : mapHas a.tasks req.ID with
  | false => left; simp [submitResult, hreg]
  | true =>
    cases howner : findExpression a.heap req.ID a.expressions with
    | none => left; simp [submitResult, hreg, howner]
    | some k =>
      obtain ⟨key, expr, hexpr, hsome⟩ := findExpression_spec howner
      obtain ⟨i, hpos⟩ := Option.isSome_iff_exists.1 hsome
      by_cases hcur : (i : Int) = expr.CurrentTaskIndex
      · right
        refine ⟨k, key, expr, i, ?_, rfl, rfl, hexpr, hpos, hcur, ?_⟩
        · cases hnext : expr.Tasks[i + 1]? with
          | none =>
            rw [submitResult_last a req k key expr i hreg howner hexpr hpos hcur hnext]
          | some p =>
            rw [submitResult_next a req k key expr i p hreg howner hexpr hpos hcur hnext]
        · cases hnext : expr.Tasks[i + 1]? with
          | none =>
            right
            exact ⟨rfl, by
              rw [submitResult_last a req k key expr i hreg howner hexpr hpos hcur hnext]⟩
          | some p =>
            left
            exact ⟨p, rfl, by
              rw [submitResult_next a req k key expr i p hreg howner hexpr hpos hcur hnext]⟩
      · left
        rw [submitResult_eq a req k key expr i hreg howner hexpr hpos]
        simp [hcur]

theorem sound_New (config : Config) : Sound (New config) := by
  constructor <;> simp [New, allPtrs, keysOf]

theorem sound_submit (a : Application) (h : Sound a) (exprID s : String) (tasks : List Task) :
    Sound
      { a with
        heap := a.heap ++ tasks
        expressions :=
          mapSet a.expressions exprID
            { ID := exprID, Expression := s,
              Status := if firstTaskReady tasks then .StatusProcessing else .StatusPending,
              Result := none,
              Tasks := List.range' a.heap.length tasks.length,
              CurrentTaskIndex := 0 }
        tasks := registerTasks a.tasks tasks a.heap.length
        taskQueue :=
          if firstTaskReady tasks then a.taskQueue ++ [a.heap.length]
          else a.taskQueue } := by
  obtain ⟨hcb, hqb, hcn, hkn, hst, hqn⟩ := h
  constructor
  · intro p hp
    dsimp only at hp ⊢
    rw [List.length_append]
    rcases mem_allPtrs_mapSet _ _ _ hp with h1 | h1
    · have := hcb p h1
      omega
    · dsimp only at h1
      rw [List.mem_range'_1] at h1
      omega
  · intro p hp
    dsimp only at hp ⊢
    rw [List.length_append]
    by_cases hr : firstTaskReady tasks = true
    · rw [if_pos hr, List.mem_append, List.mem_singleton] at hp
      have := firstTaskReady_pos tasks hr
      rcases hp with hp | hp
      · have := hqb p hp
        omega
      · omega
    · rw [if_neg hr] at hp
      have := hqb p hp
      omega
  · dsimp only
    rw [List.nodup_iff_count_le_one] at hcn ⊢
    intro x
    have h1 := count_allPtrs_mapSet x exprID
      { ID := exprID, Expression := s,
        Status := if firstTaskReady tasks then .StatusProcessing else .StatusPending,
        Result := none,
        Tasks := List.range' a.heap.length tasks.length,
        CurrentTaskIndex := 0 } a.expressions
    dsimp only at h1
    by_cases hx : x < a.heap.length
    · have h2 : (List.range' a.heap.length tasks.length).count x = 0 := by
        apply List.count_eq_zero_of_not_mem
        rw [List.mem_range'_1]
        omega
      have := hcn x
      omega
    · have h2 : (allPtrs a.expressions).count x = 0 := by
        apply List.count_eq_zero_of_not_mem
        intro hm
        exact hx (hcb x hm)
      have h3 : (List.range' a.heap.length tasks.length).count x ≤ 1 :=
        List.nodup_iff_count_le_one.1 (List.nodup_range' _ _) x
      omega
  · dsimp only
    rw [keysOf_mapSet]
    by_cases hk : exprID ∈ keysOf a.expressions
    · rw [if_pos hk]
      exact hkn
    · rw [if_neg hk]
      rw [List.nodup_append]
      refine ⟨hkn, List.nodup_singleton _, ?_⟩
      intro x hx1 hx2
      rw [List.mem_singleton] at hx2
      subst hx2
      exact hk hx1
  · intro kv hkv
    dsimp only at hkv
    rcases mem_mapSet _ _ _ hkv with h1 | h1
    · exact hst kv h1
    · subst h1
      dsimp only
      constructor
      · split <;> simp
      · split <;> simp
  · intro p hp
    dsimp only at hp ⊢
    by_cases hr : firstTaskReady tasks = true
    · rw [if_pos hr, List.mem_append, List.mem_singleton] at hp
      rcases hp with hp | hp
      · rw [deref_append _ _ _ (hqb p hp)]
        exact hqn p hp
      · subst hp
        rcases tasks with _ | ⟨t, ts⟩
        · simp [firstTaskReady] at hr
        · have hd : deref (a.heap ++ t :: ts) a.heap.length = t := by
            unfold deref
            rw [List.getD_eq_getElem?_getD, List.getElem?_append_right (le_refl _)]
            simp
          rw [hd]
          simpa [firstTaskReady] using hr
    · rw [if_neg hr] at hp
      rw [deref_append _ _ _ (hqb p hp)]
      exact hqn p hp

theorem sound_next (a : Application) (h : Sound a) (k : Nat) (key : String)
    (expr : Expression) (i p : Nat) (r : Float64)
    (hexpr : a.expressions[k]? = some (key, expr))
    (hcur : (i : Int) = expr.CurrentTaskIndex)
    (hnext : expr.Tasks[i + 1]? = some p) :
    Sound
      { a with
        heap := a.heap.set p (substitute (deref a.heap p) i r)
        expressions :=
          a.expressions.set k (key, { expr with CurrentTaskIndex := (i : Int) + 1 })
        taskQueue :=
          if isNumeric (substitute (deref a.heap p) i r).Arg1 &&
              isNumeric (substitute (deref a.heap p) i r).Arg2 then
            a.taskQueue ++ [p]
          else a.taskQueue } := by
  obtain ⟨hcb, hqb, hcn, hkn, hst, hqn⟩ := h
  have hmem : (key, expr) ∈ a.expressions := List.mem_iff_getElem?.2 ⟨k, hexpr⟩
  have hp : p < a.heap.length :=
    hcb p (mem_allPtrs.2 ⟨(key, expr), hmem, List.mem_iff_getElem?.2 ⟨i + 1, hnext⟩⟩)
  have hall : allPtrs (a.expressions.set k
      (key, { expr with CurrentTaskIndex := (i : Int) + 1 })) = allPtrs a.expressions :=
    allPtrs_set (key, expr) (key, { expr with CurrentTaskIndex := (i : Int) + 1 }) rfl
      a.expressions k hexpr
  have hkeys : keysOf (a.expressions.set k
      (key, { expr with CurrentTaskIndex := (i : Int) + 1 })) = keysOf a.expressions :=
    keysOf_set (key, expr) (key, { expr with CurrentTaskIndex := (i : Int) + 1 }) rfl
      a.expressions k hexpr
  constructor
  · intro q hq
    dsimp only at hq ⊢
    rw [hall] at hq
    rw [List.length_set]
    exact hcb q hq
  · intro q hq
    dsimp only at hq ⊢
    rw [List.length_set]
    split at hq
    · rw [List.mem_append, List.mem_singleton] at hq
      rcases hq with hq | hq
      · exact hqb q hq
      · rw [hq]
        exact hp
    · exact hqb q hq
  · dsimp only
    rw [hall]
    exact hcn
  · dsimp only
    rw [hkeys]
    exact hkn
  · intro kv hkv
    dsimp only at hkv
    rcases List.mem_or_eq_of_mem_set hkv with h1 | h1
    · exact hst kv h1
    · subst h1
      have := hst (key, expr) hmem
      dsimp only at this ⊢
      refine ⟨this.1, fun hc => ?_⟩
      have := this.2 hc
      omega
  · intro q hq
    dsimp only at hq ⊢
    rw [deref_set _ _ _ _ hp]
    by_cases hqp : q = p
    · rw [if_pos hqp]
      split at hq
      · rename_i hnum
        simpa using hnum
      · have hold := hqn q hq
        rw [hqp] at hold
        rw [substitute_numeric _ _ _ hold]
        exact hold
    · rw [if_neg hqp]
      split at hq
      · rw [List.mem_append, List.mem_singleton] at hq
        rcases hq with hq | hq
        · exact hqn q hq
        · exact absurd hq hqp
      · exact hqn q hq

theorem sound_last (a : Application) (h : Sound a) (k : Nat) (key : String)
    (expr : Expression) (i : Nat) (r : Float64)
    (hexpr : a.expressions[k]? = some (key, expr))
    (hnext : expr.Tasks[i + 1]? = none) :
    Sound
      { a with
        expressions :=
          a.expressions.set k
            (key, { expr with
                    CurrentTaskIndex := (i : Int) + 1
                    Status := .StatusCompleted
                    Result := some r }) } := by
  obtain ⟨hcb, hqb, hcn, hkn, hst, hqn⟩ := h
  have hall : allPtrs (a.expressions.set k
      (key, { expr with CurrentTaskIndex := (i : Int) + 1, Status := .StatusCompleted,
                        Result := some r })) = allPtrs a.expressions :=
    allPtrs_set (key, expr)
      (key, { expr with CurrentTaskIndex := (i : Int) + 1, Status := .StatusCompleted,
                        Result := some r }) rfl a.expressions k hexpr
  have hkeys : keysOf (a.expressions.set k
      (key, { expr with CurrentTaskIndex := (i : Int) + 1, Status := .StatusCompleted,
                        Result := some r })) = keysOf a.expressions :=
    keysOf_set (key, expr)
      (key, { expr with CurrentTaskIndex := (i : Int) + 1, Status := .StatusCompleted,
                        Result := some r }) rfl a.expressions k hexpr
  constructor
  · intro q hq
    dsimp only at hq ⊢
    rw [hall] at hq
    exact hcb q hq
  · exact hqb
  · dsimp only
    rw [hall]
    exact hcn
  · dsimp only
    rw [hkeys]
    exact hkn
  · intro kv hkv
    dsimp only at hkv
    rcases List.mem_or_eq_of_mem_set hkv with h1 | h1
    · exact hst kv h1
    · subst h1
      dsimp only
      refine ⟨by simp, fun _ => ?_⟩
      rw [List.getElem?_eq_none_iff] at hnext
      omega
  · exact hqn

/-- Every operation keeps the tables sound. -/
theorem sound_step (a : Application) (tr : Trace) (op : Op) (h : Sound a) :
    Sound (step a tr op).1 := by
  cases op with
  | visit order =>
    show Sound (if order.Perm a.expressions then
      (({ a with expressions := order } : Application), tr) else (a, tr)).1
    by_cases hp : order.Perm a.expressions
    · rw [if_pos hp]
      obtain ⟨hcb, hqb, hcn, hkn, hst, hqn⟩ := h
      have hperm := allPtrs_perm hp
      constructor
      · intro q hq
        exact hcb q (hperm.mem_iff.1 hq)
      · exact hqb
      · exact hperm.nodup_iff.2 hcn
      · exact (hp.map _).nodup_iff.2 hkn
      · intro kv hkv
        exact hst kv (hp.mem_iff.1 hkv)
      · exact hqn
    · rw [if_neg hp]
      exact h
  | dispatch =>
    show Sound (dispatch a).2
    unfold dispatch
    rcases hq : a.taskQueue with _ | ⟨p, queue⟩
    · exact h
    · obtain ⟨hcb, hqb, hcn, hkn, hst, hqn⟩ := h
      rw [hq] at hqb hqn
      exact ⟨hcb, fun q hm => hqb q (List.mem_cons_of_mem _ hm), hcn, hkn, hst,
        fun q hm => hqn q (List.mem_cons_of_mem _ hm)⟩
  | submit exprID mint s =>
    show Sound (addExpression a exprID mint s).2
    rcases addExpression_cases a exprID mint s with ⟨err, he⟩ | ⟨tasks, _, _, he⟩
    · rw [he]
      exact h
    · rw [he]
      exact sound_submit a h exprID s tasks
  | result req =>
    show Sound (submitResult a req).2
    rcases submitResult_effect a req with ⟨_, he⟩ |
        ⟨k, key, expr, i, _, _, _, hexpr, _, hcur, ⟨p, hnext, he⟩ | ⟨hnext, he⟩⟩
    · rw [he]
      exact h
    · rw [he]
      exact sound_next a h k key expr i p req.Result hexpr hcur hnext
    · rw [he]
      exact sound_last a h k key expr i req.Result hexpr hnext

theorem sound_run :
    ∀ (ops : List Op) (a : Application) (tr : Trace), Sound a → Sound (run a tr ops).1
  | [], _, _, h => h
  | op :: ops, a, tr, h => sound_run ops _ _ (sound_step a tr op h)

/-- C18: in every state reached from the empty coordinator by expression submissions,
dispatches and result submissions (and visits of the expression map in any order), every
task in the queue has two numeric operands, neither of them a placeholder; so whenever
dispatch hands out a task, both operands of that task are numeric. -/
theorem C18_queue_numeric (config : Config) (ops : List Op) :
    (∀ p ∈ (run (New config) noTrace ops).1.taskQueue,
      isNumeric (deref (run (New config) noTrace ops).1.heap p).Arg1 = true ∧
      isNumeric (deref (run (New config) noTrace ops).1.heap p).Arg2 = true ∧
      ∀ k, (deref (run (New config) noTrace ops).1.heap p).Arg1 ≠ placeholder k ∧
        (deref (run (New config) noTrace ops).1.heap p).Arg2 ≠ placeholder k) ∧
    (∀ (id arg1 arg2 : String) (op : Operation) (time : Int),
      (giveTaskHandler (run (New config) noTrace ops).1 .get).1 =
          .task id arg1 arg2 op time →
        isNumeric arg1 = true ∧ isNumeric arg2 = true ∧
        ∀ k, arg1 ≠ placeholder k ∧ arg2 ≠ placeholder k) := by
  have hs := sound_run ops (New config) noTrace (sound_New config)
  generalize (run (New config) noTrace ops).1 = a at hs
  have hq : ∀ p ∈ a.taskQueue,
      isNumeric (deref a.heap p).Arg1 = true ∧ isNumeric (deref a.heap p).Arg2 = true ∧
      ∀ k, (deref a.heap p).Arg1 ≠ placeholder k ∧ (deref a.heap p).Arg2 ≠ placeholder k := by
    intro p hp
    obtain ⟨h1, h2⟩ := hs.queue_numeric p hp
    exact ⟨h1, h2, fun k => ⟨numeric_ne_placeholder _ k h1, numeric_ne_placeholder _ k h2⟩⟩
  refine ⟨hq, ?_⟩
  intro id arg1 arg2 op time hget
  change (dispatch a).1 = _ at hget
  unfold dispatch at hget
  rcases hqueue : a.taskQueue with _ | ⟨p, queue⟩
  · rw [hqueue] at hget
    cases hget
  · rw [hqueue] at hget
    have := hq p (by rw [hqueue]; exact List.mem_cons_self _ _)
    simp only [Response.task.injEq] at hget
    obtain ⟨_, e1, e2, _, _⟩ := hget
    rw [← e1, ← e2]
    exact this

/-! ## The registry and the chains -/

theorem deref_append_right (heap extra : List Task) (j : Nat) :
    deref (heap ++ extra) (heap.length + j) = deref extra j := by
  unfold deref
  rw [List.getD_eq_getElem?_getD, List.getD_eq_getElem?_getD,
    List.getElem?_append_right (by omega)]
  simp

theorem registered_New (config : Config) : Registered (New config) := by
  constructor <;> simp [New, allPtrs, mapHas]

theorem registered_submit (a : Application) (h : Sound a) (hr : Registered a)
    (exprID s : String) (tasks : List Task) (hnew : exprID ∉ keysOf a.expressions) :
    Registered
      { a with
        heap := a.heap ++ tasks
        expressions :=
          mapSet a.expressions exprID
            { ID := exprID, Expression := s,
              Status := if firstTaskReady tasks then .StatusProcessing else .StatusPending,
              Result := none,
              Tasks := List.range' a.heap.length tasks.length,
              CurrentTaskIndex := 0 }
        tasks := registerTasks a.tasks tasks a.heap.length
        taskQueue :=
          if firstTaskReady tasks then a.taskQueue ++ [a.heap.length]
          else a.taskQueue } := by
  have hall : ∀ e : Expression, allPtrs (mapSet a.expressions exprID e) =
      allPtrs a.expressions ++ e.Tasks := by
    intro e
    rw [mapSet_fresh exprID e a.expressions hnew, allPtrs_append]
    simp [allPtrs]
  constructor
  · intro id hid
    dsimp only at hid ⊢
    rw [hall]
    dsimp only
    rw [mapHas_registerTasks, Bool.or_eq_true] at hid
    rcases hid with hid | hid
    · obtain ⟨p, hp, hpid⟩ := hr.owned id hid
      refine ⟨p, List.mem_append_left _ hp, ?_⟩
      rw [deref_append _ _ _ (h.chain_bound p hp)]
      exact hpid
    · rw [List.any_eq_true] at hid
      obtain ⟨t, ht, hte⟩ := hid
      obtain ⟨j, hj⟩ := List.mem_iff_getElem?.1 ht
      have hjl : j < tasks.length := by
        by_contra hc
        rw [List.getElem?_eq_none (by omega)] at hj
        cases hj
      refine ⟨a.heap.length + j, List.mem_append_right _ ?_, ?_⟩
      · rw [List.mem_range'_1]
        omega
      · rw [deref_append_right, deref_eq_of_getElem? tasks j t hj]
        simpa using hte
  · intro p hp
    dsimp only at hp ⊢
    rw [hall] at hp
    dsimp only at hp
    rw [mapHas_registerTasks, Bool.or_eq_true]
    rcases List.mem_append.1 hp with hp | hp
    · left
      rw [deref_append _ _ _ (h.chain_bound p hp)]
      exact hr.registered p hp
    · right
      rw [List.mem_range'_1] at hp
      obtain ⟨j, rfl⟩ : ∃ j, p = a.heap.length + j := ⟨p - a.heap.length, by omega⟩
      have hjl : j < tasks.length := by omega
      rw [deref_append_right, List.any_eq_true]
      refine ⟨deref tasks j, ?_, by simp⟩
      exact List.mem_iff_getElem?.2 ⟨j, getElem?_deref tasks j hjl⟩

theorem registered_rewrite (a : Application) (hr : Registered a) (k : Nat) (key : String)
    (expr expr1 : Expression) (p i : Nat) (r : Float64) (queue : List Nat)
    (hexpr : a.expressions[k]? = some (key, expr)) (htasks : expr1.Tasks = expr.Tasks) :
    Registered
      { a with
        heap := a.heap.set p (substitute (deref a.heap p) i r)
        expressions := a.expressions.set k (key, expr1)
        taskQueue := queue } := by
  have hall : allPtrs (a.expressions.set k (key, expr1)) = allPtrs a.expressions :=
    allPtrs_set (key, expr) (key, expr1) htasks a.expressions k hexpr
  constructor
  · intro id hid
    dsimp only at hid ⊢
    rw [hall]
    obtain ⟨q, hq, hqid⟩ := hr.owned id hid
    exact ⟨q, hq, by rw [deref_set_id]; exact hqid⟩
  · intro q hq
    dsimp only at hq ⊢
    rw [hall] at hq
    rw [deref_set_id]
    exact hr.registered q hq

theorem registered_update (a : Application) (hr : Registered a) (k : Nat) (key : String)
    (expr expr1 : Expression)
    (hexpr : a.expressions[k]? = some (key, expr)) (htasks : expr1.Tasks = expr.Tasks) :
    Registered { a with expressions := a.expressions.set k (key, expr1) } := by
  have hall : allPtrs (a.expressions.set k (key, expr1)) = allPtrs a.expressions :=
    allPtrs_set (key, expr) (key, expr1) htasks a.expressions k hexpr
  constructor
  · intro id hid
    dsimp only at hid ⊢
    rw [hall]
    exact hr.owned id hid
  · intro q hq
    dsimp only at hq ⊢
    rw [hall] at hq
    exact hr.registered q hq

/-- An operation keeps the registry and the chains in step, as long as a submission
draws a new expression identifier. -/
theorem registered_step (a : Application) (tr : Trace) (op : Op) (h : Sound a)
    (hr : Registered a)
    (hnew : ∀ exprID mint s, op = .submit exprID mint s → exprID ∉ keysOf a.expressions) :
    Registered (step a tr op).1 := by
  cases op with
  | visit order =>
    show Registered (if order.Perm a.expressions then
      (({ a with expressions := order } : Application), tr) else (a, tr)).1
    by_cases hp : order.Perm a.expressions
    · rw [if_pos hp]
      have hperm := allPtrs_perm hp
      constructor
      · intro id hid
        obtain ⟨q, hq, hqid⟩ := hr.owned id hid
        exact ⟨q, hperm.mem_iff.2 hq, hqid⟩
      · intro q hq
        exact hr.registered q (hperm.mem_iff.1 hq)
    · rw [if_neg hp]
      exact hr
  | dispatch =>
    show Registered (dispatch a).2
    unfold dispatch
    rcases hq : a.taskQueue with _ | ⟨p, queue⟩
    · exact hr
    · exact ⟨hr.owned, hr.registered⟩
  | submit exprID mint s =>
    show Registered (addExpression a exprID mint s).2
    rcases addExpression_cases a exprID mint s with ⟨err, he⟩ | ⟨tasks, _, _, he⟩
    · rw [he]
      exact hr
    · rw [he]
      exact registered_submit a h hr exprID s tasks (hnew exprID mint s rfl)
  | result req =>
    show Registered (submitResult a req).2
    rcases submitResult_effect a req with ⟨_, he⟩ |
        ⟨k, key, expr, i, _, _, _, hexpr, _, hcur, ⟨p, hnext, he⟩ | ⟨hnext, he⟩⟩
    · rw [he]
      exact hr
    · rw [he]
      exact registered_rewrite a hr k key expr _ p i req.Result _ hexpr rfl
    · rw [he]
      exact registered_update a hr k key expr _ hexpr rfl

/-! ## New expression identifiers -/

theorem keysOf_step (a : Application) (tr : Trace) (op : Op) :
    (keysOf (step a tr op).1.expressions).Perm (keysOf a.expressions) ∨
    ∃ exprID mint s, op = .submit exprID mint s ∧ exprID ∉ keysOf a.expressions ∧
      keysOf (step a tr op).1.expressions = keysOf a.expressions ++ [exprID] := by
  cases op with
  | visit order =>
    left
    show (keysOf (if order.Perm a.expressions then
      (({ a with expressions := order } : Application), tr) else (a, tr)).1.expressions).Perm _
    by_cases hp : order.Perm a.expressions
    · rw [if_pos hp]
      exact hp.map _
    · rw [if_neg hp]
  | dispatch =>
    left
    show (keysOf (dispatch a).2.expressions).Perm _
    unfold dispatch
    rcases hq : a.taskQueue with _ | ⟨p, queue⟩
    · exact List.Perm.refl _
    · exact List.Perm.refl _
  | submit exprID mint s =>
    show (keysOf (addExpression a exprID mint s).2.expressions).Perm _ ∨ _
    rcases addExpression_cases a exprID mint s with ⟨err, he⟩ | ⟨tasks, _, _, he⟩
    · left
      rw [he]
    · by_cases hk : exprID ∈ keysOf a.expressions
      · left
        rw [he]
        dsimp only
        rw [keysOf_mapSet, if_pos hk]
      · right
        refine ⟨exprID, mint, s, rfl, hk, ?_⟩
        show keysOf (addExpression a exprID mint s).2.expressions = _
        rw [he]
        dsimp only
        rw [keysOf_mapSet, if_neg hk]
  | result req =>
    left
    show (keysOf (submitResult a req).2.expressions).Perm _
    rcases submitResult_effect a req with ⟨_, he⟩ |
        ⟨k, key, expr, i, _, _, _, hexpr, _, hcur, ⟨p, hnext, he⟩ | ⟨hnext, he⟩⟩
    · rw [he]
    · rw [he]
      dsimp only
      rw [keysOf_set (key, expr) (key, { expr with CurrentTaskIndex := (i : Int) + 1 }) rfl
        a.expressions k hexpr]
    · rw [he]
      dsimp only
      rw [keysOf_set (key, expr)
        (key, { expr with CurrentTaskIndex := (i : Int) + 1, Status := .StatusCompleted,
                          Result := some req.Result }) rfl a.expressions k hexpr]

theorem fresh_head (a : Application) (exprID : String) (mint : Nat → String) (s : String)
    (ops : List Op) (h : Fresh a (.submit exprID mint s :: ops)) :
    exprID ∉ keysOf a.expressions := by
  unfold Fresh at h
  rw [List.nodup_append] at h
  intro hm
  exact h.2.2 hm (by simp [submittedIDs])

theorem fresh_tail (a : Application) (op : Op) (ops : List Op) (h : Fresh a (op :: ops)) :
    Fresh a ops := by
  unfold Fresh at h ⊢
  cases op with
  | submit exprID mint s =>
    simp only [submittedIDs] at h
    exact h.sublist (List.Sublist.append_left (List.sublist_cons_self _ _) _)
  | dispatch => exact h
  | result req => exact h
  | visit order => exact h

theorem fresh_step (a : Application) (tr : Trace) (op : Op) (ops : List Op)
    (h : Fresh a (op :: ops)) : Fresh (step a tr op).1 ops := by
  rcases keysOf_step a tr op with hp | ⟨exprID, mint, s, hop, _, hk⟩
  · have := fresh_tail a op ops h
    unfold Fresh at this ⊢
    exact (hp.append_right _).nodup_iff.2 this
  · subst hop
    unfold Fresh at h ⊢
    rw [hk, List.append_assoc]
    simpa [submittedIDs] using h

theorem fresh_run :
    ∀ (ops1 ops2 : List Op) (a : Application) (tr : Trace), Fresh a (ops1 ++ ops2) →
      Fresh (run a tr ops1).1 ops2
  | [], _, _, _, h => h
  | op :: ops1, ops2, a, tr, h => fresh_run ops1 ops2 _ _ (fresh_step a tr op _ h)

theorem registered_run :
    ∀ (ops : List Op) (a : Application) (tr : Trace), Sound a → Registered a → Fresh a ops →
      Registered (run a tr ops).1
  | [], _, _, _, hr, _ => hr
  | op :: ops, a, tr, h, hr, hf =>
    registered_run ops _ _ (sound_step a tr op h)
      (registered_step a tr op h hr (fun exprID mint s e => by
        subst e
        exact fresh_head a exprID mint s ops hf))
      (fresh_step a tr op ops hf)

theorem fresh_New (config : Config) (ops : List Op) (h : (submittedIDs ops).Nodup) :
    Fresh (New config) ops := by
  unfold Fresh
  simpa [New, keysOf] using h

theorem taskIndex_none {heap : List Task} {id : String} :
    ∀ {ps : List Nat}, taskIndex heap id ps = none → ∀ p ∈ ps, (deref heap p).ID ≠ id
  | [], _, p, hp => by simp at hp
  | q :: ps, h, p, hp => by
    unfold taskIndex at h
    by_cases hq : (deref heap q).ID = id
    · simp [hq] at h
    · simp only [hq, if_false, Option.map_eq_none'] at h
      rcases List.mem_cons.1 hp with e | hp
      · rw [e]
        exact hq
      · exact taskIndex_none h p hp

theorem findExpression_none {heap : List Task} {id : String} :
    ∀ {es : List (String × Expression)}, findExpression heap id es = none →
      ∀ kv ∈ es, taskIndex heap id kv.2.Tasks = none
  | [], _, kv, hkv => by simp at hkv
  | (key, e) :: es, h, kv, hkv => by
    unfold findExpression at h
    by_cases ht : (taskIndex heap id e.Tasks).isSome
    · simp [ht] at h
    · simp only [ht, Bool.false_eq_true, if_false, Option.map_eq_none'] at h
      rcases List.mem_cons.1 hkv with e1 | hkv
      · subst e1
        simpa using ht
      · exact findExpression_none h kv hkv

/-- A submission whose identifier some stored chain has is never answered "Expression not
found". -/
theorem submitResult_owner (a : Application) (req : TaskResultRequest)
    (h : ∃ p ∈ allPtrs a.expressions, (deref a.heap p).ID = req.ID) :
    (∃ k key expr, findExpression a.heap req.ID a.expressions = some k ∧
      a.expressions[k]? = some (key, expr) ∧
      ∃ p ∈ expr.Tasks, (deref a.heap p).ID = req.ID) ∧
    (submitResult a req).1 ≠ .expressionNotFound := by
  obtain ⟨p, hp, hpid⟩ := h
  obtain ⟨kv, hkv, hpk⟩ := mem_allPtrs.1 hp
  rcases howner : findExpression a.heap req.ID a.expressions with _ | k
  · exact absurd hpid (taskIndex_none (findExpression_none howner kv hkv) p hpk)
  · obtain ⟨key, expr, hexpr, hsome⟩ := findExpression_spec howner
    obtain ⟨i, hpos⟩ := Option.isSome_iff_exists.1 hsome
    obtain ⟨q, hq, hqid⟩ := taskIndex_id hpos
    refine ⟨⟨k, key, expr, rfl, hexpr, q, List.mem_iff_getElem?.2 ⟨i, hq⟩, hqid⟩, ?_⟩
    cases hreg : mapHas a.tasks req.ID with
    | false => simp [submitResult, hreg]
    | true =>
      rw [submitResult_eq a req k key expr i hreg howner hexpr hpos]
      split
      · simp
      · split <;> simp

/-- C20: in every state reached from the empty coordinator, the expression identifiers
drawn by the submissions being pairwise distinct, the keys of the task registry are
exactly the identifiers of the tasks in the chains of the stored expressions; so for every
result submission whose identifier is in the registry the scan of the expression table
finds an expression that has a task with that identifier, and no result submission at all
is answered "Expression not found". -/
theorem C20_owner_exists (config : Config) (ops : List Op)
    (hnew : (submittedIDs ops).Nodup) :
    (∀ id, mapHas (run (New config) noTrace ops).1.tasks id = true ↔
      ∃ kv ∈ (run (New config) noTrace ops).1.expressions, ∃ p ∈ kv.2.Tasks,
        (deref (run (New config) noTrace ops).1.heap p).ID = id) ∧
    (∀ req : TaskResultRequest,
      mapHas (run (New config) noTrace ops).1.tasks req.ID = true →
      ∃ k key expr,
        findExpression (run (New config) noTrace ops).1.heap req.ID
          (run (New config) noTrace ops).1.expressions = some k ∧
        (run (New config) noTrace ops).1.expressions[k]? = some (key, expr) ∧
        ∃ p ∈ expr.Tasks, (deref (run (New config) noTrace ops).1.heap p).ID = req.ID) ∧
    (∀ req : TaskResultRequest,
      (giveTaskHandler (run (New config) noTrace ops).1 (.post (some req))).1 ≠
        .expressionNotFound) := by
  have hr := registered_run ops (New config) noTrace (sound_New config)
    (registered_New config) (fresh_New config ops hnew)
  generalize (run (New config) noTrace ops).1 = a at hr
  refine ⟨?_, ?_, ?_⟩
  · intro id
    constructor
    · intro hid
      obtain ⟨p, hp, hpid⟩ := hr.owned id hid
      obtain ⟨kv, hkv, hpk⟩ := mem_allPtrs.1 hp
      exact ⟨kv, hkv, p, hpk, hpid⟩
    · rintro ⟨kv, hkv, p, hpk, hpid⟩
      rw [← hpid]
      exact hr.registered p (mem_allPtrs.2 ⟨kv, hkv, hpk⟩)
  · intro req hreg
    exact (submitResult_owner a req (hr.owned req.ID hreg)).1
  · intro req
    show (submitResult a req).1 ≠ .expressionNotFound
    cases hreg : mapHas a.tasks req.ID with
    | false => simp [submitResult, hreg]
    | true => exact (submitResult_owner a req (hr.owned req.ID hreg)).2

/-- Witness for C20 on the execution `sampleOps`: at its end the registry has `t0` and
`t1`, and a submission for `t0` is answered "not the current one". -/
theorem C20_owner_exists_witness :
    (submittedIDs sampleOps).Nodup ∧
    mapHas (run (New defaultConfig) noTrace sampleOps).1.tasks "t0" = true ∧
    (giveTaskHandler (run (New defaultConfig) noTrace sampleOps).1
      (.post (some { ID := "t0", Result := .ofNat 3 }))).1 ≠ .expressionNotFound :=
  ⟨by decide, by decide,
    (C20_owner_exists defaultConfig sampleOps (by decide)).2.2 { ID := "t0", Result := .ofNat 3 }⟩

/-! ## Lookups in the expression table -/

theorem mapGet_mem {β : Type} {k : String} {v : β} :
    ∀ {m : List (String × β)}, mapGet m k = some v → (k, v) ∈ m
  | [], h => by simp [mapGet] at h
  | (k1, v1) :: m, h => by
    unfold mapGet at h
    by_cases hk : k1 = k
    · simp only [hk, if_true, Option.some.injEq] at h
      subst hk
      subst h
      exact List.mem_cons_self _ _
    · simp only [hk, if_false] at h
      exact List.mem_cons_of_mem _ (mapGet_mem h)

theorem mapGet_of_mem {k : String} {e : Expression} :
    ∀ {es : List (String × Expression)}, (keysOf es).Nodup → (k, e) ∈ es →
      mapGet es k = some e
  | [], _, h => by simp at h
  | (k1, v1) :: es, hn, h => by
    simp only [keysOf, List.map_cons, List.nodup_cons] at hn
    unfold mapGet
    rcases List.mem_cons.1 h with h1 | h1
    · injection h1 with h2 h3
      subst h2
      subst h3
      simp
    · have hne : k1 ≠ k := by
        intro hc
        subst hc
        exact hn.1 (List.mem_map.2 ⟨(k1, e), h1, rfl⟩)
      rw [if_neg hne]
      exact mapGet_of_mem hn.2 h1

theorem mapGet_mapSet_ne {β : Type} (k key : String) (v : β) (h : k ≠ key) :
    ∀ m : List (String × β), mapGet (mapSet m k v) key = mapGet m key
  | [] => by simp [mapSet, mapGet, h]
  | (k1, v1) :: m => by
    unfold mapSet
    by_cases hk : k1 = k
    · subst hk
      simp [mapGet, h]
    · simp only [hk, if_false, mapGet, mapGet_mapSet_ne k key v h m]

theorem mem_set_of_ne {α : Type} {y z x : α} {k : Nat} :
    ∀ {l : List α}, y ∈ l → l[k]? = some z → y ≠ z → y ∈ l.set k x := by
  intro l hy hk hne
  obtain ⟨j, hj⟩ := List.mem_iff_getElem?.1 hy
  have hjk : k ≠ j := by
    intro e
    subst e
    rw [hk] at hj
    injection hj with hj
    exact hne hj.symm
  exact List.mem_iff_getElem?.2 ⟨j, by rw [List.getElem?_set_ne hjk]; exact hj⟩

theorem chain_unique {p : Nat} {kv1 kv2 : String × Expression} :
    ∀ {es : List (String × Expression)}, (allPtrs es).Nodup → kv1 ∈ es → kv2 ∈ es →
      p ∈ kv1.2.Tasks → p ∈ kv2.2.Tasks → kv1 = kv2
  | [], _, h, _, _, _ => by simp at h
  | kv :: es, hn, h1, h2, hp1, hp2 => by
    simp only [allPtrs, List.nodup_append] at hn
    rcases List.mem_cons.1 h1 with e1 | e1 <;> rcases List.mem_cons.1 h2 with e2 | e2
    · rw [e1, e2]
    · subst e1
      exact absurd (mem_allPtrs.2 ⟨kv2, e2, hp2⟩) (fun hc => hn.2.2 hp1 hc)
    · subst e2
      exact absurd (mem_allPtrs.2 ⟨kv1, e1, hp1⟩) (fun hc => hn.2.2 hp2 hc)
    · exact chain_unique hn.2.1 e1 e2 hp1 hp2

theorem chain_nodup {kv : String × Expression} :
    ∀ {es : List (String × Expression)}, (allPtrs es).Nodup → kv ∈ es → kv.2.Tasks.Nodup
  | [], _, h => by simp at h
  | kv1 :: es, hn, h => by
    simp only [allPtrs, List.nodup_append] at hn
    rcases List.mem_cons.1 h with e1 | e1
    · rw [e1]
      exact hn.1
    · exact chain_nodup hn.2.1 e1

/-! ## Expressions that are complete -/

/-- An expression whose index is past the end of its chain is left as it is by every
operation that does not overwrite its key, and so are its tasks. -/
theorem terminal_step (a : Application) (tr : Trace) (op : Op) (h : Sound a) (key : String)
    (e : Expression) (hget : mapGet a.expressions key = some e)
    (hend : (e.Tasks.length : Int) ≤ e.CurrentTaskIndex)
    (hop : ∀ exprID mint s, op = .submit exprID mint s → exprID ≠ key) :
    mapGet (step a tr op).1.expressions key = some e ∧
      ∀ p ∈ e.Tasks, deref (step a tr op).1.heap p = deref a.heap p := by
  have hmem : (key, e) ∈ a.expressions := mapGet_mem hget
  have hbound : ∀ p ∈ e.Tasks, p < a.heap.length :=
    fun p hp => h.chain_bound p (mem_allPtrs.2 ⟨(key, e), hmem, hp⟩)
  cases op with
  | visit order =>
    show mapGet (if order.Perm a.expressions then
        (({ a with expressions := order } : Application), tr) else (a, tr)).1.expressions key =
        some e ∧
      ∀ p ∈ e.Tasks, deref (if order.Perm a.expressions then
        (({ a with expressions := order } : Application), tr) else (a, tr)).1.heap p =
        deref a.heap p
    by_cases hp : order.Perm a.expressions
    · rw [if_pos hp]
      refine ⟨mapGet_of_mem ((hp.map _).nodup_iff.2 h.keys_nodup) (hp.mem_iff.2 hmem), ?_⟩
      intro p _
      rfl
    · rw [if_neg hp]
      exact ⟨hget, fun p _ => rfl⟩
  | dispatch =>
    show mapGet (dispatch a).2.expressions key = some e ∧
      ∀ p ∈ e.Tasks, deref (dispatch a).2.heap p = deref a.heap p
    unfold dispatch
    rcases hq : a.taskQueue with _ | ⟨p, queue⟩
    · exact ⟨hget, fun p _ => rfl⟩
    · exact ⟨hget, fun p _ => rfl⟩
  | submit exprID mint s =>
    show mapGet (addExpression a exprID mint s).2.expressions key = some e ∧
      ∀ p ∈ e.Tasks, deref (addExpression a exprID mint s).2.heap p = deref a.heap p
    rcases addExpression_cases a exprID mint s with ⟨err, he⟩ | ⟨tasks, _, _, he⟩
    · rw [he]
      exact ⟨hget, fun p _ => rfl⟩
    · rw [he]
      dsimp only
      refine ⟨?_, fun p hp => deref_append _ _ _ (hbound p hp)⟩
      rw [mapGet_mapSet_ne exprID key _ (hop exprID mint s rfl)]
      exact hget
  | result req =>
    show mapGet (submitResult a req).2.expressions key = some e ∧
      ∀ p ∈ e.Tasks, deref (submitResult a req).2.heap p = deref a.heap p
    rcases submitResult_effect a req with ⟨_, he⟩ |
        ⟨k, key1, expr, i, _, _, _, hexpr, hpos, hcur, hcase⟩
    · rw [he]
      exact ⟨hget, fun p _ => rfl⟩
    · have hmem1 : (key1, expr) ∈ a.expressions := List.mem_iff_getElem?.2 ⟨k, hexpr⟩
      have hne : key1 ≠ key := by
        intro hc
        subst hc
        have := mapGet_of_mem h.keys_nodup hmem1
        rw [hget] at this
        injection this with this
        subst this
        have := taskIndex_lt hpos
        omega
      have hne2 : (key, e) ≠ (key1, expr) := by
        intro hc
        injection hc with hc _
        exact hne hc.symm
      have hkeep : ∀ expr1 : Expression,
          mapGet (a.expressions.set k (key1, expr1)) key = some e := by
        intro expr1
        apply mapGet_of_mem
        · rw [keysOf_set (key1, expr) (key1, expr1) rfl a.expressions k hexpr]
          exact h.keys_nodup
        · exact mem_set_of_ne hmem hexpr hne2
      rcases hcase with ⟨p, hnext, he⟩ | ⟨hnext, he⟩
      · rw [he]
        dsimp only
        refine ⟨hkeep _, ?_⟩
        intro q hq
        have hp1 : p ∈ expr.Tasks := List.mem_iff_getElem?.2 ⟨i + 1, hnext⟩
        have hp : p < a.heap.length :=
          h.chain_bound p (mem_allPtrs.2 ⟨(key1, expr), hmem1, hp1⟩)
        have hqp : q ≠ p := by
          intro hc
          subst hc
          exact hne2 (chain_unique h.chains_nodup hmem hmem1 hq hp1)
        rw [deref_set _ _ _ _ hp, if_neg hqp]
      · rw [he]
        dsimp only
        exact ⟨hkeep _, fun p _ => rfl⟩

theorem terminal_run :
    ∀ (ops : List Op) (a : Application) (tr : Trace), Sound a → ∀ (key : String)
      (e : Expression), mapGet a.expressions key = some e →
      (e.Tasks.length : Int) ≤ e.CurrentTaskIndex → key ∉ submittedIDs ops →
      mapGet (run a tr ops).1.expressions key = some e ∧
        ∀ p ∈ e.Tasks, deref (run a tr ops).1.heap p = deref a.heap p
  | [], _, _, _, _, _, hget, _, _ => ⟨hget, fun _ _ => rfl⟩
  | op :: ops, a, tr, h, key, e, hget, hend, hnot => by
    have hop : ∀ exprID mint s, op = .submit exprID mint s → exprID ≠ key := by
      intro exprID mint s hc hk
      subst hc
      subst hk
      exact hnot (by simp [submittedIDs])
    have hnot1 : key ∉ submittedIDs ops := by
      intro hc
      apply hnot
      cases op <;> simp [submittedIDs, hc]
    obtain ⟨h1, h2⟩ := terminal_step a tr op h key e hget hend hop
    obtain ⟨h3, h4⟩ := terminal_run ops _ _ (sound_step a tr op h) key e h1 hend hnot1
    refine ⟨h3, fun p hp => ?_⟩
    rw [run, h4 p hp, h2 p hp]

theorem run_append :
    ∀ (ops1 ops2 : List Op) (a : Application) (tr : Trace),
      run a tr (ops1 ++ ops2) = run (run a tr ops1).1 (run a tr ops1).2 ops2
  | [], _, _, _ => rfl
  | op :: ops1, ops2, a, tr => by
    rw [List.cons_append, run, run, run_append ops1 ops2]

/-- C12: in an execution from the empty coordinator in which the expression identifiers
drawn by the submissions are pairwise distinct, once an expression is `Completed` (or
`Failed`, a status that no state of an execution has), every later sequence of
operations (expression submissions, dispatches, result submissions with any identifier
and value, visits of the expression map) leaves its record as it is, the status, the
result, the current index and the chain, and leaves every task of its chain as it is,
operands included; the two queries change no state at all. -/
theorem C12_terminal_stays (config : Config) (ops1 ops2 : List Op) (key : String)
    (e : Expression)
    (hnew : (submittedIDs (ops1 ++ ops2)).Nodup)
    (hget : mapGet (run (New config) noTrace ops1).1.expressions key = some e)
    (hterm : e.Status = .StatusCompleted ∨ e.Status = .StatusFailed) :
    mapGet (run (New config) noTrace (ops1 ++ ops2)).1.expressions key = some e ∧
    (∀ p ∈ e.Tasks,
      deref (run (New config) noTrace (ops1 ++ ops2)).1.heap p =
        deref (run (New config) noTrace ops1).1.heap p) ∧
    (∀ (b : Application) (id : String),
      (ExpressionsHandler b).2 = b ∧ (ExpressionHandler b id).2 = b) := by
  have hs := sound_run ops1 (New config) noTrace (sound_New config)
  have hf := fresh_run ops1 ops2 (New config) noTrace (fresh_New config _ hnew)
  rw [run_append]
  generalize (run (New config) noTrace ops1).2 = tr1
  generalize (run (New config) noTrace ops1).1 = a at hs hf hget
  have hmem := mapGet_mem hget
  have hst := hs.status (key, e) hmem
  have hend : (e.Tasks.length : Int) ≤ e.CurrentTaskIndex := by
    rcases hterm with hc | hc
    · exact hst.2 hc
    · exact absurd hc hst.1
  have hnot : key ∉ submittedIDs ops2 := by
    unfold Fresh at hf
    rw [List.nodup_append] at hf
    intro hc
    exact hf.2.2 (List.mem_map.2 ⟨(key, e), hmem, rfl⟩) hc
  obtain ⟨h1, h2⟩ := terminal_run ops2 a tr1 hs key e hget hend hnot
  exact ⟨h1, h2, fun b id => ⟨rfl, rfl⟩⟩

/-- Witness for C12: after `sampleOps` the expression `( 1 + 2 ) * 3` is `Completed` with
the result 9; a further result for `t1`, a dispatch and the submission of another
expression leave it so. -/
theorem C12_terminal_stays_witness :
    mapGet (run (New defaultConfig) noTrace
      (sampleOps ++ [.result { ID := "t1", Result := .ofNat 7 }, .dispatch,
        .submit "f" sampleMint "4 - 1"])).1.expressions "e" =
      some { ID := "e", Expression := "( 1 + 2 ) * 3", Status := .StatusCompleted,
             Result := some (.ofNat 9), Tasks := [0, 1], CurrentTaskIndex := 2 } :=
  (C12_terminal_stays defaultConfig sampleOps
    [.result { ID := "t1", Result := .ofNat 7 }, .dispatch, .submit "f" sampleMint "4 - 1"]
    "e"
    { ID := "e", Expression := "( 1 + 2 ) * 3", Status := .StatusCompleted,
      Result := some (.ofNat 9), Tasks := [0, 1], CurrentTaskIndex := 2 }
    (by decide) (by decide) (Or.inl rfl)).1

/-! ## A result is applied once -/

theorem ptr_inj (heap : List Task) (hn : (heap.map (fun t => t.ID)).Nodup) (x y : Nat)
    (hx : x < heap.length) (hy : y < heap.length)
    (h : (deref heap x).ID = (deref heap y).ID) : x = y := by
  have hx2 : x < (heap.map (fun t => t.ID)).length := by simpa using hx
  have hinj0 : (heap.map (fun t => t.ID))[x]? = (heap.map (fun t => t.ID))[y]? → x = y :=
    List.getElem?_inj hx2 hn
  apply hinj0
  rw [List.getElem?_map, List.getElem?_map, getElem?_deref heap x hx, getElem?_deref heap y hy]
  simp [h]

/-- No operation shortens the heap, changes the identifier of a task or removes a key of
the registry. -/
theorem mono_step (a : Application) (tr : Trace) (op : Op) :
    a.heap.length ≤ (step a tr op).1.heap.length ∧
    (∀ p, p < a.heap.length → (deref (step a tr op).1.heap p).ID = (deref a.heap p).ID) ∧
    (∀ id, mapHas a.tasks id = true → mapHas (step a tr op).1.tasks id = true) := by
  cases op with
  | visit order =>
    show a.heap.length ≤ (if order.Perm a.expressions then
        (({ a with expressions := order } : Application), tr) else (a, tr)).1.heap.length ∧
      (∀ p, p < a.heap.length → (deref (if order.Perm a.expressions then
        (({ a with expressions := order } : Application), tr) else (a, tr)).1.heap p).ID =
          (deref a.heap p).ID) ∧
      (∀ id, mapHas a.tasks id = true → mapHas (if order.Perm a.expressions then
        (({ a with expressions := order } : Application), tr) else (a, tr)).1.tasks id = true)
    by_cases hp : order.Perm a.expressions
    · rw [if_pos hp]
      exact ⟨le_refl _, fun _ _ => rfl, fun _ h => h⟩
    · rw [if_neg hp]
      exact ⟨le_refl _, fun _ _ => rfl, fun _ h => h⟩
  | dispatch =>
    show a.heap.length ≤ (dispatch a).2.heap.length ∧
      (∀ p, p < a.heap.length → (deref (dispatch a).2.heap p).ID = (deref a.heap p).ID) ∧
      (∀ id, mapHas a.tasks id = true → mapHas (dispatch a).2.tasks id = true)
    unfold dispatch
    rcases hq : a.taskQueue with _ | ⟨p, queue⟩
    · exact ⟨le_refl _, fun _ _ => rfl, fun _ h => h⟩
    · exact ⟨le_refl _, fun _ _ => rfl, fun _ h => h⟩
  | submit exprID mint s =>
    show a.heap.length ≤ (addExpression a exprID mint s).2.heap.length ∧
      (∀ p, p < a.heap.length →
        (deref (addExpression a exprID mint s).2.heap p).ID = (deref a.heap p).ID) ∧
      (∀ id, mapHas a.tasks id = true →
        mapHas (addExpression a exprID mint s).2.tasks id = true)
    rcases addExpression_cases a exprID mint s with ⟨err, he⟩ | ⟨tasks, _, _, he⟩
    · rw [he]
      exact ⟨le_refl _, fun _ _ => rfl, fun _ h => h⟩
    · rw [he]
      dsimp only
      refine ⟨by rw [List.length_append]; omega, ?_, ?_⟩
      · intro p hp
        rw [deref_append _ _ _ hp]
      · intro id hid
        rw [mapHas_registerTasks, hid, Bool.true_or]
  | result req =>
    show a.heap.length ≤ (submitResult a req).2.heap.length ∧
      (∀ p, p < a.heap.length →
        (deref (submitResult a req).2.heap p).ID = (deref a.heap p).ID) ∧
      (∀ id, mapHas a.tasks id = true → mapHas (submitResult a req).2.tasks id = true)
    rcases submitResult_effect a req with ⟨_, he⟩ |
        ⟨k, key1, expr, i, _, _, _, hexpr, hpos, hcur, ⟨p, hnext, he⟩ | ⟨hnext, he⟩⟩
    · rw [he]
      exact ⟨le_refl _, fun _ _ => rfl, fun _ h => h⟩
    · rw [he]
      dsimp only
      refine ⟨by rw [List.length_set], fun q _ => deref_set_id _ _ _ _ _, fun _ h => h⟩
    · rw [he]
      exact ⟨le_refl _, fun _ _ => rfl, fun _ h => h⟩

/-- The index of an expression never goes back, and its chain stays the same, under every
operation that does not overwrite its key. -/
theorem later_step (a : Application) (tr : Trace) (op : Op) (h : Sound a) (key : String)
    (chain : List Nat) (i : Nat)
    (hlater : ∃ e, mapGet a.expressions key = some e ∧ e.Tasks = chain ∧
      (i : Int) < e.CurrentTaskIndex)
    (hop : ∀ exprID mint s, op = .submit exprID mint s → exprID ≠ key) :
    ∃ e, mapGet (step a tr op).1.expressions key = some e ∧ e.Tasks = chain ∧
      (i : Int) < e.CurrentTaskIndex := by
  obtain ⟨e, hget, hchain, hidx⟩ := hlater
  have hmem : (key, e) ∈ a.expressions := mapGet_mem hget
  cases op with
  | visit order =>
    show ∃ e, mapGet (if order.Perm a.expressions then
        (({ a with expressions := order } : Application), tr) else (a, tr)).1.expressions key =
        some e ∧ e.Tasks = chain ∧ (i : Int) < e.CurrentTaskIndex
    by_cases hp : order.Perm a.expressions
    · rw [if_pos hp]
      exact ⟨e, mapGet_of_mem ((hp.map _).nodup_iff.2 h.keys_nodup) (hp.mem_iff.2 hmem),
        hchain, hidx⟩
    · rw [if_neg hp]
      exact ⟨e, hget, hchain, hidx⟩
  | dispatch =>
    show ∃ e, mapGet (dispatch a).2.expressions key = some e ∧ e.Tasks = chain ∧
      (i : Int) < e.CurrentTaskIndex
    unfold dispatch
    rcases hq : a.taskQueue with _ | ⟨p, queue⟩
    · exact ⟨e, hget, hchain, hidx⟩
    · exact ⟨e, hget, hchain, hidx⟩
  | submit exprID mint s =>
    show ∃ e, mapGet (addExpression a exprID mint s).2.expressions key = some e ∧
      e.Tasks = chain ∧ (i : Int) < e.CurrentTaskIndex
    rcases addExpression_cases a exprID mint s with ⟨err, he⟩ | ⟨tasks, _, _, he⟩
    · rw [he]
      exact ⟨e, hget, hchain, hidx⟩
    · rw [he]
      dsimp only
      refine ⟨e, ?_, hchain, hidx⟩
      rw [mapGet_mapSet_ne exprID key _ (hop exprID mint s rfl)]
      exact hget
  | result req =>
    show ∃ e, mapGet (submitResult a req).2.expressions key = some e ∧ e.Tasks = chain ∧
      (i : Int) < e.CurrentTaskIndex
    rcases submitResult_effect a req with ⟨_, he⟩ |
        ⟨k, key1, expr, i1, _, _, _, hexpr, hpos, hcur, hcase⟩
    · rw [he]
      exact ⟨e, hget, hchain, hidx⟩
    · have hmem1 : (key1, expr) ∈ a.expressions := List.mem_iff_getElem?.2 ⟨k, hexpr⟩
      have hk : k < a.expressions.length := by
        by_contra hc
        rw [List.getElem?_eq_none (by omega)] at hexpr
        cases hexpr
      have hnodup : ∀ expr1 : Expression,
          (keysOf (a.expressions.set k (key1, expr1))).Nodup := by
        intro expr1
        rw [keysOf_set (key1, expr) (key1, expr1) rfl a.expressions k hexpr]
        exact h.keys_nodup
      have hself : ∀ expr1 : Expression,
          (key1, expr1) ∈ a.expressions.set k (key1, expr1) := by
        intro expr1
        exact List.mem_iff_getElem?.2 ⟨k, List.getElem?_set_self hk⟩
      by_cases hkey : key1 = key
      · subst hkey
        have hee := mapGet_of_mem h.keys_nodup hmem1
        rw [hget] at hee
        injection hee with hee
        subst hee
        rcases hcase with ⟨p, hnext, he⟩ | ⟨hnext, he⟩
        · rw [he]
          dsimp only
          refine ⟨_, mapGet_of_mem (hnodup _) (hself _), hchain, ?_⟩
          dsimp only
          omega
        · rw [he]
          dsimp only
          refine ⟨_, mapGet_of_mem (hnodup _) (hself _), hchain, ?_⟩
          dsimp only
          omega
      · have hne2 : (key, e) ≠ (key1, expr) := by
          intro hc
          injection hc with hc _
          exact hkey hc.symm
        have hkeep : ∀ expr1 : Expression,
            mapGet (a.expressions.set k (key1, expr1)) key = some e :=
          fun expr1 => mapGet_of_mem (hnodup expr1) (mem_set_of_ne hmem hexpr hne2)
        rcases hcase with ⟨p, hnext, he⟩ | ⟨hnext, he⟩
        · rw [he]
          exact ⟨e, hkeep _, hchain, hidx⟩
        · rw [he]
          exact ⟨e, hkeep _, hchain, hidx⟩

theorem later_run :
    ∀ (ops : List Op) (a : Application) (tr : Trace), Sound a → ∀ (key : String)
      (chain : List Nat) (i p : Nat) (id : String),
      (∃ e, mapGet a.expressions key = some e ∧ e.Tasks = chain ∧
        (i : Int) < e.CurrentTaskIndex) →
      p < a.heap.length → (deref a.heap p).ID = id → mapHas a.tasks id = true →
      key ∉ submittedIDs ops →
      (∃ e, mapGet (run a tr ops).1.expressions key = some e ∧ e.Tasks = chain ∧
        (i : Int) < e.CurrentTaskIndex) ∧
      (deref (run a tr ops).1.heap p).ID = id ∧ mapHas (run a tr ops).1.tasks id = true
  | [], _, _, _, _, _, _, _, _, hl, _, hid, hreg, _ => ⟨hl, hid, hreg⟩
  | op :: ops, a, tr, h, key, chain, i, p, id, hl, hp, hid, hreg, hnot => by
    have hop : ∀ exprID mint s, op = .submit exprID mint s → exprID ≠ key := by
      intro exprID mint s hc hk
      subst hc
      subst hk
      exact hnot (by simp [submittedIDs])
    have hnot1 : key ∉ submittedIDs ops := by
      intro hc
      apply hnot
      cases op <;> simp [submittedIDs, hc]
    obtain ⟨m1, m2, m3⟩ := mono_step a tr op
    rw [run]
    exact later_run ops _ _ (sound_step a tr op h) key chain i p id
      (later_step a tr op h key chain i hl hop) (by omega) (by rw [m2 p hp]; exact hid)
      (m3 id hreg) hnot1

/-- A submission for a task that lies before the current index of its expression is
refused as "not the current one", when the identifiers of the tasks are distinct. -/
theorem resubmit_rejected (b : Application) (h : Sound b)
    (hmint : (b.heap.map (fun t => t.ID)).Nodup) (key : String) (e : Expression)
    (i p : Nat) (req : TaskResultRequest)
    (hget : mapGet b.expressions key = some e) (hpos : e.Tasks[i]? = some p)
    (hid : (deref b.heap p).ID = req.ID) (hidx : (i : Int) < e.CurrentTaskIndex)
    (hreg : mapHas b.tasks req.ID = true) :
    submitResult b req = (.taskNotCurrent, b) := by
  have hmem : (key, e) ∈ b.expressions := mapGet_mem hget
  have hpe : p ∈ e.Tasks := List.mem_iff_getElem?.2 ⟨i, hpos⟩
  have hpb : p < b.heap.length := h.chain_bound p (mem_allPtrs.2 ⟨(key, e), hmem, hpe⟩)
  obtain ⟨⟨k, key2, expr2, howner, hexpr, q, hq, hqid⟩, _⟩ :=
    submitResult_owner b req ⟨p, mem_allPtrs.2 ⟨(key, e), hmem, hpe⟩, hid⟩
  have hmem2 : (key2, expr2) ∈ b.expressions := List.mem_iff_getElem?.2 ⟨k, hexpr⟩
  have hqb : q < b.heap.length := h.chain_bound q (mem_allPtrs.2 ⟨(key2, expr2), hmem2, hq⟩)
  have hqp : q = p := ptr_inj b.heap hmint q p hqb hpb (by rw [hqid, hid])
  subst hqp
  have hsame : (key2, expr2) = (key, e) := chain_unique h.chains_nodup hmem2 hmem hq hpe
  injection hsame with hk he
  subst hk
  subst he
  have hsome2 : (taskIndex b.heap req.ID expr2.Tasks).isSome := by
    obtain ⟨key3, expr3, h3, h4⟩ := findExpression_spec howner
    rw [hexpr] at h3
    injection h3 with h3
    injection h3 with _ h3
    rw [h3]
    exact h4
  obtain ⟨i2, hpos2⟩ := Option.isSome_iff_exists.1 hsome2
  obtain ⟨q2, hq2, hq2id⟩ := taskIndex_id hpos2
  have hq2e : q2 ∈ expr2.Tasks := List.mem_iff_getElem?.2 ⟨i2, hq2⟩
  have hq2b : q2 < b.heap.length :=
    h.chain_bound q2 (mem_allPtrs.2 ⟨(key2, expr2), hmem2, hq2e⟩)
  have hq2p : q2 = q := ptr_inj b.heap hmint q2 q hq2b hpb (by rw [hq2id, hid])
  subst hq2p
  have hii : i2 = i :=
    List.getElem?_inj (taskIndex_lt hpos2) (chain_nodup h.chains_nodup hmem2)
      (by rw [hq2, hpos])
  subst hii
  rw [submitResult_eq b req k key2 expr2 i2 hreg howner hexpr hpos2, if_pos (by omega)]

/-- C11: in every execution from the empty coordinator in which the identifiers drawn for
tasks are pairwise distinct and so are those drawn for expressions, once a result
submission for a task identifier was accepted, a submission for the same identifier,
made at once or after any further sequence of operations and whatever result it carries,
is answered "Task is not the current one" and leaves the state as it is. -/
theorem C11_applied_once (config : Config) (ops1 ops2 : List Op) (req : TaskResultRequest)
    (again : Float64)
    (hmint :
      ((run (New config) noTrace (ops1 ++ .result req :: ops2)).1.heap.map
        (fun t => t.ID)).Nodup)
    (hnew : (submittedIDs (ops1 ++ .result req :: ops2)).Nodup)
    (hacc : (giveTaskHandler (run (New config) noTrace ops1).1 (.post (some req))).1 = .ok) :
    giveTaskHandler (run (New config) noTrace (ops1 ++ .result req :: ops2)).1
        (.post (some { ID := req.ID, Result := again })) =
      (.taskNotCurrent, (run (New config) noTrace (ops1 ++ .result req :: ops2)).1) := by
  have hs := sound_run ops1 (New config) noTrace (sound_New config)
  have hf := fresh_run ops1 (.result req :: ops2) (New config) noTrace
    (fresh_New config _ hnew)
  rw [run_append] at hmint ⊢
  generalize (run (New config) noTrace ops1).2 = tr1 at hmint ⊢
  generalize (run (New config) noTrace ops1).1 = a at hs hf hacc hmint ⊢
  rw [run] at hmint ⊢
  have hs1 := sound_step a tr1 (.result req) hs
  obtain ⟨m1, m2, m3⟩ := mono_step a tr1 (.result req)
  have hstate : (step a tr1 (.result req)).1 = (submitResult a req).2 := rfl
  change (submitResult a req).1 = .ok at hacc
  rcases submitResult_effect a req with ⟨hno, _⟩ |
      ⟨k, key, expr, i, _, hreg, _, hexpr, hpos, hcur, hcase⟩
  · exact absurd hacc hno
  · have hmem : (key, expr) ∈ a.expressions := List.mem_iff_getElem?.2 ⟨k, hexpr⟩
    have hk : k < a.expressions.length := by
      by_contra hc
      rw [List.getElem?_eq_none (by omega)] at hexpr
      cases hexpr
    obtain ⟨p, hp, hpid⟩ := taskIndex_id hpos
    have hpb : p < a.heap.length :=
      hs.chain_bound p (mem_allPtrs.2 ⟨(key, expr), hmem, List.mem_iff_getElem?.2 ⟨i, hp⟩⟩)
    have hlater : ∃ e, mapGet (step a tr1 (.result req)).1.expressions key = some e ∧
        e.Tasks = expr.Tasks ∧ (i : Int) < e.CurrentTaskIndex := by
      have hkn := hs1.keys_nodup
      rw [hstate] at hkn ⊢
      rcases hcase with ⟨q, hnext, he⟩ | ⟨hnext, he⟩
      · rw [he] at hkn ⊢
        dsimp only at hkn ⊢
        refine ⟨_, mapGet_of_mem hkn
          (List.mem_iff_getElem?.2 ⟨k, List.getElem?_set_self hk⟩), rfl, ?_⟩
        dsimp only
        omega
      · rw [he] at hkn ⊢
        dsimp only at hkn ⊢
        refine ⟨_, mapGet_of_mem hkn
          (List.mem_iff_getElem?.2 ⟨k, List.getElem?_set_self hk⟩), rfl, ?_⟩
        dsimp only
        omega
    have hnot : key ∉ submittedIDs ops2 := by
      unfold Fresh at hf
      rw [List.nodup_append] at hf
      intro hc
      exact hf.2.2 (List.mem_map.2 ⟨(key, expr), hmem, rfl⟩) (by simpa [submittedIDs] using hc)
    obtain ⟨⟨e, hget, hchain, hidx⟩, hid, hreg2⟩ :=
      later_run ops2 (step a tr1 (.result req)).1 (step a tr1 (.result req)).2 hs1 key
        expr.Tasks i p req.ID hlater (by omega) (by rw [m2 p hpb]; exact hpid) (m3 _ hreg)
        hnot
    have hsb := sound_run ops2 (step a tr1 (.result req)).1 (step a tr1 (.result req)).2 hs1
    exact resubmit_rejected _ hsb hmint key e i p { ID := req.ID, Result := again } hget
      (by rw [hchain]; exact hp) hid hidx hreg2

/-- Witness for C11: in the execution `sampleOps` the result 3 for `t0` is accepted after
the first dispatch; at the end of the execution, and also right after the acceptance, a
second result for `t0` is refused. -/
theorem C11_applied_once_witness :
    (giveTaskHandler
      (run (New defaultConfig) noTrace [.submit "e" sampleMint "( 1 + 2 ) * 3", .dispatch]).1
      (.post (some { ID := "t0", Result := .ofNat 3 }))).1 = .ok ∧
    (giveTaskHandler
      (run (New defaultConfig) noTrace
        ([.submit "e" sampleMint "( 1 + 2 ) * 3", .dispatch] ++
          .result { ID := "t0", Result := .ofNat 3 } ::
            [.visit sampleState.expressions, .dispatch,
              .result { ID := "t1", Result := .ofNat 9 }, .dispatch])).1
      (.post (some { ID := "t0", Result := .ofNat 5 }))).1 = .taskNotCurrent :=
  ⟨by decide,
    congrArg Prod.fst
      (C11_applied_once defaultConfig [.submit "e" sampleMint "( 1 + 2 ) * 3", .dispatch]
        [.visit sampleState.expressions, .dispatch,
          .result { ID := "t1", Result := .ofNat 9 }, .dispatch]
        { ID := "t0", Result := .ofNat 3 } (.ofNat 5) (by decide) (by decide) (by decide))⟩

/-! ## The first task of a chain -/

/-- The loop of `buildTasksFromRPN` only appends to the tasks it has. -/
theorem buildLoop_extends (config : Config) (mint : Nat → String) :
    ∀ (tokens : List String) (tasks : List Task) (stack : List String) (n : Nat)
      (res : List Task), buildLoop config mint tokens tasks stack n = .ok res →
      ∃ news, res = tasks ++ news
  | [], tasks, stack, n, res, h => by
    rw [buildLoop] at h
    split at h
    · cases h
    · injection h with h
      exact ⟨[], by rw [List.append_nil, h]⟩
  | token :: tokens, tasks, stack, n, res, h => by
    by_cases hnum : isNumeric token = true
    · rw [buildLoop_numeric _ _ _ _ _ _ _ hnum] at h
      exact buildLoop_extends config mint tokens tasks (token :: stack) n res h
    · have hnum0 : isNumeric token = false := by simpa using hnum
      by_cases hop : isOperator token = true
      · rcases stack with _ | ⟨op2, _ | ⟨op1, stack1⟩⟩
        · simp [buildLoop, hnum0, hop] at h
        · simp [buildLoop, hnum0, hop] at h
        · rw [buildLoop_operator _ _ _ _ _ _ _ _ _ hnum0 hop] at h
          obtain ⟨news, hn⟩ := buildLoop_extends config mint tokens _ _ _ res h
          exact ⟨_ :: news, by rw [hn, List.append_assoc, List.singleton_append]⟩
      · have hop0 : isOperator token = false := by simpa using hop
        rcases stack with _ | ⟨op2, _ | ⟨op1, stack1⟩⟩ <;>
          simp [buildLoop, hnum0, hop0] at h

/-- While no task exists, the working stack of `buildTasksFromRPN` holds numeric tokens
only; so the first task created, if any, has two numeric operands. -/
theorem buildLoop_first (config : Config) (mint : Nat → String) :
    ∀ (tokens : List String) (stack : List String) (n : Nat) (res : List Task),
      (∀ x ∈ stack, isNumeric x = true) →
      buildLoop config mint tokens [] stack n = .ok res →
      res = [] ∨ firstTaskReady res = true
  | [], stack, n, res, _, h => by
    rw [buildLoop] at h
    split at h
    · cases h
    · injection h with h
      exact Or.inl h.symm
  | token :: tokens, stack, n, res, hst, h => by
    by_cases hnum : isNumeric token = true
    · rw [buildLoop_numeric _ _ _ _ _ _ _ hnum] at h
      refine buildLoop_first config mint tokens (token :: stack) n res ?_ h
      intro x hx
      rcases List.mem_cons.1 hx with e | hx
      · rw [e]
        exact hnum
      · exact hst x hx
    · have hnum0 : isNumeric token = false := by simpa using hnum
      by_cases hop : isOperator token = true
      · rcases stack with _ | ⟨op2, _ | ⟨op1, stack1⟩⟩
        · simp [buildLoop, hnum0, hop] at h
        · simp [buildLoop, hnum0, hop] at h
        · rw [buildLoop_operator _ _ _ _ _ _ _ _ _ hnum0 hop] at h
          obtain ⟨news, hn⟩ := buildLoop_extends config mint tokens _ _ _ res h
          right
          rw [hn]
          have h2 := hst op2 (by simp)
          have h1 := hst op1 (by simp)
          simp [firstTaskReady, h1, h2]
      · have hop0 : isOperator token = false := by simpa using hop
        rcases stack with _ | ⟨op2, _ | ⟨op1, stack1⟩⟩ <;>
          simp [buildLoop, hnum0, hop0] at h

theorem buildTasksFromRPN_first (tokens : List String) (config : Config)
    (mint : Nat → String) (tasks : List Task)
    (h : buildTasksFromRPN tokens config mint = .ok tasks) :
    tasks = [] ∨ firstTaskReady tasks = true :=
  buildLoop_first config mint tokens [] 0 tasks (by simp) h

/-- C21: whenever `addExpression` succeeds, the chain it compiled either is empty or has
a first task with two numeric operands (neither is a placeholder). With a non-empty chain
the eligibility test passes: the new queue is the old queue with the first task of the
chain appended at the end, and the stored record is `Processing` with index 0. The stored
record is `Pending` exactly when the chain is empty, and then the queue is as before. -/
theorem C21_first_task_ready (a : Application) (exprID : String) (mint : Nat → String)
    (s id : String) (a1 : Application)
    (h : addExpression a exprID mint s = (.ok id, a1)) :
    ∃ tokens tasks e,
      infixToRPN s = .ok tokens ∧
      buildTasksFromRPN tokens a.config mint = .ok tasks ∧
      id = exprID ∧
      a1.heap = a.heap ++ tasks ∧
      mapGet a1.expressions exprID = some e ∧
      e.Tasks = List.range' a.heap.length tasks.length ∧
      e.CurrentTaskIndex = 0 ∧
      (e.Status = .StatusPending ↔ tasks = []) ∧
      (tasks = [] → a1.taskQueue = a.taskQueue) ∧
      (∀ t rest, tasks = t :: rest →
        isNumeric t.Arg1 = true ∧ isNumeric t.Arg2 = true ∧
        (∀ k, t.Arg1 ≠ placeholder k ∧ t.Arg2 ≠ placeholder k) ∧
        firstTaskReady tasks = true ∧
        a1.taskQueue = a.taskQueue ++ [a.heap.length] ∧
        deref a1.heap a.heap.length = t ∧
        e.Status = .StatusProcessing) := by
  rcases addExpression_cases a exprID mint s with ⟨err, he⟩ | ⟨tasks, h1, h2, he⟩
  · rw [he] at h
    injection h with h _
    cases h
  · rw [he] at h
    injection h with hid hstate
    injection hid with hid
    subst hstate
    have hfirst := buildTasksFromRPN_first _ _ _ _ h2
    refine ⟨_, tasks, _, h1, h2, hid.symm, rfl, mapGet_mapSet _ _ _, rfl, rfl, ?_, ?_, ?_⟩
    · dsimp only
      constructor
      · intro hp
        rcases hfirst with h0 | h0
        · exact h0
        · rw [if_pos h0] at hp
          cases hp
      · intro h0
        subst h0
        simp [firstTaskReady]
    · intro h0
      subst h0
      simp [firstTaskReady]
    · intro t rest ht
      have hready : firstTaskReady tasks = true := by
        rcases hfirst with h0 | h0
        · rw [h0] at ht
          cases ht
        · exact h0
      subst ht
      have hnum : isNumeric t.Arg1 = true ∧ isNumeric t.Arg2 = true := by
        simpa [firstTaskReady] using hready
      refine ⟨hnum.1, hnum.2,
        fun k => ⟨numeric_ne_placeholder _ k hnum.1, numeric_ne_placeholder _ k hnum.2⟩,
        hready, ?_, ?_, ?_⟩
      · dsimp only
        rw [if_pos hready]
      · dsimp only
        have := deref_append_right a.heap (t :: rest) 0
        rw [Nat.add_zero] at this
        rw [this]
        rfl
      · dsimp only
        rw [if_pos hready]

/-- Witness for C21 on `"2 + 3 * 4"` submitted to the empty coordinator: the chain is
`3 * 4`, `2 + T0`; its first task is queued and the record is `Processing`. -/
theorem C21_first_task_ready_witness :
    (sampleSum.taskQueue = [0] ∧
      ((deref sampleSum.heap 0).Arg1, (deref sampleSum.heap 0).Arg2) = ("3", "4") ∧
      (mapGet sampleSum.expressions "e").map (fun x => (x.Status, x.CurrentTaskIndex)) =
        some (.StatusProcessing, 0)) ∧
    ∃ tokens tasks e,
      infixToRPN "2 + 3 * 4" = .ok tokens ∧
      buildTasksFromRPN tokens (New defaultConfig).config sampleMint = .ok tasks ∧
      "e" = "e" ∧
      sampleSum.heap = (New defaultConfig).heap ++ tasks ∧
      mapGet sampleSum.expressions "e" = some e ∧
      e.Tasks = List.range' (New defaultConfig).heap.length tasks.length ∧
      e.CurrentTaskIndex = 0 ∧
      (e.Status = .StatusPending ↔ tasks = []) ∧
      (tasks = [] → sampleSum.taskQueue = (New defaultConfig).taskQueue) ∧
      (∀ t rest, tasks = t :: rest →
        isNumeric t.Arg1 = true ∧ isNumeric t.Arg2 = true ∧
        (∀ k, t.Arg1 ≠ placeholder k ∧ t.Arg2 ≠ placeholder k) ∧
        firstTaskReady tasks = true ∧
        sampleSum.taskQueue = (New defaultConfig).taskQueue ++ [(New defaultConfig).heap.length] ∧
        deref sampleSum.heap (New defaultConfig).heap.length = t ∧
        e.Status = .StatusProcessing) :=
  ⟨by decide,
    C21_first_task_ready (New defaultConfig) "e" sampleMint "2 + 3 * 4" "e" sampleSum
      (by decide)⟩

end Calc
